import Mathlib

/-!
# Announcement-driven block fetcher (`protocol/fetcher/fetcher.go`)

A shallow embedding of the fetcher's state and of the handlers of its event
loop, followed by the properties established about them.

Modelling conventions.

* Go maps are association lists (`Map.find`, `Map.put`, `Map.remove`); a lookup
  of a missing key in a counter map yields `0` (`Map.get`), as in Go.
* The per-peer counters are Go `int`s.  They are modelled as unbounded
  integers: a counter moves by one per handled record, so leaving the machine
  range would take more than `2^63` loop steps.
* Block heights are `uint64`; every arithmetic operation on them is reduced
  modulo `2^64`, and the `int64` conversions of `enqueue` wrap.
* Time stamps and durations are integers counting nanoseconds.
* The callbacks the loop reads (`getBlock`, `chainHeight`, the clock, the random
  source, the iteration order of a map) are parameters of each handler.
-/

namespace fetcher

/-! ## Go maps -/

namespace Map

/-- Lookup of a key, `m[k]` with the presence flag. -/
def find {κ ν : Type} [DecidableEq κ] : List (κ × ν) → κ → Option ν
  | [], _ => none
  | e :: m, k => if e.1 = k then some e.2 else find m k

/-- Removal of a key, `delete(m, k)`. -/
def remove {κ ν : Type} [DecidableEq κ] (m : List (κ × ν)) (k : κ) : List (κ × ν) :=
  m.filter (fun e => decide (e.1 ≠ k))

/-- Assignment to a key, `m[k] = v`. -/
def put {κ ν : Type} [DecidableEq κ] (m : List (κ × ν)) (k : κ) (v : ν) : List (κ × ν) :=
  (k, v) :: remove m k

/-- Lookup in a counter map, where a missing key reads as zero. -/
def get {κ : Type} [DecidableEq κ] (m : List (κ × Int)) (k : κ) : Int :=
  (find m k).getD 0

/-- The keys of a map. -/
def keys {κ ν : Type} (m : List (κ × ν)) : List κ :=
  m.map Prod.fst

/-- The statement `m[k]--; if m[k] == 0 { delete(m, k) }`. -/
def decrement {κ : Type} [DecidableEq κ] (m : List (κ × Int)) (k : κ) : List (κ × Int) :=
  let m1 := put m k (get m k - 1)
  if get m1 k = 0 then remove m1 k else m1

end Map

/-! ## Constants -/

/-- Time allowance before an announced block is explicitly requested (500 ms). -/
def arriveTimeout : Int := 500 * 1000000

/-- Interval used to collate almost-expired announces with fetches (100 ms). -/
def gatherSlack : Int := 100 * 1000000

/-- Maximum alloted time to return an explicitly requested block (5 s). -/
def fetchTimeout : Int := 5 * 1000000000

/-- Maximum allowed backward distance from the chain head. -/
def maxUncleDist : Nat := 7

/-- Maximum allowed distance from the chain head to queue. -/
def maxQueueDist : Nat := 32

/-- Maximum number of unique blocks a peer may have announced. -/
def hashLimit : Int := 256

/-- Maximum number of unique blocks a peer may have delivered. -/
def blockLimit : Int := 64

/-! ## Data model -/

/-- Block hashes (`types.Hash`), identified by a number. -/
abbrev Hash := Nat

/-- Peer identifiers. -/
abbrev PeerId := String

/-- The hash notification of the availability of a new block; `fetch` names
the request closure bound to the announcing peer. -/
structure Announce where
  hash : Hash
  time : Int
  origin : PeerId
  fetch : Nat
  deriving DecidableEq, Repr

/-- Modelled from the spec: the block value `nom.Momentum`, declared outside
the sources, with the fields the fetcher reads. -/
structure Momentum where
  hash : Hash
  height : Nat
  previousHash : Hash
  deriving DecidableEq, Repr

/-- Modelled from the spec: `nom.DetailedMomentum`, a momentum together with
its payload; the fetcher reads the momentum only. -/
structure DetailedMomentum where
  momentum : Momentum
  deriving DecidableEq, Repr

/-- A scheduled import operation. -/
structure Inject where
  origin : PeerId
  detailed : DetailedMomentum
  deriving DecidableEq, Repr

/-- Modelled from the spec: the priority queue of the `prque` library, which is
not part of the sources.  It holds the pushed values with their priorities in
insertion order. -/
abbrev Prque := List (Inject × Int)

/-- The mutable state of the fetcher (the maps and the queue of `Fetcher`). -/
structure Fetcher where
  announces : List (PeerId × Int)
  announced : List (Hash × List Announce)
  fetching : List (Hash × Announce)
  queue : Prque
  queues : List (PeerId × Int)
  queued : List (Hash × Inject)
  deriving DecidableEq, Repr

/-- The state built by `New`: empty maps and an empty queue. -/
def empty : Fetcher :=
  { announces := [], announced := [], fetching := [], queue := [], queues := [], queued := [] }

/-! ## Machine arithmetic -/

/-- The conversion `int64(x)` of a `uint64`. -/
def toInt64 (x : Nat) : Int :=
  if x % 2 ^ 64 < 2 ^ 63 then ((x % 2 ^ 64 : Nat) : Int) else ((x % 2 ^ 64 : Nat) : Int) - 2 ^ 64

/-- Reduction of an integer to the `int64` range (two's complement). -/
def wrapInt64 (x : Int) : Int :=
  (x + 2 ^ 63) % 2 ^ 64 - 2 ^ 63

/-- The number of binary digits of `x`, for `x` of at most `width` digits. -/
def bitLength : Nat → Nat → Nat
  | 0, _ => 0
  | width + 1, x => if x = 0 then 0 else bitLength width (x / 2) + 1

/-- The conversion `float32(x)` of a `uint64`: the value is rounded to 24
significant bits, to nearest and on a tie to the even significand.  The result
is an integer and is returned exactly. -/
def float32OfUint64 (x : Nat) : Nat :=
  if x < 2 ^ 24 then x
  else
    let e := bitLength 64 x - 24
    let q := x / 2 ^ e
    let r := x % 2 ^ e
    let half := 2 ^ (e - 1)
    if r > half ∨ (r = half ∧ q % 2 = 1) then (q + 1) * 2 ^ e else q * 2 ^ e

/-- The duration `time.Since(t)` read at `now`, saturating at the limits of
`time.Duration`. -/
def since (now t : Int) : Int :=
  max (-(2 ^ 63)) (min (2 ^ 63 - 1) (now - t))

/-! ## Priority queue -/

/-- Modelled from the spec: `Push` of the `prque` library. -/
def push (q : Prque) (op : Inject) (priority : Int) : Prque :=
  q ++ [(op, priority)]

/-- Modelled from the spec: the entry `PopItem` of the `prque` library takes,
one of the greatest priority (the earliest pushed among equals). -/
def top : Prque → Option (Inject × Int)
  | [] => none
  | e :: q =>
    match top q with
    | none => some e
    | some e1 => if e1.2 > e.2 then some e1 else some e

/-- The queue without the first occurrence of the entry `e`. -/
def without (e : Inject × Int) : Prque → Prque
  | [] => []
  | x :: q => if x = e then q else x :: without e q

/-- Modelled from the spec: `PopItem` of the `prque` library, returning the
value taken and the remaining queue; `none` on an empty queue. -/
def popItem (q : Prque) : Option (Inject × Prque) :=
  match top q with
  | none => none
  | some e => some (e.1, without e q)

/-! ## Forgetters and enqueue -/

/-- Embedding of `forgetHash`: removes all traces of a block announcement. -/
def forgetHash (f : Fetcher) (hash : Hash) : Fetcher :=
  let f1 : Fetcher :=
    { f with
      announces :=
        ((Map.find f.announced hash).getD []).foldl
          (fun m announce => Map.decrement m announce.origin) f.announces
      announced := Map.remove f.announced hash }
  match Map.find f1.fetching hash with
  | some announce =>
    { f1 with
      announces := Map.decrement f1.announces announce.origin
      fetching := Map.remove f1.fetching hash }
  | none => f1

/-- Embedding of `forgetBlock`: removes all traces of a queued block. -/
def forgetBlock (f : Fetcher) (hash : Hash) : Fetcher :=
  match Map.find f.queued hash with
  | some insert =>
    { f with
      queues := Map.decrement f.queues insert.origin
      queued := Map.remove f.queued hash }
  | none => f

/-- Embedding of `enqueue`, with the value `chainHeight()` returns. -/
def enqueue (chainHeight : Nat) (f : Fetcher) (peer : PeerId) (detailed : DetailedMomentum) :
    Fetcher :=
  let block := detailed.momentum
  let hash := block.hash
  let count := Map.get f.queues peer + 1
  if count > blockLimit then f
  else
    let dist := wrapInt64 (toInt64 block.height - toInt64 chainHeight)
    if dist < -(maxUncleDist : Int) ∨ dist > (maxQueueDist : Int) then f
    else
      match Map.find f.queued hash with
      | none =>
        let op : Inject := { origin := peer, detailed := detailed }
        { f with
          queues := Map.put f.queues peer count
          queued := Map.put f.queued hash op
          queue := push f.queue op (-(float32OfUint64 block.height : Int)) }
      | some _ => f

/-! ## Handlers of the event loop -/

/-- Embedding of the expiry phase of `loop`: `order` is the sequence in which
the `range` statement yields the entries of `fetching`. -/
def expire (now : Int) (order : List (Hash × Announce)) (f : Fetcher) : Fetcher :=
  order.foldl
    (fun f e => if since now e.2.time > fetchTimeout then forgetHash f e.1 else f) f

/-- Embedding of the loop of the import phase: `height` is the chain height
read before the loop, `known hash` tells whether `getBlock(hash)` is non-nil.
The second component collects the operations handed to `insert`.  Every turn
takes an entry off the queue and only the last one puts it back, so the length
of the queue bounds the number of turns. -/
def importLoop (height : Nat) (known : Hash → Bool) :
    Nat → Fetcher → List Inject → Fetcher × List Inject
  | 0, f, started => (f, started)
  | turns + 1, f, started =>
    match popItem f.queue with
    | none => (f, started)
    | some (op, rest) =>
      let momentum := op.detailed.momentum
      let number := momentum.height
      if number > (height + 1) % 2 ^ 64 then
        ({ f with queue := push rest op (-(float32OfUint64 momentum.height : Int)) }, started)
      else
        let hash := momentum.hash
        let f1 : Fetcher := { f with queue := rest }
        if (number + maxUncleDist) % 2 ^ 64 < height ∨ known hash = true then
          importLoop height known turns (forgetBlock f1 hash) started
        else
          importLoop height known turns f1 (started ++ [op])

/-- Embedding of the import phase of `loop`. -/
def importPhase (height : Nat) (known : Hash → Bool) (f : Fetcher) : Fetcher × List Inject :=
  importLoop height known f.queue.length f []

/-- Embedding of the `notify` case of `loop` (the timer apart). -/
def notify (f : Fetcher) (notification : Announce) : Fetcher :=
  let count := Map.get f.announces notification.origin + 1
  if count > hashLimit then f
  else
    match Map.find f.fetching notification.hash with
    | some _ => f
    | none =>
      { f with
        announces := Map.put f.announces notification.origin count
        announced :=
          Map.put f.announced notification.hash
            ((Map.find f.announced notification.hash).getD [] ++ [notification]) }

/-- Embedding of the `inject` case of `loop`. -/
def inject (chainHeight : Nat) (f : Fetcher) (op : Inject) : Fetcher :=
  enqueue chainHeight f op.origin op.detailed

/-- Embedding of the `done` case of `loop`. -/
def done (f : Fetcher) (hash : Hash) : Fetcher :=
  forgetBlock (forgetHash f hash) hash

/-- One turn of the first loop of the fetch-timer case; `request` is the map
from peers to the hashes to ask them for, `pick` the value `rand.Intn` returns.
The result is `none` when the turn indexes an empty announce list. -/
def fetchTurn (now : Int) (known : Hash → Bool) (pick : Hash → Nat)
    (acc : Fetcher × List (PeerId × List Hash)) (e : Hash × List Announce) :
    Option (Fetcher × List (PeerId × List Hash)) :=
  let hash := e.1
  let announces := e.2
  match announces with
  | [] => none
  | first :: _ =>
    if since now first.time > arriveTimeout - gatherSlack then
      match announces.get? (pick hash % announces.length) with
      | none => none
      | some announce =>
        let f1 := forgetHash acc.1 hash
        if known hash = false then
          some ({ f1 with fetching := Map.put f1.fetching hash announce },
            Map.put acc.2 announce.origin
              ((Map.find acc.2 announce.origin).getD [] ++ [hash]))
        else some (f1, acc.2)
    else some acc

/-- The first loop of the fetch-timer case over the entries of `announced` in
the sequence `order`. -/
def fetchLoop (now : Int) (known : Hash → Bool) (pick : Hash → Nat) :
    List (Hash × List Announce) → Fetcher × List (PeerId × List Hash) →
      Option (Fetcher × List (PeerId × List Hash))
  | [], acc => some acc
  | e :: order, acc =>
    match fetchTurn now known pick acc e with
    | none => none
    | some acc1 => fetchLoop now known pick order acc1

/-- Embedding of the fetch-timer case of `loop` up to the dispatch of the
requests: the new state and the request map. -/
def fetchTimer (now : Int) (known : Hash → Bool) (pick : Hash → Nat)
    (order : List (Hash × List Announce)) (f : Fetcher) :
    Option (Fetcher × List (PeerId × List Hash)) :=
  fetchLoop now known pick order (f, [])

/-- One turn of the first loop of the `filter` case: the state, the explicitly
requested blocks and the blocks to return. -/
def filterTurn (known : Hash → Bool)
    (acc : Fetcher × List DetailedMomentum × List DetailedMomentum)
    (detailed : DetailedMomentum) : Fetcher × List DetailedMomentum × List DetailedMomentum :=
  let hash := detailed.momentum.hash
  if (Map.find acc.1.fetching hash).isSome ∧ (Map.find acc.1.queued hash).isNone then
    if known hash = false then (acc.1, acc.2.1 ++ [detailed], acc.2.2)
    else (forgetHash acc.1 hash, acc.2.1, acc.2.2)
  else (acc.1, acc.2.1, acc.2.2 ++ [detailed])

/-- One turn of the second loop of the `filter` case. -/
def scheduleTurn (chainHeight : Nat) (f : Fetcher) (block : DetailedMomentum) : Fetcher :=
  match Map.find f.fetching block.momentum.hash with
  | some announce => enqueue chainHeight f announce.origin block
  | none => f

/-- Embedding of the `filter` case of `loop`: the new state and the blocks
sent back on the reply channel. -/
def filter (known : Hash → Bool) (chainHeight : Nat) (f : Fetcher)
    (blocks : List DetailedMomentum) : Fetcher × List DetailedMomentum :=
  let split := blocks.foldl (filterTurn known) (f, [], [])
  (split.2.1.foldl (scheduleTurn chainHeight) split.1, split.2.2)

/-! ## Reachable states -/

/-- The pairs of a fetcher state and the hashes of the import workers started
whose `done` signal has not been handled, reachable from the state built by
`New` by the phases and the event handlers of `loop`. -/
inductive Reachable : Fetcher → List Hash → Prop
  | init : Reachable empty []
  | expire {f : Fetcher} {w : List Hash} (now : Int) (order : List (Hash × Announce)) :
      Reachable f w → order.Perm f.fetching → Reachable (expire now order f) w
  | importPhase {f : Fetcher} {w : List Hash} (height : Nat) (known : Hash → Bool) :
      Reachable f w →
      Reachable (importPhase height known f).1
        (w ++ (importPhase height known f).2.map (fun op => op.detailed.momentum.hash))
  | notify {f : Fetcher} {w : List Hash} (notification : Announce) :
      Reachable f w → Reachable (notify f notification) w
  | inject {f : Fetcher} {w : List Hash} (chainHeight : Nat) (op : Inject) :
      Reachable f w → Reachable (inject chainHeight f op) w
  | done {f : Fetcher} {w : List Hash} (hash : Hash) :
      Reachable f w → hash ∈ w → Reachable (done f hash) (w.erase hash)
  | fetchTimer {f f1 : Fetcher} {w : List Hash} (now : Int) (known : Hash → Bool)
      (pick : Hash → Nat) (order : List (Hash × List Announce))
      (request : List (PeerId × List Hash)) :
      Reachable f w → order.Perm f.announced →
      fetchTimer now known pick order f = some (f1, request) → Reachable f1 w
  | filter {f : Fetcher} {w : List Hash} (known : Hash → Bool) (chainHeight : Nat)
      (blocks : List DetailedMomentum) :
      Reachable f w → Reachable (filter known chainHeight f blocks).1 w

/-! ## Quantities the properties speak of -/

/-- The hash under which an import operation is queued. -/
def Inject.hash (op : Inject) : Hash :=
  op.detailed.momentum.hash

/-- The number of announce records of peer `p` held in `announced` (over all
hashes) plus the number held in `fetching`. -/
def heldAnnounces (f : Fetcher) (p : PeerId) : Int :=
  (((f.announced.map Prod.snd).flatten.filter (fun a => decide (a.origin = p))).length : Int)
    + ((f.fetching.filter (fun e => decide (e.2.origin = p))).length : Int)

/-- The number of entries of `queued` whose origin is `p`. -/
def queuedBy (m : List (Hash × Inject)) (p : PeerId) : Int :=
  ((m.filter (fun e => decide (e.2.origin = p))).length : Int)

/-- The hashes of the entries of the priority queue. -/
def queueHashes (q : Prque) : List Hash :=
  q.map (fun e => e.1.hash)

/-- The agreement of the priority queue with `queued`, given the hashes `w` of
the import workers started and not yet done: every entry of the queue is the
value of `queued` for its hash, no hash has two entries, and the hashes of
`queued` are those of the queue together with those of `w`. -/
def QueueSound (q : Prque) (m : List (Hash × Inject)) (w : List Hash) : Prop :=
  (∀ e ∈ q, Map.find m e.1.hash = some e.1) ∧
  (queueHashes q).Nodup ∧
  w.Nodup ∧
  (∀ h ∈ w, Map.find m h ≠ none ∧ h ∉ queueHashes q) ∧
  (∀ h, Map.find m h ≠ none → h ∈ w ∨ h ∈ queueHashes q)

/-- A block of height 1 with hash 5, delivered by peer `A`. -/
def blockFive : Inject :=
  { origin := "A", detailed := { momentum := { hash := 5, height := 1, previousHash := 4 } } }

/-- The state after `blockFive` was injected at chain height 0 and the import
phase, still at chain height 0 and with the block unknown, started its import. -/
def importStarted : Fetcher :=
  (importPhase 0 (fun _ => false) (inject 0 empty blockFive)).1

/-- Peer `A` announces hash 1 at time 0. -/
def announceOne : Announce :=
  { hash := 1, time := 0, origin := "A", fetch := 7 }

/-- Peer `A` announces hash 2 at 6 s. -/
def announceTwo : Announce :=
  { hash := 2, time := 6000000000, origin := "A", fetch := 7 }

/-- The state after `announceOne` was notified and the fetch timer, handled at
0.5 s with the block unknown, requested hash 1. -/
def fetchingOne : Fetcher :=
  { empty with fetching := [(1, announceOne)] }

/-- The block of hash 1, of height 1. -/
def blockOne : DetailedMomentum :=
  { momentum := { hash := 1, height := 1, previousHash := 0 } }

/-- The state `fetchingOne` after the delivery of `blockOne` went through the
`filter` case at chain height 0. -/
def deliveredOne : Fetcher :=
  (filter (fun _ => false) 0 fetchingOne [blockOne]).1

/-- The state `deliveredOne` after the import phase started the import of
`blockOne` and the `done` signal of that import was handled. -/
def importedOne : Fetcher :=
  done (importPhase 0 (fun _ => false) deliveredOne).1 1

/-- A block of hash 9 whose height is `2^64 - 5`. -/
def distantBlock : DetailedMomentum :=
  { momentum := { hash := 9, height := 18446744073709551611, previousHash := 8 } }

/-- A state in which peer `A` has used up its announce allowance. -/
def saturated : Fetcher :=
  { empty with announces := [("A", 256)] }

/-- The announces of the hashes `0, …, n - 1` by peer `A`. -/
def burst (n : Nat) : List Announce :=
  (List.range n).map (fun i => { hash := i, time := 0, origin := "A", fetch := 7 })

/-- A state in which peer `A` has used up its block allowance. -/
def quotaFull : Fetcher :=
  { empty with queues := [("A", 64)] }

/-- A block of hash 1 and height `2^24`, delivered by peer `A`. -/
def lowBlock : Inject :=
  { origin := "A",
    detailed := { momentum := { hash := 1, height := 16777216, previousHash := 0 } } }

/-- A block of hash 2 and height `2^24 + 1`, delivered by peer `A`. -/
def highBlock : Inject :=
  { origin := "A",
    detailed := { momentum := { hash := 2, height := 16777217, previousHash := 1 } } }

/-- The state after, at chain height `2^24 - 2`, `highBlock` was injected,
the import phase ran and `lowBlock` was injected. -/
def collided : Fetcher :=
  inject 16777214 (importPhase 16777214 (fun _ => false) (inject 16777214 empty highBlock)).1
    lowBlock

/-- A block of hash 3 and height 20, delivered by peer `A`. -/
def blockTwenty : Inject :=
  { origin := "A", detailed := { momentum := { hash := 3, height := 20, previousHash := 2 } } }

/-! ## Import worker -/

/-- What an import worker does, in the order it does it: the calls of the
callbacks (for `broadcastBlock` the start of the task that makes the call) and
the send on the `done` channel. -/
inductive Effect where
  | getBlock (hash : Hash)
  | validateBlock (momentum : Momentum)
  | broadcastBlock (detailed : DetailedMomentum) (propagate : Bool)
  | dropPeer (peer : PeerId)
  | insertChain (blocks : List DetailedMomentum)
  | importedHook (momentum : Momentum)
  | done (hash : Hash)
  deriving DecidableEq, Repr

/-- What the callbacks answer to an import worker: whether `getBlock` finds the
parent, whether `validateBlock` and `insertChain` return no error, and whether
the testing hook `importedHook` is set. -/
structure Outcome where
  parentFound : Bool
  validateOk : Bool
  insertOk : Bool
  hookSet : Bool
  deriving DecidableEq, Repr

/-- Embedding of the body of the task `insert` starts, without the deferred
send. -/
def insertBody (o : Outcome) (peer : PeerId) (detailed : DetailedMomentum) : List Effect :=
  let momentum := detailed.momentum
  if o.parentFound = false then [Effect.getBlock momentum.previousHash]
  else if o.validateOk = false then
    [Effect.getBlock momentum.previousHash, Effect.validateBlock momentum, Effect.dropPeer peer]
  else if o.insertOk = false then
    [Effect.getBlock momentum.previousHash, Effect.validateBlock momentum,
      Effect.broadcastBlock detailed true, Effect.insertChain [detailed]]
  else
    [Effect.getBlock momentum.previousHash, Effect.validateBlock momentum,
      Effect.broadcastBlock detailed true, Effect.insertChain [detailed],
      Effect.broadcastBlock detailed false]
      ++ (if o.hookSet = true then [Effect.importedHook momentum] else [])

/-- Embedding of the task `insert` starts: the body, then the send of the hash
on `done` that `defer` runs on every way out. -/
def insert (o : Outcome) (peer : PeerId) (detailed : DetailedMomentum) : List Effect :=
  insertBody o peer detailed ++ [Effect.done detailed.momentum.hash]

/-- Whether the `filter` case takes a block of this hash as explicitly
requested: the hash is in `fetching` and not in `queued`. -/
def requested (f : Fetcher) (hash : Hash) : Bool :=
  (Map.find f.fetching hash).isSome && (Map.find f.queued hash).isNone

/-- The first loop of the `filter` case: the state, the explicitly requested
blocks and the blocks to return. -/
def filterFirst (known : Hash → Bool) (f : Fetcher) (blocks : List DetailedMomentum) :
    Fetcher × List DetailedMomentum × List DetailedMomentum :=
  blocks.foldl (filterTurn known) (f, [], [])

/-- Whether an effect is a call of `insertChain`. -/
def Effect.isInsertChain : Effect → Bool
  | Effect.insertChain _ => true
  | _ => false

/-- The answers with which an import succeeds while no testing hook is set, as
in a fetcher built by `New`. -/
def plainSuccess : Outcome :=
  { parentFound := true, validateOk := true, insertOk := true, hookSet := false }

/-! ## The channel `done` -/

/-- The loop and one import worker, as far as the channel `done` is concerned:
whether the loop has left through `case <-f.quit`, the state of the fetcher and
what the worker has still to do. -/
structure Running where
  returned : Bool
  fetcher : Fetcher
  worker : List Effect

/-- The moves of the loop and of the worker.  `New` makes `done` without a
buffer, so the send of the worker goes through only together with the receive
`case hash := <-f.done` of a loop that has not returned; the worker sends with
a plain `f.done <- hash`, not in a `select` with `quit`. -/
inductive Step : Running → Running → Prop
  | call (r : Bool) (f : Fetcher) (e : Effect) (rest : List Effect) :
      (∀ h, e ≠ Effect.done h) → Step ⟨r, f, e :: rest⟩ ⟨r, f, rest⟩
  | receive (f : Fetcher) (h : Hash) (rest : List Effect) :
      Step ⟨false, f, Effect.done h :: rest⟩ ⟨false, done f h, rest⟩
  | quit (f : Fetcher) (w : List Effect) : Step ⟨false, f, w⟩ ⟨true, f, w⟩

/-- The answers with which the worker finds no parent. -/
def orphan : Outcome :=
  { parentFound := false, validateOk := true, insertOk := true, hookSet := false }

/-! ## The fetch timer -/

/-- What `reschedule` does to the fetch timer. -/
inductive TimerOp where
  | untouched
  | reset (delay : Int)
  deriving DecidableEq, Repr

/-- The loop of `reschedule` over the entries of `announced`, from the current
value of `earliest`; `none` when it indexes an empty announce list. -/
def earliestLoop : List (Hash × List Announce) → Int → Option Int
  | [], earliest => some earliest
  | e :: order, earliest =>
    match e.2 with
    | [] => none
    | first :: _ => earliestLoop order (if earliest > first.time then first.time else earliest)

/-- Embedding of `reschedule`: `now` is the time `time.Now()` returns, `later`
the time at which `time.Since` reads the clock, `order` the sequence in which
`range` yields the entries of `announced`. -/
def reschedule (now later : Int) (order : List (Hash × List Announce)) (f : Fetcher) :
    Option TimerOp :=
  if f.announced.length = 0 then some TimerOp.untouched
  else
    match earliestLoop order now with
    | none => none
    | some earliest => some (TimerOp.reset (wrapInt64 (arriveTimeout - since later earliest)))

/-- Peer `A` announces hash 4 with a time stamp of 1 s. -/
def announceAhead : Announce :=
  { hash := 4, time := 1000000000, origin := "A", fetch := 7 }

/-- One turn of the second loop of the fetch-timer case: the request closure
taken from `fetching` for the first hash of the group, with the hashes it is
called on; `none` when the group is empty or its first hash is not fetched. -/
def dispatchTurn (f : Fetcher) (e : PeerId × List Hash) : Option (Nat × List Hash) :=
  match e.2 with
  | [] => none
  | first :: _ =>
    match Map.find f.fetching first with
    | none => none
    | some announce => some (announce.fetch, e.2)

/-- The second loop of the fetch-timer case: the requests sent, one per entry
of the request map. -/
def dispatch (f : Fetcher) : List (PeerId × List Hash) → Option (List (Nat × List Hash))
  | [] => some []
  | e :: request =>
    match dispatchTurn f e with
    | none => none
    | some sent =>
      match dispatch f request with
      | none => none
      | some rest => some (sent :: rest)

/-- Peer `B` announces hash 1 at 10 ms. -/
def announceOneB : Announce :=
  { hash := 1, time := 10000000, origin := "B", fetch := 8 }

/-- The state after peers `A` and `B` announced hash 1 at 0 and at 10 ms. -/
def announcedTwice : Fetcher :=
  notify (notify empty announceOne) announceOneB

/-- Whether the first announce of the list is older than
`arriveTimeout - gatherSlack` at `now`, the test of the fetch-timer case. -/
def past (now : Int) (l : List Announce) : Bool :=
  match l with
  | [] => false
  | first :: _ => decide (since now first.time > arriveTimeout - gatherSlack)

/-- The announce the fetch-timer case picks for an entry of `announced`. -/
def chosen (pick : Hash → Nat) (e : Hash × List Announce) : Option Announce :=
  e.2.get? (pick e.1 % e.2.length)

/-- The hashes the fetch-timer case asks peer `p` for, in the sequence of the
turns: those of the entries past the threshold and unknown to `getBlock` whose
picked announce comes from `p`. -/
def groupOf (now : Int) (known : Hash → Bool) (pick : Hash → Nat) (p : PeerId)
    (order : List (Hash × List Announce)) : List Hash :=
  (order.filter (fun e =>
    past now e.2 && !known e.1 && decide ((chosen pick e).map Announce.origin = some p))).map
    Prod.fst

end fetcher

/-!
# Helpers of the embedded contracts (`vm/embedded/implementation/common.go`)

The functions of `common.go` read and write the contract's storage through
package `definition` and read the frontier momentum through the context.  The
context is a record holding what those reads return; a write replaces the
corresponding part.  `common.DealWithErr` panics on a storage error; storage
writes and the reads of deposits are taken to succeed.  Amounts are `big.Int`s,
modelled as integers; heights are `uint64`.
-/

namespace implementation

/-- Account addresses (`types.Address`). -/
abbrev Address := String

/-- The errors `common.go` returns, by the names of package `constants`, and any
other error a load may report. -/
inductive Error where
  | ErrUpdateTooRecent
  | ErrUnpackError
  | ErrInvalidTokenOrAmount
  | ErrNothingToWithdraw
  | ErrNotEnoughDepositedQsr
  | other (text : String)
  deriving DecidableEq, Repr

/-- A Go result pair `(value, err)`: the value when `err` is nil, the error
otherwise. -/
inductive Result (α : Type) where
  | ok (value : α)
  | failed (err : Error)
  deriving DecidableEq, Repr

/-- Modelled from the spec: `nom.Momentum`, declared outside the sources, with
the one field `common.go` reads. -/
structure Momentum where
  height : Nat
  deriving DecidableEq, Repr

/-- Modelled from the spec: `definition.LastUpdateVariable`, the stored record
of the height of the last update. -/
structure LastUpdateVariable where
  height : Nat
  deriving DecidableEq, Repr

/-- Modelled from the spec: `definition.RewardDeposit`, the amounts of each coin
an address may collect. -/
structure RewardDeposit where
  znn : Int
  qsr : Int
  deriving DecidableEq, Repr

/-- Modelled from the spec: the part of `vm_context.AccountVmContext` that
`common.go` reaches.  `frontier` is what `GetFrontierMomentum()` returns,
`lastUpdate` what `definition.GetLastUpdate(context.Storage())` returns, and
`qsrDeposits` and `rewardDeposits` hold the stored deposit records by address. -/
structure Context where
  frontier : Result Momentum
  lastUpdate : Result LastUpdateVariable
  qsrDeposits : List (Address × Int)
  rewardDeposits : List (Address × RewardDeposit)
  deriving DecidableEq, Repr

/-- Embedding of `CanPerformUpdate`; `none` is the nil error.  The constant
`constants.UpdateMinNumMomentums`, declared outside the sources, is a
parameter. -/
def CanPerformUpdate (updateMinNumMomentums : Nat) (context : Context) : Option Error :=
  match context.frontier with
  | Result.failed err => some err
  | Result.ok momentum =>
    let currentHeight := momentum.height
    match context.lastUpdate with
    | Result.failed err => some err
    | Result.ok lastUpdate =>
      if (lastUpdate.height + updateMinNumMomentums) % 2 ^ 64 ≤ currentHeight then none
      else some Error.ErrUpdateTooRecent

/-- Modelled from the spec: `LastUpdateVariable.Save`, after which
`definition.GetLastUpdate` returns the saved record. -/
def LastUpdateVariable.Save (lastUpdate : LastUpdateVariable) (context : Context) : Context :=
  { context with lastUpdate := Result.ok lastUpdate }

/-- Embedding of `checkAndPerformUpdate`: the error returned and the context
left.  The outer `none` is the panic of the nil dereference that follows a
failed second load. -/
def checkAndPerformUpdate (updateMinNumMomentums : Nat) (context : Context) :
    Option (Option Error × Context) :=
  match CanPerformUpdate updateMinNumMomentums context with
  | some err => some (some err, context)
  | none =>
    match context.lastUpdate, context.frontier with
    | Result.ok lastUpdate, Result.ok momentum =>
      some (none, LastUpdateVariable.Save { lastUpdate with height := momentum.height } context)
    | _, _ => none

/-- The context in which the frontier momentum has height `height`. -/
def Context.atHeight (context : Context) (height : Nat) : Context :=
  { context with frontier := Result.ok { height := height } }

/-- Successive calls of `checkAndPerformUpdate`, one at each frontier height of
the list: the errors returned, in sequence, and the context left. -/
def laterCalls (updateMinNumMomentums : Nat) :
    Context → List Nat → Option (List (Option Error) × Context)
  | context, [] => some ([], context)
  | context, height :: heights =>
    match checkAndPerformUpdate updateMinNumMomentums (context.atHeight height) with
    | none => none
    | some (err, context1) =>
      match laterCalls updateMinNumMomentums context1 heights with
      | none => none
      | some (errs, context2) => some (err :: errs, context2)

/-- Modelled from the spec: `definition.GetQsrDeposit`, the stored deposit of the
address, zero when no record is stored. -/
def GetQsrDeposit (context : Context) (address : Address) : Int :=
  (fetcher.Map.find context.qsrDeposits address).getD 0

/-- Embedding of `checkAndConsumeQsr`: the error returned and the context left.
`QsrDeposit.Delete` removes the record of the address, `QsrDeposit.Save` stores
the new amount under it. -/
def checkAndConsumeQsr (context : Context) (ownerAddress : Address) (requiredAmount : Int) :
    Option Error × Context :=
  let qsr := GetQsrDeposit context ownerAddress
  if qsr < requiredAmount then (some Error.ErrNotEnoughDepositedQsr, context)
  else
    let qsr1 := qsr - requiredAmount
    if qsr1 = 0 then
      (none, { context with qsrDeposits := fetcher.Map.remove context.qsrDeposits ownerAddress })
    else
      (none, { context with
        qsrDeposits := fetcher.Map.put context.qsrDeposits ownerAddress qsr1 })

/-- A context at frontier height 1000 whose last update was made at height 700,
in which `alice` has a QSR deposit of 50 and rewards of 7 ZNN and 3 QSR to
collect. -/
def updateDue : Context :=
  { frontier := Result.ok { height := 1000 }
    lastUpdate := Result.ok { height := 700 }
    qsrDeposits := [("alice", 50)]
    rewardDeposits := [("alice", { znn := 7, qsr := 3 })] }

/-- Token standards (`types.ZenonTokenStandard`): the two coins, by the names
of package `types`, and any other token. -/
inductive TokenStandard where
  | ZnnTokenStandard
  | QsrTokenStandard
  | other (id : Nat)
  deriving DecidableEq, Repr

/-- Modelled from the spec: the block types of package `nom`. -/
inductive BlockType where
  | BlockTypeGenesisReceive
  | BlockTypeUserSend
  | BlockTypeUserReceive
  | BlockTypeContractSend
  | BlockTypeContractReceive
  deriving DecidableEq, Repr

/-- Packed call data, a sequence of bytes. -/
abbrev Data := List Nat

/-- Modelled from the spec: `nom.AccountBlock`, declared outside the sources,
with the fields `common.go` reads or sets. -/
structure AccountBlock where
  address : Address
  toAddress : Address
  blockType : BlockType
  amount : Int
  tokenStandard : TokenStandard
  data : Data
  deriving DecidableEq, Repr

/-- The parts of packages `definition` and `types` that the collect method
calls, declared outside the sources and taken as parameters:
`ABICommon.UnpackEmptyMethod` (the error it returns), `ABICommon.PackMethod`
(the data and the error it returns), `ABIToken.PackMethodPanic` applied to
`MintMethodName`, and the address `types.TokenContract`. -/
structure Library where
  UnpackEmptyMethod : String → Data → Option Error
  PackMethod : String → Data × Option Error
  PackMint : TokenStandard → Int → Address → Data
  TokenContract : Address

/-- The common embedded method that issues the collected rewards. -/
structure CollectRewardMethod where
  MethodName : String
  deriving DecidableEq, Repr

/-- Modelled from the spec: `definition.GetRewardDeposit`, the stored reward
deposit of the address, zero in both coins when no record is stored. -/
def GetRewardDeposit (context : Context) (address : Address) : RewardDeposit :=
  (fetcher.Map.find context.rewardDeposits address).getD { znn := 0, qsr := 0 }

/-- Embedding of `CollectRewardMethod.ValidateSendBlock`: the error returned and
the block, whose data the method overwrites. -/
def CollectRewardMethod.ValidateSendBlock (lib : Library) (p : CollectRewardMethod)
    (block : AccountBlock) : Option Error × AccountBlock :=
  match lib.UnpackEmptyMethod p.MethodName block.data with
  | some _ => (some Error.ErrUnpackError, block)
  | none =>
    if block.amount ≠ 0 then (some Error.ErrInvalidTokenOrAmount, block)
    else
      let packed := lib.PackMethod p.MethodName
      (packed.2, { block with data := packed.1 })

/-- Embedding of `CollectRewardMethod.ReceiveBlock`: the blocks or the error
returned, and the context left.  `RewardDeposit.Delete` removes the record of
the address. -/
def CollectRewardMethod.ReceiveBlock (lib : Library) (p : CollectRewardMethod)
    (context : Context) (sendBlock : AccountBlock) : Result (List AccountBlock) × Context :=
  match CollectRewardMethod.ValidateSendBlock lib p sendBlock with
  | (some err, _) => (Result.failed err, context)
  | (none, sendBlock) =>
    let deposit := GetRewardDeposit context sendBlock.address
    if deposit.znn = 0 ∧ deposit.qsr = 0 then (Result.failed Error.ErrNothingToWithdraw, context)
    else
      let result : List AccountBlock := []
      let result :=
        if deposit.znn > 0 then
          result ++ [{
            address := sendBlock.toAddress
            toAddress := lib.TokenContract
            blockType := BlockType.BlockTypeContractSend
            amount := 0
            tokenStandard := TokenStandard.ZnnTokenStandard
            data := lib.PackMint TokenStandard.ZnnTokenStandard deposit.znn sendBlock.address }]
        else result
      let result :=
        if deposit.qsr > 0 then
          result ++ [{
            address := sendBlock.toAddress
            toAddress := lib.TokenContract
            blockType := BlockType.BlockTypeContractSend
            amount := 0
            tokenStandard := TokenStandard.ZnnTokenStandard
            data := lib.PackMint TokenStandard.QsrTokenStandard deposit.qsr sendBlock.address }]
        else result
      (Result.ok result,
        { context with
          rewardDeposits := fetcher.Map.remove context.rewardDeposits sendBlock.address })

/-- A library whose empty-method data is the empty sequence and whose mint data
lists a code of the token, the amount and the length of the address. -/
def sampleLibrary : Library :=
  { UnpackEmptyMethod := fun _ data => if data = [] then none else some (Error.other "data")
    PackMethod := fun _ => ([], none)
    PackMint := fun token amount address =>
      [if token = TokenStandard.ZnnTokenStandard then 1 else 2, amount.toNat, address.length]
    TokenContract := "token" }

/-- The collect method, by its name in the contracts. -/
def collect : CollectRewardMethod :=
  { MethodName := "CollectReward" }

/-- A send block by which `alice` calls the collect method of the contract
`pillar`. -/
def collectSend : AccountBlock :=
  { address := "alice"
    toAddress := "pillar"
    blockType := BlockType.BlockTypeUserSend
    amount := 0
    tokenStandard := TokenStandard.ZnnTokenStandard
    data := [] }

end implementation

namespace fetcher

/-- The state after `blockTwenty` was injected, at chain height 0, into
`importStarted`: the block of hash 3 waits in the priority queue while the
worker started for hash 5 is still running. -/
def importPending : Fetcher :=
  inject 0 importStarted blockTwenty

/-- The state after peer `A` announced hash 1 at time 0 and hash 2 at 6 s and
the fetch timer, handled at 7 s with both blocks unknown, requested both. -/
def fetchingBoth : Fetcher :=
  { empty with fetching := [(1, announceOne), (2, announceTwo)] }

/-- The block of hash 2, of height 2. -/
def blockTwo : DetailedMomentum :=
  { momentum := { hash := 2, height := 2, previousHash := 1 } }

/-- A block of hash `100 + n` and height 5, delivered by peer `A`. -/
def fillerBlock (n : Nat) : Inject :=
  { origin := "A",
    detailed := { momentum := { hash := 100 + n, height := 5, previousHash := 0 } } }

/-- The state after the blocks `fillerBlock 0`, ..., `fillerBlock (n - 1)` were
injected into `fetchingBoth` at chain height 0. -/
def crowded : Nat → Fetcher
  | 0 => fetchingBoth
  | n + 1 => inject 0 (crowded n) (fillerBlock n)

/-! ## Map lemmas -/

namespace Map

theorem find_remove {κ ν : Type} [DecidableEq κ] (m : List (κ × ν)) (k k1 : κ) :
    find (remove m k) k1 = if k1 = k then none else find m k1 := by
  induction m with
  | nil => simp [remove, find]
  | cons e m ih =>
    unfold remove at ih ⊢
    by_cases hk : e.1 = k
    · simp only [List.filter, hk, ne_eq, not_true_eq_false, decide_False, find]
      rw [ih]
      by_cases h1 : k1 = k
      · simp [h1]
      · have : ¬ k = k1 := fun h => h1 h.symm
        simp [h1, this]
    · simp only [List.filter, hk, ne_eq, not_false_eq_true, decide_True, find]
      rw [ih]
      by_cases h1 : k1 = k
      · subst h1
        simp [hk]
      · simp [h1]

theorem find_put {κ ν : Type} [DecidableEq κ] (m : List (κ × ν)) (k k1 : κ) (v : ν) :
    find (put m k v) k1 = if k1 = k then some v else find m k1 := by
  unfold put
  simp only [find]
  by_cases h1 : k1 = k
  · simp [h1]
  · have : ¬ k = k1 := fun h => h1 h.symm
    simp [h1, this, find_remove]

theorem get_put {κ : Type} [DecidableEq κ] (m : List (κ × Int)) (k k1 : κ) (v : Int) :
    get (put m k v) k1 = if k1 = k then v else get m k1 := by
  unfold get
  rw [find_put]
  split <;> rfl

theorem get_remove {κ : Type} [DecidableEq κ] (m : List (κ × Int)) (k k1 : κ) :
    get (remove m k) k1 = if k1 = k then 0 else get m k1 := by
  unfold get
  rw [find_remove]
  split <;> rfl

theorem get_decrement {κ : Type} [DecidableEq κ] (m : List (κ × Int)) (k k1 : κ) :
    get (decrement m k) k1 = if k1 = k then get m k - 1 else get m k1 := by
  unfold decrement
  simp only [get_put, if_true]
  by_cases h0 : get m k - 1 = 0
  · simp only [h0, if_true, get_remove, get_put]
    split <;> simp
  · simp only [h0, if_false, get_put]

theorem find_decrement {κ : Type} [DecidableEq κ] (m : List (κ × Int)) (k k1 : κ) :
    find (decrement m k) k1 =
      if k1 = k then (if get m k - 1 = 0 then none else some (get m k - 1)) else find m k1 := by
  unfold decrement
  simp only [get_put, if_true]
  by_cases h0 : get m k - 1 = 0
  · simp only [h0, if_true, find_remove, find_put]
    split <;> rfl
  · simp only [h0, if_false, find_put]

theorem find_eq_none_iff {κ ν : Type} [DecidableEq κ] (m : List (κ × ν)) (k : κ) :
    find m k = none ↔ k ∉ keys m := by
  induction m with
  | nil => simp [find, keys]
  | cons e m ih =>
    unfold keys at ih ⊢
    by_cases hk : e.1 = k
    · simp [find, hk]
    · have : ¬ k = e.1 := fun h => hk h.symm
      simp [find, hk, ih, this]

theorem mem_of_find {κ ν : Type} [DecidableEq κ] (m : List (κ × ν)) (k : κ) (v : ν)
    (h : find m k = some v) : (k, v) ∈ m := by
  induction m with
  | nil => simp [find] at h
  | cons e m ih =>
    by_cases hk : e.1 = k
    · simp only [find, hk, if_true, Option.some.injEq] at h
      have : e = (k, v) := by
        cases e
        simp_all
      simp [this]
    · simp only [find, hk, if_false] at h
      exact List.mem_cons_of_mem _ (ih h)

theorem remove_of_find_none {κ ν : Type} [DecidableEq κ] (m : List (κ × ν)) (k : κ)
    (h : find m k = none) : remove m k = m := by
  unfold remove
  rw [List.filter_eq_self]
  intro e he
  have hk : k ∉ keys m := (find_eq_none_iff m k).1 h
  have : e.1 ≠ k := by
    intro heq
    exact hk (heq ▸ List.mem_map_of_mem Prod.fst he)
  simpa using this

theorem keys_remove {κ ν : Type} [DecidableEq κ] (m : List (κ × ν)) (k : κ) :
    keys (remove m k) = (keys m).filter (fun x => decide (x ≠ k)) := by
  unfold keys remove
  rw [List.filter_map]
  rfl

theorem nodup_keys_remove {κ ν : Type} [DecidableEq κ] (m : List (κ × ν)) (k : κ)
    (h : (keys m).Nodup) : (keys (remove m k)).Nodup := by
  rw [keys_remove]
  exact h.filter _

theorem nodup_keys_put {κ ν : Type} [DecidableEq κ] (m : List (κ × ν)) (k : κ) (v : ν)
    (h : (keys m).Nodup) : (keys (put m k v)).Nodup := by
  have h1 := nodup_keys_remove m k h
  unfold put
  unfold keys at h1 ⊢
  rw [List.map_cons, List.nodup_cons]
  refine ⟨?_, h1⟩
  have := (find_eq_none_iff (remove m k) k).1 (by rw [find_remove]; simp)
  simpa [keys] using this

end Map

/-! ## What each operation leaves untouched -/

@[simp]
theorem forgetHash_queue (f : Fetcher) (hash : Hash) :
    (forgetHash f hash).queue = f.queue := by
  unfold forgetHash; simp only; split <;> rfl

@[simp]
theorem forgetHash_queues (f : Fetcher) (hash : Hash) :
    (forgetHash f hash).queues = f.queues := by
  unfold forgetHash; simp only; split <;> rfl

@[simp]
theorem forgetHash_queued (f : Fetcher) (hash : Hash) :
    (forgetHash f hash).queued = f.queued := by
  unfold forgetHash; simp only; split <;> rfl

theorem forgetHash_announced (f : Fetcher) (hash : Hash) :
    (forgetHash f hash).announced = Map.remove f.announced hash := by
  unfold forgetHash; simp only; split <;> rfl

theorem forgetHash_fetching (f : Fetcher) (hash : Hash) :
    (forgetHash f hash).fetching = Map.remove f.fetching hash := by
  unfold forgetHash
  simp only
  split
  · rfl
  · next h => exact (Map.remove_of_find_none _ _ h).symm

@[simp]
theorem forgetBlock_announces (f : Fetcher) (hash : Hash) :
    (forgetBlock f hash).announces = f.announces := by
  unfold forgetBlock; split <;> rfl

@[simp]
theorem forgetBlock_announced (f : Fetcher) (hash : Hash) :
    (forgetBlock f hash).announced = f.announced := by
  unfold forgetBlock; split <;> rfl

@[simp]
theorem forgetBlock_fetching (f : Fetcher) (hash : Hash) :
    (forgetBlock f hash).fetching = f.fetching := by
  unfold forgetBlock; split <;> rfl

@[simp]
theorem forgetBlock_queue (f : Fetcher) (hash : Hash) :
    (forgetBlock f hash).queue = f.queue := by
  unfold forgetBlock; split <;> rfl

theorem forgetBlock_queued (f : Fetcher) (hash : Hash) :
    (forgetBlock f hash).queued = Map.remove f.queued hash := by
  unfold forgetBlock
  split
  · rfl
  · next h => exact (Map.remove_of_find_none _ _ h).symm

@[simp]
theorem enqueue_announces (c : Nat) (f : Fetcher) (p : PeerId) (d : DetailedMomentum) :
    (enqueue c f p d).announces = f.announces := by
  unfold enqueue
  simp only
  split
  · rfl
  · split
    · rfl
    · split <;> rfl

@[simp]
theorem enqueue_announced (c : Nat) (f : Fetcher) (p : PeerId) (d : DetailedMomentum) :
    (enqueue c f p d).announced = f.announced := by
  unfold enqueue
  simp only
  split
  · rfl
  · split
    · rfl
    · split <;> rfl

@[simp]
theorem enqueue_fetching (c : Nat) (f : Fetcher) (p : PeerId) (d : DetailedMomentum) :
    (enqueue c f p d).fetching = f.fetching := by
  unfold enqueue
  simp only
  split
  · rfl
  · split
    · rfl
    · split <;> rfl

@[simp]
theorem notify_fetching (f : Fetcher) (a : Announce) :
    (notify f a).fetching = f.fetching := by
  unfold notify
  simp only
  split
  · rfl
  · split <;> rfl

@[simp]
theorem notify_queue (f : Fetcher) (a : Announce) :
    (notify f a).queue = f.queue := by
  unfold notify
  simp only
  split
  · rfl
  · split <;> rfl

@[simp]
theorem notify_queues (f : Fetcher) (a : Announce) :
    (notify f a).queues = f.queues := by
  unfold notify
  simp only
  split
  · rfl
  · split <;> rfl

@[simp]
theorem notify_queued (f : Fetcher) (a : Announce) :
    (notify f a).queued = f.queued := by
  unfold notify
  simp only
  split
  · rfl
  · split <;> rfl

/-! ## Induction over the reachable states -/

theorem expire_preserves (P : Fetcher → Prop)
    (hForget : ∀ f hash, P f → P (forgetHash f hash))
    (now : Int) (order : List (Hash × Announce)) (f : Fetcher) (h : P f) :
    P (expire now order f) := by
  unfold expire
  induction order generalizing f with
  | nil => exact h
  | cons e order ih =>
    rw [List.foldl_cons]
    apply ih
    split
    · exact hForget _ _ h
    · exact h

theorem fetchLoop_preserves (P : Fetcher → Prop)
    (hPromote : ∀ f hash a, P f →
      P { forgetHash f hash with fetching := Map.put (forgetHash f hash).fetching hash a })
    (hForget : ∀ f hash, P f → P (forgetHash f hash))
    (now : Int) (known : Hash → Bool) (pick : Hash → Nat)
    (order : List (Hash × List Announce)) (acc res : Fetcher × List (PeerId × List Hash))
    (h : P acc.1) (hres : fetchLoop now known pick order acc = some res) : P res.1 := by
  induction order generalizing acc with
  | nil =>
    simp only [fetchLoop, Option.some.injEq] at hres
    exact hres ▸ h
  | cons e order ih =>
    unfold fetchLoop at hres
    split at hres
    · exact absurd hres (by simp)
    · next acc1 hturn =>
      refine ih acc1 ?_ hres
      unfold fetchTurn at hturn
      simp only at hturn
      split at hturn
      · exact absurd hturn (by simp)
      · split at hturn
        · split at hturn
          · exact absurd hturn (by simp)
          · split at hturn
            · simp only [Option.some.injEq] at hturn
              rw [← hturn]
              exact hPromote _ _ _ h
            · simp only [Option.some.injEq] at hturn
              rw [← hturn]
              exact hForget _ _ h
        · simp only [Option.some.injEq] at hturn
          exact hturn ▸ h

theorem filter_preserves (P : Fetcher → Prop)
    (hForget : ∀ f hash, P f → P (forgetHash f hash))
    (hEnqueue : ∀ c f p d, P f → P (enqueue c f p d))
    (known : Hash → Bool) (chainHeight : Nat) (f : Fetcher) (blocks : List DetailedMomentum)
    (h : P f) : P (filter known chainHeight f blocks).1 := by
  unfold filter
  simp only
  have h1 : ∀ (bs : List DetailedMomentum)
      (acc : Fetcher × List DetailedMomentum × List DetailedMomentum),
      P acc.1 → P (bs.foldl (filterTurn known) acc).1 := by
    intro bs
    induction bs with
    | nil => intro acc hacc; exact hacc
    | cons b bs ih =>
      intro acc hacc
      rw [List.foldl_cons]
      apply ih
      unfold filterTurn
      simp only
      split
      · split
        · exact hacc
        · exact hForget _ _ hacc
      · exact hacc
  have h2 : ∀ (bs : List DetailedMomentum) (g : Fetcher),
      P g → P (bs.foldl (scheduleTurn chainHeight) g) := by
    intro bs
    induction bs with
    | nil => intro g hg; exact hg
    | cons b bs ih =>
      intro g hg
      rw [List.foldl_cons]
      apply ih
      unfold scheduleTurn
      split
      · exact hEnqueue _ _ _ _ hg
      · exact hg
  exact h2 _ _ (h1 _ _ h)

/-- The induction principle of the reachable states, by operation. -/
theorem reachable_induction (P : Fetcher → List Hash → Prop)
    (hInit : P empty [])
    (hForget : ∀ f w hash, P f w → P (forgetHash f hash) w)
    (hPromote : ∀ f w hash a, P f w →
      P { forgetHash f hash with fetching := Map.put (forgetHash f hash).fetching hash a } w)
    (hNotify : ∀ f w a, P f w → P (notify f a) w)
    (hEnqueue : ∀ c f w p d, P f w → P (enqueue c f p d) w)
    (hImport : ∀ height known f w, P f w →
      P (importPhase height known f).1
        (w ++ (importPhase height known f).2.map (fun op => op.detailed.momentum.hash)))
    (hDone : ∀ f w hash, P f w → hash ∈ w → P (done f hash) (w.erase hash))
    {f : Fetcher} {w : List Hash} (h : Reachable f w) : P f w := by
  induction h with
  | init => exact hInit
  | expire now order _ _ ih =>
    exact expire_preserves (fun f => P f _) (fun f hash hf => hForget f _ hash hf) now order _ ih
  | importPhase height known _ ih => exact hImport _ _ _ _ ih
  | notify a _ ih => exact hNotify _ _ _ ih
  | inject c op _ ih => exact hEnqueue _ _ _ _ _ ih
  | done hash _ hmem ih => exact hDone _ _ _ ih hmem
  | fetchTimer now known pick order request _ _ hres ih =>
    exact fetchLoop_preserves (fun f => P f _) (fun f hash a hf => hPromote f _ hash a hf)
      (fun f hash hf => hForget f _ hash hf) now known pick order _ _ ih hres
  | filter known c blocks _ ih =>
    exact filter_preserves (fun f => P f _) (fun f hash hf => hForget f _ hash hf)
      (fun c f p d hf => hEnqueue c f _ p d hf) known c _ blocks ih

/-- The import loop preserves a property the queue has no part in. -/
theorem importLoop_preserves (P : Fetcher → Prop)
    (hQueue : ∀ f q, P f → P { f with queue := q })
    (hBlock : ∀ f hash, P f → P (forgetBlock f hash))
    (height : Nat) (known : Hash → Bool) (turns : Nat) (f : Fetcher) (started : List Inject)
    (h : P f) : P (importLoop height known turns f started).1 := by
  induction turns generalizing f started with
  | zero => exact h
  | succ turns ih =>
    unfold importLoop
    split
    · exact h
    · simp only
      split
      · exact hQueue _ _ h
      · split
        · exact ih _ _ (hBlock _ _ (hQueue _ _ h))
        · exact ih _ _ (hQueue _ _ h)

/-- The induction principle for the properties of the state alone in which
the priority queue has no part. -/
theorem reachable_state_induction (P : Fetcher → Prop)
    (hInit : P empty)
    (hForget : ∀ f hash, P f → P (forgetHash f hash))
    (hPromote : ∀ f hash a, P f →
      P { forgetHash f hash with fetching := Map.put (forgetHash f hash).fetching hash a })
    (hNotify : ∀ f a, P f → P (notify f a))
    (hEnqueue : ∀ c f p d, P f → P (enqueue c f p d))
    (hBlock : ∀ f hash, P f → P (forgetBlock f hash))
    (hQueue : ∀ f q, P f → P { f with queue := q })
    {f : Fetcher} {w : List Hash} (h : Reachable f w) : P f :=
  reachable_induction (fun f _ => P f) hInit (fun f _ hash hf => hForget f hash hf)
    (fun f _ hash a hf => hPromote f hash a hf) (fun f _ a hf => hNotify f a hf)
    (fun c f _ p d hf => hEnqueue c f p d hf)
    (fun height known f _ hf =>
      importLoop_preserves P hQueue hBlock height known _ f [] hf)
    (fun f _ hash hf _ => hBlock _ hash (hForget f hash hf)) h

/-! ## Example runs -/

theorem reachable_notified : Reachable (notify empty announceOne) [] :=
  Reachable.notify announceOne Reachable.init

theorem reachable_fetchingOne : Reachable fetchingOne [] :=
  Reachable.fetchTimer 500000000 (fun _ => false) (fun _ => 0)
    (notify empty announceOne).announced [("A", [1])] reachable_notified
    (List.Perm.refl _) (by decide)

theorem reachable_deliveredOne : Reachable deliveredOne [] :=
  Reachable.filter (fun _ => false) 0 [blockOne] reachable_fetchingOne

theorem reachable_importedOne : Reachable importedOne [] := by
  have h := Reachable.importPhase 0 (fun _ => false) reachable_deliveredOne
  have e : ([] : List Hash) ++ (importPhase 0 (fun _ => false) deliveredOne).2.map
      (fun op => op.detailed.momentum.hash) = [1] := by decide
  rw [e] at h
  exact Reachable.done 1 h (by decide)

theorem reachable_injected : Reachable (inject 0 empty blockFive) [] :=
  Reachable.inject 0 blockFive Reachable.init

theorem reachable_importStarted : Reachable importStarted [5] := by
  have h := Reachable.importPhase 0 (fun _ => false) reachable_injected
  have e : ([] : List Hash) ++ (importPhase 0 (fun _ => false) (inject 0 empty blockFive)).2.map
      (fun op => op.detailed.momentum.hash) = [5] := by decide
  rw [e] at h
  exact h

/-! ## The counters never exceed their limits -/

theorem Map.get_decrement_le {κ : Type} [DecidableEq κ] (m : List (κ × Int)) (k k1 : κ) :
    Map.get (Map.decrement m k) k1 ≤ Map.get m k1 := by
  rw [Map.get_decrement]
  split
  · next h => subst h; omega
  · exact le_refl _

theorem get_foldl_decrement_le (l : List Announce) (m : List (PeerId × Int)) (p : PeerId) :
    Map.get (l.foldl (fun m announce => Map.decrement m announce.origin) m) p ≤ Map.get m p := by
  induction l generalizing m with
  | nil => exact le_refl _
  | cons a l ih =>
    rw [List.foldl_cons]
    exact le_trans (ih _) (Map.get_decrement_le _ _ _)

theorem forgetHash_announces_le (f : Fetcher) (hash : Hash) (p : PeerId) :
    Map.get (forgetHash f hash).announces p ≤ Map.get f.announces p := by
  unfold forgetHash
  simp only
  split
  · exact le_trans (Map.get_decrement_le _ _ _) (get_foldl_decrement_le _ _ _)
  · exact get_foldl_decrement_le _ _ _

theorem forgetBlock_queues_le (f : Fetcher) (hash : Hash) (p : PeerId) :
    Map.get (forgetBlock f hash).queues p ≤ Map.get f.queues p := by
  unfold forgetBlock
  split
  · exact Map.get_decrement_le _ _ _
  · exact le_refl _

theorem notify_announces_le (f : Fetcher) (a : Announce) (p : PeerId)
    (h : Map.get f.announces p ≤ 256) : Map.get (notify f a).announces p ≤ 256 := by
  unfold notify
  simp only
  split
  · exact h
  · next hc =>
    split
    · exact h
    · simp only [Map.get_put]
      split
      · simp only [hashLimit] at hc
        omega
      · exact h

theorem enqueue_queues_le (c : Nat) (f : Fetcher) (peer : PeerId) (d : DetailedMomentum)
    (p : PeerId) (h : Map.get f.queues p ≤ 64) : Map.get (enqueue c f peer d).queues p ≤ 64 := by
  unfold enqueue
  simp only
  split
  · exact h
  · next hc =>
    split
    · exact h
    · split
      · simp only [Map.get_put]
        split
        · simp only [blockLimit] at hc
          omega
        · exact h
      · exact h

theorem reachable_counters_le {f : Fetcher} {w : List Hash} (h : Reachable f w) (p : PeerId) :
    Map.get f.announces p ≤ 256 ∧ Map.get f.queues p ≤ 64 := by
  revert p
  refine reachable_state_induction
    (fun f => ∀ p, Map.get f.announces p ≤ 256 ∧ Map.get f.queues p ≤ 64)
    ?_ ?_ ?_ ?_ ?_ ?_ ?_ h
  · intro p
    simp [empty, Map.get, Map.find]
  · intro f hash hf p
    exact ⟨le_trans (forgetHash_announces_le f hash p) (hf p).1, by simpa using (hf p).2⟩
  · intro f hash a hf p
    exact ⟨le_trans (forgetHash_announces_le f hash p) (hf p).1, by simpa using (hf p).2⟩
  · intro f a hf p
    exact ⟨notify_announces_le f a p (hf p).1, by simpa using (hf p).2⟩
  · intro c f peer d hf p
    exact ⟨by simpa using (hf p).1, enqueue_queues_le c f peer d p (hf p).2⟩
  · intro f hash hf p
    exact ⟨by simpa using (hf p).1, le_trans (forgetBlock_queues_le f hash p) (hf p).2⟩
  · intro f q hf p
    exact hf p

/-- C2: in every reachable state, for every peer `p`, `announces[p] ≤ 256`
(`hashLimit`) and `queues[p] ≤ 64` (`blockLimit`). -/
theorem counters_within_limits (f : Fetcher) (w : List Hash) (h : Reachable f w) (p : PeerId) :
    Map.get f.announces p ≤ 256 ∧ Map.get f.queues p ≤ 64 :=
  reachable_counters_le h p

/-- The bounds at the state reached by one announce of peer `A`. -/
theorem counters_within_limits_witness :
    Reachable (notify empty announceOne) [] ∧
    Map.get (notify empty announceOne).announces "A" ≤ 256 ∧
    Map.get (notify empty announceOne).queues "A" ≤ 64 :=
  ⟨reachable_notified,
    counters_within_limits (notify empty announceOne) [] reachable_notified "A"⟩

/-! ## A hash is not announced and fetched at once -/

/-- C3: in every reachable state the key sets of `announced` and `fetching`
are disjoint. -/
theorem announced_fetching_disjoint (f : Fetcher) (w : List Hash) (h : Reachable f w) :
    List.Disjoint (Map.keys f.announced) (Map.keys f.fetching) := by
  have key : ∀ hash, Map.find f.announced hash = none ∨ Map.find f.fetching hash = none := by
    refine reachable_state_induction
      (fun f => ∀ hash, Map.find f.announced hash = none ∨ Map.find f.fetching hash = none)
      ?_ ?_ ?_ ?_ ?_ ?_ ?_ h
    · intro hash
      exact Or.inl rfl
    · intro f hash hf x
      rw [forgetHash_announced, forgetHash_fetching, Map.find_remove, Map.find_remove]
      split
      · exact Or.inl rfl
      · exact hf x
    · intro f hash a hf x
      simp only [forgetHash_announced, forgetHash_fetching, Map.find_remove, Map.find_put]
      split
      · exact Or.inl rfl
      · exact hf x
    · intro f a hf x
      unfold notify
      simp only
      split
      · exact hf x
      · split
        · exact hf x
        · next hnone =>
          simp only [Map.find_put]
          split
          · next hx => exact Or.inr (hx ▸ hnone)
          · exact hf x
    · intro c f peer d hf x
      simpa using hf x
    · intro f hash hf x
      simpa using hf x
    · intro f q hf x
      exact hf x
  intro x hx1 hx2
  rcases key x with h1 | h1
  · exact (Map.find_eq_none_iff _ _).1 h1 hx1
  · exact (Map.find_eq_none_iff _ _).1 h1 hx2

/-- Disjointness at a state with hash 2 announced and hash 1 being fetched. -/
theorem announced_fetching_disjoint_witness :
    Reachable (notify fetchingOne announceTwo) [] ∧
    List.Disjoint (Map.keys (notify fetchingOne announceTwo).announced)
      (Map.keys (notify fetchingOne announceTwo).fetching) :=
  ⟨Reachable.notify announceTwo reachable_fetchingOne,
    announced_fetching_disjoint (notify fetchingOne announceTwo) []
      (Reachable.notify announceTwo reachable_fetchingOne)⟩

/-! ## The block counters count the queued blocks -/

theorem queuedBy_cons (e : Hash × Inject) (m : List (Hash × Inject)) (p : PeerId) :
    queuedBy (e :: m) p = (if e.2.origin = p then 1 else 0) + queuedBy m p := by
  unfold queuedBy
  by_cases h : e.2.origin = p
  · simp [List.filter, h]
    omega
  · simp [List.filter, h]

theorem queuedBy_remove (m : List (Hash × Inject)) (k : Hash) (v : Inject) (p : PeerId)
    (hnd : (Map.keys m).Nodup) (hfind : Map.find m k = some v) :
    queuedBy (Map.remove m k) p = queuedBy m p - (if v.origin = p then 1 else 0) := by
  induction m with
  | nil => simp [Map.find] at hfind
  | cons e m ih =>
    have hnd1 : e.1 ∉ Map.keys m ∧ (Map.keys m).Nodup := by
      simpa [Map.keys] using hnd
    by_cases hk : e.1 = k
    · have hv : e.2 = v := by simpa [Map.find, hk] using hfind
      have hnone : Map.find m k = none := (Map.find_eq_none_iff m k).2 (hk ▸ hnd1.1)
      have hrem : Map.remove (e :: m) k = m := by
        have : Map.remove (e :: m) k = Map.remove m k := by
          simp [Map.remove, List.filter, hk]
        rw [this, Map.remove_of_find_none m k hnone]
      rw [hrem, queuedBy_cons, hv]
      omega
    · have hfind1 : Map.find m k = some v := by simpa [Map.find, hk] using hfind
      have hrem : Map.remove (e :: m) k = e :: Map.remove m k := by
        simp [Map.remove, List.filter, hk]
      rw [hrem, queuedBy_cons, queuedBy_cons, ih hnd1.2 hfind1]
      omega

theorem queuedBy_pos (m : List (Hash × Inject)) (k : Hash) (v : Inject)
    (hfind : Map.find m k = some v) : 1 ≤ queuedBy m v.origin := by
  have hmem := Map.mem_of_find m k v hfind
  have : (k, v) ∈ m.filter (fun e => decide (e.2.origin = v.origin)) := by
    simp [List.mem_filter, hmem]
  have hpos := List.length_pos_of_mem this
  unfold queuedBy
  omega

theorem reachable_queues_count {f : Fetcher} {w : List Hash} (h : Reachable f w) :
    (Map.keys f.queued).Nodup ∧ (∀ p, Map.get f.queues p = queuedBy f.queued p) ∧
      ∀ p v, Map.find f.queues p = some v → 1 ≤ v := by
  refine reachable_state_induction
    (fun f => (Map.keys f.queued).Nodup ∧ (∀ p, Map.get f.queues p = queuedBy f.queued p) ∧
      ∀ p v, Map.find f.queues p = some v → 1 ≤ v)
    ?_ ?_ ?_ ?_ ?_ ?_ ?_ h
  · exact ⟨by simp [empty, Map.keys], fun p => by simp [empty, Map.get, Map.find, queuedBy],
      fun p v hv => by simp [empty, Map.find] at hv⟩
  · intro f hash hf
    simpa using hf
  · intro f hash a hf
    simpa using hf
  · intro f a hf
    simpa using hf
  · intro c f peer d hf
    unfold enqueue
    simp only
    split
    · exact hf
    · split
      · exact hf
      · split
        · next hnone =>
          refine ⟨Map.nodup_keys_put _ _ _ hf.1, fun p => ?_, fun p v hv => ?_⟩
          · simp only [Map.get_put]
            have hq : Map.put f.queued d.momentum.hash { origin := peer, detailed := d }
                = (d.momentum.hash, { origin := peer, detailed := d }) :: f.queued := by
              unfold Map.put
              rw [Map.remove_of_find_none _ _ hnone]
            rw [hq, queuedBy_cons, ← hf.2.1 p]
            by_cases hp : p = peer
            · subst hp
              simp
              omega
            · have : ¬ peer = p := fun h => hp h.symm
              simp [hp, this]
          · simp only [Map.find_put] at hv
            split at hv
            · simp only [Option.some.injEq] at hv
              have hpos : 0 ≤ queuedBy f.queued peer := by
                unfold queuedBy
                exact Int.natCast_nonneg _
              rw [← hv, hf.2.1 peer]
              omega
            · exact hf.2.2 p v hv
        · exact hf
  · intro f hash hf
    unfold forgetBlock
    split
    · next insert hfind =>
      refine ⟨Map.nodup_keys_remove _ _ hf.1, fun p => ?_, fun p v hv => ?_⟩
      · simp only
        rw [Map.get_decrement, queuedBy_remove _ _ _ p hf.1 hfind, ← hf.2.1 p]
        by_cases hp : p = insert.origin
        · subst hp
          simp [hf.2.1]
        · have : ¬ insert.origin = p := fun h => hp h.symm
          simp [hp, this]
      · simp only [Map.find_decrement] at hv
        have hpos := queuedBy_pos _ _ _ hfind
        rw [← hf.2.1 insert.origin] at hpos
        split at hv
        · split at hv
          · exact absurd hv (by simp)
          · next hne =>
            simp only [Option.some.injEq] at hv
            omega
        · exact hf.2.2 p v hv
    · exact hf
  · intro f q hf
    exact hf

/-- C5: in every reachable state the hashes of `queued` are pairwise distinct
keys and, for every peer `p`, `queues[p]` is the number of hashes `h` of
`queued` with `queued[h].origin = p`; in particular for every `h` in `queued`
the counter of its origin is at least 1 and at most 64. -/
theorem queues_count_queued (f : Fetcher) (w : List Hash) (h : Reachable f w) :
    (Map.keys f.queued).Nodup ∧
    (∀ p, Map.get f.queues p = queuedBy f.queued p) ∧
    (∀ hash op, Map.find f.queued hash = some op →
      1 ≤ Map.get f.queues op.origin ∧ Map.get f.queues op.origin ≤ 64) := by
  refine ⟨(reachable_queues_count h).1, (reachable_queues_count h).2.1, ?_⟩
  intro hash op hfind
  refine ⟨?_, (reachable_counters_le h op.origin).2⟩
  rw [(reachable_queues_count h).2.1]
  exact queuedBy_pos _ _ _ hfind

/-- The count at the state reached by injecting `blockFive`. -/
theorem queues_count_queued_witness :
    Reachable (inject 0 empty blockFive) [] ∧
    (Map.keys (inject 0 empty blockFive).queued).Nodup ∧
    (∀ p, Map.get (inject 0 empty blockFive).queues p
      = queuedBy (inject 0 empty blockFive).queued p) ∧
    (∀ hash op, Map.find (inject 0 empty blockFive).queued hash = some op →
      1 ≤ Map.get (inject 0 empty blockFive).queues op.origin ∧
      Map.get (inject 0 empty blockFive).queues op.origin ≤ 64) :=
  ⟨reachable_injected, queues_count_queued (inject 0 empty blockFive) [] reachable_injected⟩

/-! ## The priority queue and `queued` -/

theorem top_mem (q : Prque) (e : Inject × Int) (h : top q = some e) : e ∈ q := by
  induction q generalizing e with
  | nil => simp [top] at h
  | cons x q ih =>
    unfold top at h
    split at h
    · simp only [Option.some.injEq] at h
      simp [h]
    · next e1 he1 =>
      split at h
      · simp only [Option.some.injEq] at h
        exact List.mem_cons_of_mem _ (ih e1 (h ▸ he1) |> fun hm => h ▸ hm)
      · simp only [Option.some.injEq] at h
        simp [h]

theorem perm_cons_without (q : Prque) (e : Inject × Int) (h : e ∈ q) :
    q.Perm (e :: without e q) := by
  induction q with
  | nil => simp at h
  | cons x q ih =>
    unfold without
    by_cases hx : x = e
    · rw [if_pos hx, hx]
    · rw [if_neg hx]
      have he : e ∈ q := by
        rcases List.mem_cons.1 h with h1 | h1
        · exact absurd h1.symm hx
        · exact h1
      exact ((ih he).cons x).trans (List.Perm.swap e x _)

theorem popItem_perm (q rest : Prque) (op : Inject) (h : popItem q = some (op, rest)) :
    ∃ priority, q.Perm ((op, priority) :: rest) := by
  unfold popItem at h
  split at h
  · exact absurd h (by simp)
  · next e he =>
    simp only [Option.some.injEq, Prod.mk.injEq] at h
    refine ⟨e.2, ?_⟩
    rw [← h.1, ← h.2]
    exact perm_cons_without q e (top_mem q e he)

theorem popItem_length (q rest : Prque) (op : Inject) (h : popItem q = some (op, rest)) :
    q.length = rest.length + 1 := by
  obtain ⟨priority, hp⟩ := popItem_perm q rest op h
  simpa using hp.length_eq

theorem queueSound_of_same_hashes (q q1 : Prque) (m : List (Hash × Inject)) (w : List Hash)
    (hs : QueueSound q m w) (hsub : ∀ e ∈ q1, ∃ e0 ∈ q, e0.1 = e.1)
    (hperm : (queueHashes q1).Perm (queueHashes q)) : QueueSound q1 m w := by
  obtain ⟨h1, h2, h3, h4, h5⟩ := hs
  refine ⟨?_, hperm.nodup_iff.2 h2, h3, ?_, ?_⟩
  · intro e he
    obtain ⟨e0, he0, heq⟩ := hsub e he
    rw [← heq]
    exact h1 e0 he0
  · intro h hw
    exact ⟨(h4 h hw).1, fun hq => (h4 h hw).2 (hperm.mem_iff.1 hq)⟩
  · intro h hm
    rcases h5 h hm with hw | hq
    · exact Or.inl hw
    · exact Or.inr (hperm.mem_iff.2 hq)

theorem queueSound_push_back (q rest : Prque) (m : List (Hash × Inject)) (w : List Hash)
    (op : Inject) (p p1 : Int) (hs : QueueSound q m w) (hperm : q.Perm ((op, p) :: rest)) :
    QueueSound (push rest op p1) m w := by
  apply queueSound_of_same_hashes q _ m w hs
  · intro e he
    unfold push at he
    rcases List.mem_append.1 he with hr | hl
    · exact ⟨e, hperm.mem_iff.2 (List.mem_cons_of_mem _ hr), rfl⟩
    · refine ⟨(op, p), hperm.mem_iff.2 (List.mem_cons_self _ _), ?_⟩
      simp only [List.mem_singleton] at hl
      rw [hl]
  · have h1 : (queueHashes q).Perm (op.hash :: queueHashes rest) := by
      have := hperm.map (fun e : Inject × Int => e.1.hash)
      simpa [queueHashes] using this
    have h2 : (queueHashes (push rest op p1)).Perm (op.hash :: queueHashes rest) := by
      unfold push queueHashes
      rw [List.map_append]
      exact List.perm_append_comm
    exact h2.trans h1.symm

theorem queueSound_split (q rest : Prque) (m : List (Hash × Inject)) (w : List Hash)
    (op : Inject) (p : Int) (hs : QueueSound q m w) (hperm : q.Perm ((op, p) :: rest)) :
    Map.find m op.hash = some op ∧ op.hash ∉ queueHashes rest ∧ (queueHashes rest).Nodup ∧
    op.hash ∉ w ∧ (∀ e ∈ rest, e ∈ q) ∧
    (∀ h, h ∈ queueHashes q ↔ h = op.hash ∨ h ∈ queueHashes rest) := by
  obtain ⟨h1, h2, h3, h4, h5⟩ := hs
  have hp : (queueHashes q).Perm (op.hash :: queueHashes rest) := by
    have := hperm.map (fun e : Inject × Int => e.1.hash)
    simpa [queueHashes] using this
  have hnd : (op.hash :: queueHashes rest).Nodup := hp.nodup_iff.1 h2
  have hmem : ∀ h, h ∈ queueHashes q ↔ h = op.hash ∨ h ∈ queueHashes rest := by
    intro h
    rw [hp.mem_iff, List.mem_cons]
  refine ⟨h1 (op, p) (hperm.mem_iff.2 (List.mem_cons_self _ _)), (List.nodup_cons.1 hnd).1,
    (List.nodup_cons.1 hnd).2, ?_, ?_, hmem⟩
  · intro hw
    exact (h4 _ hw).2 ((hmem _).2 (Or.inl rfl))
  · intro e he
    exact hperm.mem_iff.2 (List.mem_cons_of_mem _ he)

theorem queueSound_forget (q rest : Prque) (m : List (Hash × Inject)) (w : List Hash)
    (op : Inject) (p : Int) (hs : QueueSound q m w) (hperm : q.Perm ((op, p) :: rest)) :
    QueueSound rest (Map.remove m op.hash) w := by
  obtain ⟨g1, g2, g3, g4, g5, g6⟩ := queueSound_split q rest m w op p hs hperm
  obtain ⟨h1, h2, h3, h4, h5⟩ := hs
  have hin : ∀ e ∈ rest, e.1.hash ∈ queueHashes rest := fun e he =>
    List.mem_map_of_mem (fun e : Inject × Int => e.1.hash) he
  refine ⟨?_, g3, h3, ?_, ?_⟩
  · intro e he
    have hne : e.1.hash ≠ op.hash := fun heq => g2 (heq ▸ hin e he)
    rw [Map.find_remove, if_neg hne]
    exact h1 e (g5 e he)
  · intro h hw
    have hne : h ≠ op.hash := fun heq => g4 (heq ▸ hw)
    rw [Map.find_remove, if_neg hne]
    exact ⟨(h4 h hw).1, fun hq => (h4 h hw).2 ((g6 h).2 (Or.inr hq))⟩
  · intro h hm
    rw [Map.find_remove] at hm
    split at hm
    · exact absurd rfl hm
    · next hne =>
      rcases h5 h hm with hw | hq
      · exact Or.inl hw
      · rcases (g6 h).1 hq with heq | hr
        · exact absurd heq hne
        · exact Or.inr hr

theorem queueSound_start (q rest : Prque) (m : List (Hash × Inject)) (w : List Hash)
    (op : Inject) (p : Int) (hs : QueueSound q m w) (hperm : q.Perm ((op, p) :: rest)) :
    QueueSound rest m (w ++ [op.hash]) := by
  obtain ⟨g1, g2, g3, g4, g5, g6⟩ := queueSound_split q rest m w op p hs hperm
  obtain ⟨h1, h2, h3, h4, h5⟩ := hs
  refine ⟨fun e he => h1 e (g5 e he), g3, ?_, ?_, ?_⟩
  · rw [List.nodup_append]
    refine ⟨h3, List.nodup_singleton _, ?_⟩
    intro x hx hx1
    simp only [List.mem_singleton] at hx1
    exact g4 (hx1 ▸ hx)
  · intro h hw
    rcases List.mem_append.1 hw with hw | hw
    · exact ⟨(h4 h hw).1, fun hq => (h4 h hw).2 ((g6 h).2 (Or.inr hq))⟩
    · simp only [List.mem_singleton] at hw
      subst hw
      exact ⟨by rw [g1]; simp, g2⟩
  · intro h hm
    rcases h5 h hm with hw | hq
    · exact Or.inl (List.mem_append_left _ hw)
    · rcases (g6 h).1 hq with heq | hr
      · exact Or.inl (List.mem_append_right _ (by simp [heq]))
      · exact Or.inr hr

theorem queueSound_done (q : Prque) (m : List (Hash × Inject)) (w : List Hash) (hash : Hash)
    (hs : QueueSound q m w) (hw : hash ∈ w) :
    QueueSound q (Map.remove m hash) (w.erase hash) := by
  obtain ⟨h1, h2, h3, h4, h5⟩ := hs
  refine ⟨?_, h2, h3.erase _, ?_, ?_⟩
  · intro e he
    have hne : e.1.hash ≠ hash := fun heq =>
      (h4 hash hw).2 (heq ▸ List.mem_map_of_mem (fun e : Inject × Int => e.1.hash) he)
    rw [Map.find_remove, if_neg hne]
    exact h1 e he
  · intro h hmem
    have hne : h ≠ hash := fun heq => (List.Nodup.not_mem_erase h3) (heq ▸ hmem)
    rw [Map.find_remove, if_neg hne]
    exact h4 h (List.mem_of_mem_erase hmem)
  · intro h hm
    rw [Map.find_remove] at hm
    split at hm
    · exact absurd rfl hm
    · next hne =>
      rcases h5 h hm with hw1 | hq
      · exact Or.inl ((List.mem_erase_of_ne hne).2 hw1)
      · exact Or.inr hq

theorem queueSound_enqueue (q : Prque) (m : List (Hash × Inject)) (w : List Hash)
    (op : Inject) (p : Int) (hs : QueueSound q m w) (hnone : Map.find m op.hash = none) :
    QueueSound (push q op p) (Map.put m op.hash op) w := by
  obtain ⟨h1, h2, h3, h4, h5⟩ := hs
  have hnq : op.hash ∉ queueHashes q := by
    intro hq
    obtain ⟨e, he, heq⟩ := List.mem_map.1 hq
    have := h1 e he
    rw [heq, hnone] at this
    exact absurd this (by simp)
  have hhash : queueHashes (push q op p) = queueHashes q ++ [op.hash] := by
    simp [push, queueHashes]
  refine ⟨?_, ?_, h3, ?_, ?_⟩
  · intro e he
    unfold push at he
    rw [Map.find_put]
    rcases List.mem_append.1 he with hr | hl
    · have hne : e.1.hash ≠ op.hash := by
        intro heq
        have := h1 e hr
        rw [heq, hnone] at this
        exact absurd this (by simp)
      rw [if_neg hne]
      exact h1 e hr
    · simp only [List.mem_singleton] at hl
      rw [hl]
      simp
  · rw [hhash, List.nodup_append]
    refine ⟨h2, List.nodup_singleton _, ?_⟩
    intro x hx hx1
    simp only [List.mem_singleton] at hx1
    exact hnq (hx1 ▸ hx)
  · intro h hw
    have hne : h ≠ op.hash := fun heq => (h4 h hw).1 (heq ▸ hnone)
    rw [Map.find_put, if_neg hne, hhash]
    refine ⟨(h4 h hw).1, fun hq => ?_⟩
    rcases List.mem_append.1 hq with hq | hq
    · exact (h4 h hw).2 hq
    · simp only [List.mem_singleton] at hq
      exact hne hq
  · intro h hm
    rw [hhash]
    rw [Map.find_put] at hm
    split at hm
    · next heq => exact Or.inr (List.mem_append_right _ (by simp [heq]))
    · rcases h5 h hm with hw | hq
      · exact Or.inl hw
      · exact Or.inr (List.mem_append_left _ hq)

theorem importLoop_queueSound (height : Nat) (known : Hash → Bool) (w : List Hash)
    (turns : Nat) (f : Fetcher) (started : List Inject)
    (h : QueueSound f.queue f.queued (w ++ started.map (fun op => op.detailed.momentum.hash))) :
    QueueSound (importLoop height known turns f started).1.queue
      (importLoop height known turns f started).1.queued
      (w ++ (importLoop height known turns f started).2.map
        (fun op => op.detailed.momentum.hash)) := by
  induction turns generalizing f started with
  | zero => exact h
  | succ turns ih =>
    unfold importLoop
    split
    · exact h
    · next op rest hpop =>
      obtain ⟨priority, hperm⟩ := popItem_perm _ _ _ hpop
      simp only
      split
      · exact queueSound_push_back _ _ _ _ _ _ _ h hperm
      · split
        · apply ih
          rw [forgetBlock_queue, forgetBlock_queued]
          exact queueSound_forget _ _ _ _ _ _ h hperm
        · apply ih
          rw [List.map_append, ← List.append_assoc]
          exact queueSound_start _ _ _ _ _ _ h hperm

theorem reachable_queueSound {f : Fetcher} {w : List Hash} (h : Reachable f w) :
    QueueSound f.queue f.queued w := by
  refine reachable_induction (fun f w => QueueSound f.queue f.queued w)
    ?_ ?_ ?_ ?_ ?_ ?_ ?_ h
  · simp [QueueSound, empty, queueHashes, Map.find]
  · intro f w hash hf
    simpa using hf
  · intro f w hash a hf
    simpa using hf
  · intro f w a hf
    simpa using hf
  · intro c f w peer d hf
    unfold enqueue
    simp only
    split
    · exact hf
    · split
      · exact hf
      · split
        · next hnone =>
          exact queueSound_enqueue _ _ _ { origin := peer, detailed := d } _ hf hnone
        · exact hf
  · intro height known f w hf
    exact importLoop_queueSound height known w _ f [] (by simpa using hf)
  · intro f w hash hf hw
    unfold done
    rw [forgetBlock_queue, forgetBlock_queued, forgetHash_queue, forgetHash_queued]
    exact queueSound_done _ _ _ _ hf hw

/-- C6: as stated the claim fails.  After `blockFive` is injected and the import
phase has started its import, hash 5 is still a key of `queued` and the
priority queue is empty. -/
theorem queue_lacks_started_import :
    Reachable importStarted [5] ∧ Map.find importStarted.queued 5 = some blockFive ∧
      importStarted.queue = [] := by
  exact ⟨reachable_importStarted, by decide, by decide⟩

/-- C6, amended: in every reachable state, with `w` the hashes whose import
worker was started and whose `done` signal is not yet handled, every entry of
the priority queue is the value of `queued` for its hash, no hash appears
twice in the priority queue, and a hash of `queued` has exactly one entry in
the priority queue, unless it is in `w`, in which case it has none. -/
theorem queue_matches_queued (f : Fetcher) (w : List Hash) (h : Reachable f w) :
    (∀ e ∈ f.queue, Map.find f.queued e.1.hash = some e.1) ∧
    (queueHashes f.queue).Nodup ∧
    (∀ hash op, Map.find f.queued hash = some op →
      (queueHashes f.queue).count hash = if hash ∈ w then 0 else 1) := by
  obtain ⟨h1, h2, _, h4, h5⟩ := reachable_queueSound h
  refine ⟨h1, h2, ?_⟩
  intro hash op hfind
  have hsome : Map.find f.queued hash ≠ none := by rw [hfind]; simp
  split
  · next hw => exact List.count_eq_zero_of_not_mem (h4 hash hw).2
  · next hw =>
    rcases h5 hash hsome with hw1 | hq
    · exact absurd hw1 hw
    · exact List.count_eq_one_of_mem h2 hq

/-- A reachable state at which `queue_matches_queued` is applied. -/
theorem queue_matches_queued_witness :
    (∀ e ∈ importStarted.queue, Map.find importStarted.queued e.1.hash = some e.1) ∧
    (queueHashes importStarted.queue).Nodup ∧
    (∀ hash op, Map.find importStarted.queued hash = some op →
      (queueHashes importStarted.queue).count hash = if hash ∈ [5] then 0 else 1) :=
  queue_matches_queued importStarted [5] reachable_importStarted

/-! ## The `notify` handler -/

theorem notify_reject (f : Fetcher) (a : Announce)
    (h : Map.get f.announces a.origin + 1 > 256) : notify f a = f := by
  unfold notify
  simp only [hashLimit]
  rw [if_pos h]

theorem notify_fetched (f : Fetcher) (a : Announce)
    (h : Map.find f.fetching a.hash ≠ none) : notify f a = f := by
  unfold notify
  simp only
  split
  · rfl
  · split
    · rfl
    · next hnone => exact absurd hnone h

theorem notify_accept (f : Fetcher) (a : Announce)
    (h1 : Map.get f.announces a.origin + 1 ≤ 256) (h2 : Map.find f.fetching a.hash = none) :
    notify f a =
      { f with
        announces := Map.put f.announces a.origin (Map.get f.announces a.origin + 1)
        announced :=
          Map.put f.announced a.hash ((Map.find f.announced a.hash).getD [] ++ [a]) } := by
  unfold notify
  simp only [hashLimit]
  rw [if_neg (by omega)]
  split
  · next x hx => rw [h2] at hx; exact absurd hx (by simp)
  · rfl

theorem notify_all_state (p : PeerId) (as : List Announce) (ho : ∀ a ∈ as, a.origin = p)
    (hnd : (as.map Announce.hash).Nodup) (hlen : as.length ≤ 256) :
    (as.foldl notify empty).fetching = [] ∧
    Map.get (as.foldl notify empty).announces p = (as.length : Int) ∧
    (∀ a ∈ as, Map.find (as.foldl notify empty).announced a.hash = some [a]) ∧
    (∀ h, h ∉ as.map Announce.hash → Map.find (as.foldl notify empty).announced h = none) := by
  induction as using List.reverseRecOn with
  | nil =>
    refine ⟨rfl, by simp [empty, Map.get, Map.find], ?_, ?_⟩
    · intro a ha
      simp at ha
    · intro h _
      simp [empty, Map.find]
  | append_singleton as a ih =>
    have hnd1 : (as.map Announce.hash).Nodup ∧ a.hash ∉ as.map Announce.hash := by
      rw [List.map_append, List.nodup_append] at hnd
      refine ⟨hnd.1, fun hmem => hnd.2.2 hmem (by simp)⟩
    have hlen1 : as.length + 1 ≤ 256 := by simpa using hlen
    obtain ⟨i1, i2, i3, i4⟩ :=
      ih (fun x hx => ho x (List.mem_append_left _ hx)) hnd1.1 (by omega)
    have hoa : a.origin = p := ho a (by simp)
    have hacc := notify_accept (as.foldl notify empty) a (by rw [hoa, i2]; omega)
      (by rw [i1]; rfl)
    rw [List.foldl_append, List.foldl_cons, List.foldl_nil, hacc]
    refine ⟨i1, ?_, ?_, ?_⟩
    · simp only [Map.get_put, hoa, if_true, i2, List.length_append, List.length_singleton]
      push_cast
      rfl
    · intro x hx
      simp only [Map.find_put]
      rcases List.mem_append.1 hx with hx | hx
      · have hne : x.hash ≠ a.hash := by
          intro heq
          exact hnd1.2 (heq ▸ List.mem_map_of_mem Announce.hash hx)
        rw [if_neg hne]
        exact i3 x hx
      · simp only [List.mem_singleton] at hx
        subst hx
        simp [i4 _ hnd1.2]
    · intro h hh
      simp only [List.map_append, List.mem_append, List.map_cons, List.map_nil,
        List.mem_singleton, not_or] at hh
      simp only [Map.find_put]
      rw [if_neg hh.2]
      exact i4 h hh.1

theorem burst_hashes (n : Nat) : (burst n).map Announce.hash = List.range n := by
  unfold burst
  rw [List.map_map]
  have : (Announce.hash ∘ fun i : Nat =>
      ({ hash := i, time := 0, origin := "A", fetch := 7 } : Announce)) = id := rfl
  rw [this, List.map_id]

/-- C7: an announce whose origin `p` has `announces[p] + 1 > 256` leaves the
whole state unchanged; consequently, from the empty state, 257 announces of
pairwise distinct hashes by one peer leave `announces[p] = 256` and exactly the
first 256 of them in `announced`, each alone under its hash. -/
theorem notify_over_limit_dropped :
    (∀ (f : Fetcher) (a : Announce), Map.get f.announces a.origin + 1 > 256 → notify f a = f) ∧
    (∀ (p : PeerId) (as : List Announce), as.length = 257 → (∀ a ∈ as, a.origin = p) →
      (as.map Announce.hash).Nodup →
      Map.get (as.foldl notify empty).announces p = 256 ∧
      (∀ a ∈ as.take 256, Map.find (as.foldl notify empty).announced a.hash = some [a]) ∧
      (∀ h, h ∉ (as.take 256).map Announce.hash →
        Map.find (as.foldl notify empty).announced h = none)) := by
  refine ⟨notify_reject, ?_⟩
  intro p as hlen ho hnd
  have hsplit : as = as.take 256 ++ as.drop 256 := (List.take_append_drop 256 as).symm
  have hsub : (as.take 256).Sublist as := List.take_sublist _ _
  obtain ⟨i1, i2, i3, i4⟩ := notify_all_state p (as.take 256)
    (fun a ha => ho a (hsub.subset ha)) ((hsub.map Announce.hash).nodup hnd)
    (by rw [List.length_take]; omega)
  have hl : (as.take 256).length = 256 := by rw [List.length_take]; omega
  rw [hl] at i2
  obtain ⟨x, hx⟩ : ∃ x, as.drop 256 = [x] := by
    have : (as.drop 256).length = 1 := by rw [List.length_drop]; omega
    exact List.length_eq_one.1 this
  have hxo : x.origin = p := ho x (by rw [hsplit, hx]; simp)
  have hfold : as.foldl notify empty = (as.take 256).foldl notify empty := by
    conv_lhs => rw [hsplit, hx]
    rw [List.foldl_append, List.foldl_cons, List.foldl_nil]
    exact notify_reject _ _ (by rw [hxo, i2]; norm_num)
  rw [hfold]
  exact ⟨by simpa using i2, i3, i4⟩

/-- The handler at the state `saturated` and the run of the 257 announces
`burst 257`. -/
theorem notify_over_limit_dropped_witness :
    notify saturated announceOne = saturated ∧
    Map.get ((burst 257).foldl notify empty).announces "A" = 256 ∧
    (∀ a ∈ (burst 257).take 256,
      Map.find ((burst 257).foldl notify empty).announced a.hash = some [a]) ∧
    (∀ h, h ∉ ((burst 257).take 256).map Announce.hash →
      Map.find ((burst 257).foldl notify empty).announced h = none) :=
  ⟨notify_over_limit_dropped.1 saturated announceOne (by decide),
    notify_over_limit_dropped.2 "A" (burst 257) (by simp [burst])
      (by intro a ha; simp only [burst, List.mem_map] at ha; obtain ⟨i, _, hi⟩ := ha; rw [← hi])
      (by rw [burst_hashes]; exact List.nodup_range 257)⟩

/-- C8: an announce whose hash is a key of `fetching` leaves the whole state
unchanged, however many times it is replayed; in particular the counter of its
peer is not increased. -/
theorem notify_of_fetching_dropped (f : Fetcher) (a : Announce)
    (h : Map.find f.fetching a.hash ≠ none) :
    notify f a = f ∧
    ∀ n : Nat, (fun s => notify s a)^[n] f = f ∧
      Map.get ((fun s => notify s a)^[n] f).announces a.origin = Map.get f.announces a.origin := by
  have h1 := notify_fetched f a h
  have h2 : ∀ n : Nat, (fun s => notify s a)^[n] f = f := by
    intro n
    induction n with
    | zero => rfl
    | succ n ih => rw [Function.iterate_succ_apply, h1, ih]
  exact ⟨h1, fun n => ⟨h2 n, by rw [h2 n]⟩⟩

/-- The handler at the state `fetchingOne`, for the announce being fetched. -/
theorem notify_of_fetching_dropped_witness :
    Map.find fetchingOne.fetching announceOne.hash ≠ none ∧
    notify fetchingOne announceOne = fetchingOne ∧
    ∀ n : Nat, (fun s => notify s announceOne)^[n] fetchingOne = fetchingOne ∧
      Map.get ((fun s => notify s announceOne)^[n] fetchingOne).announces announceOne.origin
        = Map.get fetchingOne.announces announceOne.origin :=
  ⟨by decide, notify_of_fetching_dropped fetchingOne announceOne (by decide)⟩

/-- C9: an announce `a` with `announces[a.origin] + 1 ≤ 256` and `a.hash` not in
`fetching` raises `announces[a.origin]` by exactly one, is appended as the last
element of `announced[a.hash]`, and leaves every other counter, every other
hash's announce list, `fetching`, `queue`, `queues` and `queued` unchanged. -/
theorem notify_records_announce (f : Fetcher) (a : Announce)
    (h1 : Map.get f.announces a.origin + 1 ≤ 256) (h2 : Map.find f.fetching a.hash = none) :
    Map.find (notify f a).announces a.origin = some (Map.get f.announces a.origin + 1) ∧
    Map.find (notify f a).announced a.hash
      = some ((Map.find f.announced a.hash).getD [] ++ [a]) ∧
    (∀ p, p ≠ a.origin → Map.find (notify f a).announces p = Map.find f.announces p) ∧
    (∀ hash, hash ≠ a.hash → Map.find (notify f a).announced hash = Map.find f.announced hash) ∧
    (notify f a).fetching = f.fetching ∧ (notify f a).queue = f.queue ∧
    (notify f a).queues = f.queues ∧ (notify f a).queued = f.queued := by
  rw [notify_accept f a h1 h2]
  refine ⟨by simp [Map.find_put], by simp [Map.find_put], ?_, ?_, rfl, rfl, rfl, rfl⟩
  · intro p hp
    simp [Map.find_put, hp]
  · intro hash hh
    simp [Map.find_put, hh]

/-- The handler at the state after `announceOne`, for a second announce of the
same hash by peer `B`. -/
theorem notify_records_announce_witness :
    Map.find (notify (notify empty announceOne) { announceOne with origin := "B" }).announced 1
      = some [announceOne, { announceOne with origin := "B" }] ∧
    Map.find (notify (notify empty announceOne) { announceOne with origin := "B" }).announces "B"
      = some 1 := by
  have h := notify_records_announce (notify empty announceOne) { announceOne with origin := "B" }
    (by decide) (by decide)
  exact ⟨h.2.1, h.1⟩

/-! ## The announce counters after a fetch -/

/-- C1: the claim fails on the code.  After peer `A` announced hash 1 and the
fetch timer requested it, `fetching` holds one record of `A` while
`announces` has no entry for `A`; after the block was delivered and imported,
`announces["A"]` is -1 while `A` holds no record. -/
theorem announces_counter_skips_fetching :
    Reachable fetchingOne [] ∧ Map.get fetchingOne.announces "A" = 0 ∧
      heldAnnounces fetchingOne "A" = 1 ∧
    Reachable importedOne [] ∧ Map.get importedOne.announces "A" = -1 ∧
      heldAnnounces importedOne "A" = 0 :=
  ⟨reachable_fetchingOne, by decide, by decide, reachable_importedOne, by decide, by decide⟩

/-- C4: the claim fails on the code for `announces`.  After the run leading to
`importedOne`, a further announce of peer `A` stores the entry
`announces["A"] = 0`. -/
theorem announces_keeps_zero_entry :
    Reachable (notify importedOne announceTwo) [] ∧
    Map.find (notify importedOne announceTwo).announces "A" = some 0 :=
  ⟨Reachable.notify announceTwo reachable_importedOne, by decide⟩

/-- The `queues` half of the property holds: in a reachable state no entry of
`queues` is zero. -/
theorem queues_keeps_no_zero_entry (f : Fetcher) (w : List Hash) (h : Reachable f w)
    (p : PeerId) : Map.find f.queues p ≠ some 0 := by
  intro h0
  have := (reachable_queues_count h).2.2 p 0 h0
  omega

/-! ## The distance check of `enqueue` -/

/-- Where the difference of the two heights fits `int64`, a block below
`chainHeight - 7` or above `chainHeight + 32` leaves the state unchanged. -/
theorem enqueue_drops_distant (chainHeight : Nat) (f : Fetcher) (peer : PeerId)
    (d : DetailedMomentum) (hb : d.momentum.height < 2 ^ 64) (hc : chainHeight < 2 ^ 64)
    (hfit : -(2 ^ 63 : Int) ≤ (d.momentum.height : Int) - chainHeight ∧
      (d.momentum.height : Int) - chainHeight < 2 ^ 63)
    (hout : (d.momentum.height : Int) < (chainHeight : Int) - 7 ∨
      (d.momentum.height : Int) > (chainHeight : Int) + 32) :
    enqueue chainHeight f peer d = f := by
  unfold enqueue
  simp only
  split
  · rfl
  · have hdist : wrapInt64 (toInt64 d.momentum.height - toInt64 chainHeight)
        = (d.momentum.height : Int) - chainHeight := by
      unfold wrapInt64 toInt64
      rw [Nat.mod_eq_of_lt hb, Nat.mod_eq_of_lt hc]
      norm_num at hb hc hfit ⊢
      split <;> split <;> omega
    rw [hdist, if_pos]
    simp only [maxUncleDist, maxQueueDist]
    omega

/-- C10: the claim fails on the code.  At chain height 0 a block of height
`2^64 - 5`, which is above `0 + 32`, is queued: the conversion to `int64`
turns its distance into -5. -/
theorem enqueue_accepts_wrapped_distance :
    distantBlock.momentum.height < 2 ^ 64 ∧
    (distantBlock.momentum.height : Int) > 0 + 32 ∧
    wrapInt64 (toInt64 distantBlock.momentum.height - toInt64 0) = -5 ∧
    enqueue 0 empty "A" distantBlock ≠ empty ∧
    enqueue 0 empty "A" distantBlock =
      { empty with
        queues := [("A", 1)]
        queued := [(9, { origin := "A", detailed := distantBlock })]
        queue := [({ origin := "A", detailed := distantBlock }, -18446744073709551616)] } :=
  ⟨by decide, by decide, by decide, by decide, by decide⟩

/-! ## The guards and the effect of `enqueue` -/

/-- C11: when `queues[p] + 1 > 64`, `enqueue(p, block)` leaves the whole state
unchanged, whatever the block and the chain height. -/
theorem enqueue_over_quota_dropped (chainHeight : Nat) (f : Fetcher) (p : PeerId)
    (d : DetailedMomentum) (h : Map.get f.queues p + 1 > 64) :
    enqueue chainHeight f p d = f := by
  unfold enqueue
  simp only [blockLimit]
  rw [if_pos h]

/-- The guard at the state `quotaFull`, for a block within the distance bounds. -/
theorem enqueue_over_quota_dropped_witness :
    Map.get quotaFull.queues "A" + 1 > 64 ∧ enqueue 0 quotaFull "A" blockOne = quotaFull :=
  ⟨by decide, enqueue_over_quota_dropped 0 quotaFull "A" blockOne (by decide)⟩

theorem signed_distance (height chainHeight : Nat) (hb : height < 2 ^ 64)
    (hc : chainHeight < 2 ^ 64)
    (hfit : -(2 ^ 63 : Int) ≤ (height : Int) - chainHeight ∧
      (height : Int) - chainHeight < 2 ^ 63) :
    wrapInt64 (toInt64 height - toInt64 chainHeight) = (height : Int) - chainHeight := by
  unfold wrapInt64 toInt64
  rw [Nat.mod_eq_of_lt hb, Nat.mod_eq_of_lt hc]
  norm_num at hb hc hfit ⊢
  split <;> split <;> omega

theorem enqueue_in_range (chainHeight : Nat) (f : Fetcher) (p : PeerId) (d : DetailedMomentum)
    (hb : d.momentum.height < 2 ^ 64) (hc : chainHeight < 2 ^ 64)
    (hq : Map.get f.queues p < 64)
    (hlo : (chainHeight : Int) - 7 ≤ d.momentum.height)
    (hhi : (d.momentum.height : Int) ≤ chainHeight + 32) :
    enqueue chainHeight f p d =
      match Map.find f.queued d.momentum.hash with
      | none =>
        { f with
          queues := Map.put f.queues p (Map.get f.queues p + 1)
          queued := Map.put f.queued d.momentum.hash { origin := p, detailed := d }
          queue := push f.queue { origin := p, detailed := d }
            (-(float32OfUint64 d.momentum.height : Int)) }
      | some _ => f := by
  unfold enqueue
  simp only [blockLimit]
  rw [if_neg (by omega)]
  have hfit : -(2 ^ 63 : Int) ≤ (d.momentum.height : Int) - chainHeight ∧
      (d.momentum.height : Int) - chainHeight < 2 ^ 63 := by
    norm_num
    omega
  rw [signed_distance _ _ hb hc hfit, if_neg]
  simp only [maxUncleDist, maxQueueDist]
  push_cast
  omega

/-- C12: for a peer `p` with `queues[p] < 64` and a block whose height lies in
`[chainHeight - 7, chainHeight + 32]`: if the block's hash is not in `queued`,
`enqueue` raises `queues[p]` by one, sets `queued[hash]` to the inject of origin
`p` with that block and adds exactly one entry for it to the priority queue,
every other counter and every other entry of `queued` being kept; if the hash
is in `queued`, the whole state is unchanged.  In both cases `announces`,
`announced` and `fetching` are unchanged. -/
theorem enqueue_schedules_block (chainHeight : Nat) (f : Fetcher) (p : PeerId)
    (d : DetailedMomentum) (hb : d.momentum.height < 2 ^ 64) (hc : chainHeight < 2 ^ 64)
    (hq : Map.get f.queues p < 64)
    (hlo : (chainHeight : Int) - 7 ≤ d.momentum.height)
    (hhi : (d.momentum.height : Int) ≤ chainHeight + 32) :
    (Map.find f.queued d.momentum.hash = none →
      Map.find (enqueue chainHeight f p d).queues p = some (Map.get f.queues p + 1) ∧
      (∀ p1, p1 ≠ p →
        Map.find (enqueue chainHeight f p d).queues p1 = Map.find f.queues p1) ∧
      Map.find (enqueue chainHeight f p d).queued d.momentum.hash
        = some { origin := p, detailed := d } ∧
      (∀ hash, hash ≠ d.momentum.hash →
        Map.find (enqueue chainHeight f p d).queued hash = Map.find f.queued hash) ∧
      (enqueue chainHeight f p d).queue
        = f.queue ++ [({ origin := p, detailed := d }, -(float32OfUint64 d.momentum.height : Int))]) ∧
    (Map.find f.queued d.momentum.hash ≠ none → enqueue chainHeight f p d = f) ∧
    (enqueue chainHeight f p d).announces = f.announces ∧
    (enqueue chainHeight f p d).announced = f.announced ∧
    (enqueue chainHeight f p d).fetching = f.fetching := by
  refine ⟨?_, ?_, enqueue_announces _ _ _ _, enqueue_announced _ _ _ _,
    enqueue_fetching _ _ _ _⟩
  · intro hnone
    rw [enqueue_in_range chainHeight f p d hb hc hq hlo hhi, hnone]
    refine ⟨by simp [Map.find_put], ?_, by simp [Map.find_put], ?_, rfl⟩
    · intro p1 hp1
      simp [Map.find_put, hp1]
    · intro hash hh
      simp [Map.find_put, hh]
  · intro hsome
    rw [enqueue_in_range chainHeight f p d hb hc hq hlo hhi]
    split
    · next hnone => exact absurd hnone hsome
    · rfl

/-- The effect of `enqueue` on the empty state for the block of height 1 at
chain height 0. -/
theorem enqueue_schedules_block_witness :
    Map.find (enqueue 0 empty "A" blockOne).queues "A" = some 1 ∧
    Map.find (enqueue 0 empty "A" blockOne).queued 1
      = some { origin := "A", detailed := blockOne } ∧
    (enqueue 0 empty "A" blockOne).queue = [({ origin := "A", detailed := blockOne }, -1)] := by
  have h := (enqueue_schedules_block 0 empty "A" blockOne (by decide) (by decide) (by decide)
    (by decide) (by decide)).1 (by decide)
  exact ⟨h.1, h.2.2.1, h.2.2.2.2⟩

/-! ## The import phase -/

/-- The number of turns `importPhase` allows is enough: with more turns the
loop gives the same result. -/
theorem importLoop_enough (height : Nat) (known : Hash → Bool) :
    ∀ (n m : Nat) (f : Fetcher) (s : List Inject), f.queue.length ≤ n → f.queue.length ≤ m →
      importLoop height known n f s = importLoop height known m f s := by
  intro n
  induction n with
  | zero =>
    intro m f s hn _
    have hq : f.queue = [] := List.length_eq_zero.1 (Nat.le_zero.1 hn)
    cases m with
    | zero => rfl
    | succ m => simp [importLoop, hq, popItem, top]
  | succ n ih =>
    intro m f s hn hm
    cases m with
    | zero =>
      have hq : f.queue = [] := List.length_eq_zero.1 (Nat.le_zero.1 hm)
      simp [importLoop, hq, popItem, top]
    | succ m =>
      cases hpop : popItem f.queue with
      | none => simp [importLoop, hpop]
      | some pr =>
        obtain ⟨op, rest⟩ := pr
        have hlen := popItem_length _ _ _ hpop
        simp only [importLoop, hpop]
        split
        · rfl
        · split
          · exact ih m _ _ (by rw [forgetBlock_queue]; simp only; omega)
              (by rw [forgetBlock_queue]; simp only; omega)
          · exact ih m _ _ (by simp only; omega) (by simp only; omega)

theorem importLoop_started_fit (height : Nat) (known : Hash → Bool) :
    ∀ (turns : Nat) (f : Fetcher) (started : List Inject),
      (∀ op ∈ started, op.detailed.momentum.height ≤ height + 1 ∧
        height ≤ op.detailed.momentum.height + 7 ∧ known op.detailed.momentum.hash = false) →
      ∀ op ∈ (importLoop height known turns f started).2,
        op.detailed.momentum.height ≤ height + 1 ∧
        height ≤ op.detailed.momentum.height + 7 ∧ known op.detailed.momentum.hash = false := by
  intro turns
  induction turns with
  | zero =>
    intro f started h
    exact h
  | succ turns ih =>
    intro f started h
    unfold importLoop
    split
    · exact h
    · next op1 rest hpop =>
      simp only
      split
      · exact h
      · next hlow =>
        split
        · exact ih _ _ h
        · next hfresh =>
          apply ih
          intro op hop
          rcases List.mem_append.1 hop with hop | hop
          · exact h op hop
          · simp only [List.mem_singleton] at hop
            subst hop
            have h1 := Nat.mod_le (height + 1) (2 ^ 64)
            have h2 := Nat.mod_le (op.detailed.momentum.height + maxUncleDist) (2 ^ 64)
            simp only [not_or, maxUncleDist] at hfresh h2
            refine ⟨by omega, by omega, ?_⟩
            simpa using hfresh.2

/-- C13: with `h` the chain height read at the start of the import phase, every
block for which an import worker is started has `height ≤ h + 1` and
`height + 7 ≥ h`, and `getBlock` returned nil for its hash: a block above
`h + 1` or more than 7 below `h` is never handed to a worker.  The phase is
the loop run to its end: more turns give the same result. -/
theorem import_started_within_bounds (height : Nat) (known : Hash → Bool) (f : Fetcher) :
    (∀ op ∈ (importPhase height known f).2,
      op.detailed.momentum.height ≤ height + 1 ∧
      height ≤ op.detailed.momentum.height + 7 ∧ known op.detailed.momentum.hash = false) ∧
    (∀ n, f.queue.length ≤ n → importLoop height known n f [] = importPhase height known f) :=
  ⟨importLoop_started_fit height known _ f [] (by simp),
    fun n hn => importLoop_enough height known n _ f [] hn (le_refl _)⟩

/-- The import phase at chain height 0 on the state `deliveredOne`, which
starts the import of `blockOne`. -/
theorem import_started_within_bounds_witness :
    ({ origin := "A", detailed := blockOne } : Inject)
      ∈ (importPhase 0 (fun _ => false) deliveredOne).2 ∧
    blockOne.momentum.height ≤ 0 + 1 ∧ 0 ≤ blockOne.momentum.height + 7 :=
  ⟨by decide,
    ((import_started_within_bounds 0 (fun _ => false) deliveredOne).1
      { origin := "A", detailed := blockOne } (by decide)).1,
    ((import_started_within_bounds 0 (fun _ => false) deliveredOne).1
      { origin := "A", detailed := blockOne } (by decide)).2.1⟩

/-! ## The order of the priority queue -/

theorem reachable_collided : Reachable collided [] := by
  have h := Reachable.importPhase 16777214 (fun _ => false)
    (Reachable.inject 16777214 highBlock Reachable.init)
  have e : ([] : List Hash) ++
      (importPhase 16777214 (fun _ => false) (inject 16777214 empty highBlock)).2.map
        (fun op => op.detailed.momentum.hash) = [] := by decide
  rw [e] at h
  exact Reachable.inject 16777214 lowBlock h

/-- C14: the claim fails on the code.  In the reachable state `collided` the
queue holds the blocks of heights `2^24` and `2^24 + 1`; `float32` gives both
the priority `-2^24`, and the entry of height `2^24 + 1`, pushed first, is
popped first. -/
theorem pop_order_lost_by_rounding :
    Reachable collided [] ∧
    collided.queue = [(highBlock, -16777216), (lowBlock, -16777216)] ∧
    lowBlock.detailed.momentum.height < highBlock.detailed.momentum.height ∧
    -(float32OfUint64 lowBlock.detailed.momentum.height : Int)
      = -(float32OfUint64 highBlock.detailed.momentum.height : Int) ∧
    popItem collided.queue = some (highBlock, [(lowBlock, -16777216)]) :=
  ⟨reachable_collided, by decide, by decide, by decide, by decide⟩

/-- C15: the claim fails on the code.  In the reachable state `collided`, at
chain height `h = 2^24 - 1`, the entry of lowest height has height `h + 1`, is
not stale and is unknown, and the import phase starts no import worker: it
pops the entry of height `h + 2` first, puts it back and stops. -/
theorem import_skips_fitting_block :
    Reachable collided [] ∧
    (∀ e ∈ collided.queue,
      lowBlock.detailed.momentum.height ≤ e.1.detailed.momentum.height) ∧
    lowBlock.detailed.momentum.height ≤ 16777215 + 1 ∧
    16777215 ≤ lowBlock.detailed.momentum.height + 7 ∧
    importPhase 16777215 (fun _ => false) collided
      = ({ collided with queue := [(lowBlock, -16777216), (highBlock, -16777216)] }, []) :=
  ⟨reachable_collided, by decide, by decide, by decide, by decide⟩

/-- While every entry of the queue is above `h + 1`, the import phase starts
no import worker and keeps the maps and the values held in the queue. -/
theorem importPhase_retains_future (height : Nat) (known : Hash → Bool) (f : Fetcher)
    (hall : ∀ e ∈ f.queue, height + 1 < e.1.detailed.momentum.height) :
    (importPhase height known f).2 = [] ∧
    (importPhase height known f).1.queued = f.queued ∧
    (importPhase height known f).1.queues = f.queues ∧
    (importPhase height known f).1.announces = f.announces ∧
    (importPhase height known f).1.announced = f.announced ∧
    (importPhase height known f).1.fetching = f.fetching ∧
    ((importPhase height known f).1.queue.map Prod.fst).Perm (f.queue.map Prod.fst) := by
  unfold importPhase
  generalize f.queue.length = n
  cases n with
  | zero => exact ⟨rfl, rfl, rfl, rfl, rfl, rfl, List.Perm.refl _⟩
  | succ n =>
    unfold importLoop
    split
    · exact ⟨rfl, rfl, rfl, rfl, rfl, rfl, List.Perm.refl _⟩
    · next op rest hpop =>
      obtain ⟨priority, hperm⟩ := popItem_perm _ _ _ hpop
      have hop := hall (op, priority) (hperm.mem_iff.2 (List.mem_cons_self _ _))
      have hle := Nat.mod_le (height + 1) (2 ^ 64)
      simp only at hop ⊢
      rw [if_pos (by omega)]
      refine ⟨rfl, rfl, rfl, rfl, rfl, rfl, ?_⟩
      have h1 := hperm.map Prod.fst
      simp only [List.map_cons] at h1
      simp only [push, List.map_append, List.map_cons, List.map_nil]
      exact List.perm_append_comm.trans h1.symm

/-- At chain height 5 the block of height 20 stays queued; at chain height 19
the import phase starts its import. -/
theorem future_block_waits :
    importPhase 5 (fun _ => false) (inject 5 empty blockTwenty)
      = (inject 5 empty blockTwenty, []) ∧
    (inject 5 empty blockTwenty).queue = [(blockTwenty, -20)] ∧
    importPhase 19 (fun _ => false) (inject 5 empty blockTwenty)
      = ({ inject 5 empty blockTwenty with queue := [] }, [blockTwenty]) :=
  ⟨by decide, by decide, by decide⟩

/-! ## The `done` handler -/

/-- C18: after the `done(hash)` handler `hash` is a key of none of `announced`,
`fetching` and `queued`, and the entries of these maps for every other hash
are unchanged. -/
theorem done_clears_hash (f : Fetcher) (hash : Hash) :
    Map.find (done f hash).announced hash = none ∧
    Map.find (done f hash).fetching hash = none ∧
    Map.find (done f hash).queued hash = none ∧
    ∀ h, h ≠ hash →
      Map.find (done f hash).announced h = Map.find f.announced h ∧
      Map.find (done f hash).fetching h = Map.find f.fetching h ∧
      Map.find (done f hash).queued h = Map.find f.queued h := by
  unfold done
  simp only [forgetBlock_announced, forgetBlock_fetching, forgetBlock_queued, forgetHash_queued,
    forgetHash_announced, forgetHash_fetching, Map.find_remove, if_true, true_and]
  intro h hne
  simp [hne]

/-- The handler for hash 5 at the state `importStarted`, after a further
announce of hash 2. -/
theorem done_clears_hash_witness :
    Map.find (done (notify importStarted announceTwo) 5).queued 5 = none ∧
    Map.find (done (notify importStarted announceTwo) 5).announced 2
      = Map.find (notify importStarted announceTwo).announced 2 :=
  ⟨(done_clears_hash (notify importStarted announceTwo) 5).2.2.1,
    ((done_clears_hash (notify importStarted announceTwo) 5).2.2.2 2 (by decide)).1⟩

/-! ## The import worker -/

theorem insertBody_sends_nothing (o : Outcome) (peer : PeerId) (d : DetailedMomentum)
    (h : Hash) : Effect.done h ∉ insertBody o peer d := by
  obtain ⟨a, b, c, e⟩ := o
  cases a <;> cases b <;> cases c <;> cases e <;> simp [insertBody]

/-- What a worker has left to do while its send of `hash` is ahead and the loop
has received nothing from it, or once that send has been received. -/
theorem step_keeps_pending (f : Fetcher) (hash : Hash) (s t : Running) (hstep : Step s t)
    (hs : ((∃ rest, s.worker = rest ++ [Effect.done hash] ∧ ∀ h, Effect.done h ∉ rest) ∧
        s.fetcher = f) ∨
      (s.worker = [] ∧ s.fetcher = done f hash)) :
    ((∃ rest, t.worker = rest ++ [Effect.done hash] ∧ ∀ h, Effect.done h ∉ rest) ∧
        t.fetcher = f) ∨
      (t.worker = [] ∧ t.fetcher = done f hash) := by
  cases hstep with
  | call r g e rest hne =>
    rcases hs with ⟨⟨before, hb, hno⟩, hf⟩ | ⟨hw, _⟩
    · simp only at hb hf
      cases before with
      | nil =>
        simp only [List.nil_append, List.cons.injEq] at hb
        exact absurd hb.1 (hne hash)
      | cons x before =>
        simp only [List.cons_append, List.cons.injEq] at hb
        exact Or.inl ⟨⟨before, hb.2, fun h hin => hno h (List.mem_cons_of_mem _ hin)⟩, hf⟩
    · simp at hw
  | receive g h rest =>
    rcases hs with ⟨⟨before, hb, hno⟩, hf⟩ | ⟨hw, _⟩
    · simp only at hb hf
      cases before with
      | nil =>
        simp only [List.nil_append, List.cons.injEq, Effect.done.injEq] at hb
        refine Or.inr ⟨hb.2, ?_⟩
        simp only
        rw [hb.1, hf]
      | cons x before =>
        simp only [List.cons_append, List.cons.injEq] at hb
        exact absurd (List.mem_cons_self _ _) (hb.1 ▸ hno h)
    · simp at hw
  | quit g w => exact hs

/-- Beside a loop that has not returned, a worker whose work is a list of calls
followed by the send of `hash` gets to its end, the loop handling the signal. -/
theorem run_completes (f : Fetcher) (hash : Hash) (rest : List Effect)
    (hno : ∀ h, Effect.done h ∉ rest) :
    Relation.ReflTransGen Step ⟨false, f, rest ++ [Effect.done hash]⟩
      ⟨false, done f hash, []⟩ := by
  induction rest with
  | nil => exact Relation.ReflTransGen.single (Step.receive f hash [])
  | cons e rest ih =>
    refine Relation.ReflTransGen.head
      (Step.call false f e (rest ++ [Effect.done hash])
        (fun h heq => hno h (heq ▸ List.mem_cons_self _ _)))
      (ih (fun h hin => hno h (List.mem_cons_of_mem _ hin)))

/-- C19: whatever the callbacks answer, the work of the import worker of a block
is a body that sends nothing followed by one send of the hash of the block on
`done`.  Started beside a loop that has not returned, the worker gets to the end
of its work and the loop handles the signal.  In every run, as long as the
worker has work left the loop has received nothing from it and the work left
ends with that one send; once the worker is through, the loop has handled
`done` for the hash once.  Wherever a run stands, if the loop has not returned
the worker can still get to its end. -/
theorem worker_signals_done_once (o : Outcome) (peer : PeerId) (d : DetailedMomentum)
    (f : Fetcher) :
    (∃ before, insert o peer d = before ++ [Effect.done d.momentum.hash] ∧
      ∀ h, Effect.done h ∉ before) ∧
    Relation.ReflTransGen Step ⟨false, f, insert o peer d⟩
      ⟨false, done f d.momentum.hash, []⟩ ∧
    (∀ s, Relation.ReflTransGen Step ⟨false, f, insert o peer d⟩ s →
      ((∃ rest, s.worker = rest ++ [Effect.done d.momentum.hash] ∧
          ∀ h, Effect.done h ∉ rest) ∧ s.fetcher = f) ∨
        (s.worker = [] ∧ s.fetcher = done f d.momentum.hash)) ∧
    (∀ s, Relation.ReflTransGen Step ⟨false, f, insert o peer d⟩ s → s.returned = false →
      Relation.ReflTransGen Step s ⟨false, done f d.momentum.hash, []⟩) := by
  have hbody := insertBody_sends_nothing o peer d
  have hinv : ∀ s, Relation.ReflTransGen Step ⟨false, f, insert o peer d⟩ s →
      ((∃ rest, s.worker = rest ++ [Effect.done d.momentum.hash] ∧
          ∀ h, Effect.done h ∉ rest) ∧ s.fetcher = f) ∨
        (s.worker = [] ∧ s.fetcher = done f d.momentum.hash) := by
    intro s hs
    induction hs with
    | refl => exact Or.inl ⟨⟨insertBody o peer d, rfl, hbody⟩, rfl⟩
    | tail _ hstep ih => exact step_keeps_pending f d.momentum.hash _ _ hstep ih
  refine ⟨⟨insertBody o peer d, rfl, hbody⟩,
    run_completes f d.momentum.hash (insertBody o peer d) hbody, hinv, ?_⟩
  intro s hs hr
  obtain ⟨r, g, wk⟩ := s
  simp only at hr
  subst hr
  rcases hinv _ hs with ⟨⟨rest, hw, hno⟩, hf⟩ | ⟨hw, hf⟩
  · simp only at hw hf
    rw [hw, hf]
    exact run_completes f d.momentum.hash rest hno
  · simp only at hw hf
    rw [hw, hf]

theorem importLoop_started_queued (height : Nat) (known : Hash → Bool) (w : List Hash) :
    ∀ (turns : Nat) (f : Fetcher) (started : List Inject),
      QueueSound f.queue f.queued (w ++ started.map (fun op => op.detailed.momentum.hash)) →
      (∀ op ∈ started, Map.find f.queued op.detailed.momentum.hash = some op) →
      ∀ op ∈ (importLoop height known turns f started).2,
        Map.find (importLoop height known turns f started).1.queued op.detailed.momentum.hash
          = some op := by
  intro turns
  induction turns with
  | zero =>
    intro f started _ h2
    exact h2
  | succ turns ih =>
    intro f started h1 h2
    unfold importLoop
    split
    · exact h2
    · next op1 rest hpop =>
      obtain ⟨priority, hperm⟩ := popItem_perm _ _ _ hpop
      obtain ⟨g1, _, _, _, _, g6⟩ := queueSound_split _ _ _ _ _ _ h1 hperm
      simp only
      split
      · exact h2
      · split
        · apply ih
          · rw [forgetBlock_queue, forgetBlock_queued]
            exact queueSound_forget _ _ _ _ _ _ h1 hperm
          · intro op hop
            rw [forgetBlock_queued]
            have hw : op.detailed.momentum.hash
                ∈ w ++ started.map (fun op => op.detailed.momentum.hash) :=
              List.mem_append_right _
                (List.mem_map_of_mem (fun op : Inject => op.detailed.momentum.hash) hop)
            have hne : op.detailed.momentum.hash ≠ op1.detailed.momentum.hash := by
              intro heq
              exact (h1.2.2.2.1 _ hw).2 ((g6 _).2 (Or.inl heq))
            simp only
            rw [Map.find_remove, if_neg hne]
            exact h2 op hop
        · apply ih
          · rw [List.map_append, ← List.append_assoc]
            exact queueSound_start _ _ _ _ _ _ h1 hperm
          · intro op hop
            rcases List.mem_append.1 hop with hop | hop
            · exact h2 op hop
            · simp only [List.mem_singleton] at hop
              rw [hop]
              exact g1

/-- C20: when the parent is found and `validateBlock` returns an error,
the import worker calls `dropPeer` exactly once, with the peer it was started for,
calls none of `insertChain`, `broadcastBlock` and the imported hook, and then
sends on `done`; when `validateBlock` succeeds or the parent is missing,
`dropPeer` is not called.  The worker is started for the origin of the
operation popped, which in a reachable state is the value of `queued` for the
hash of the block. -/
theorem failed_validation_drops_peer :
    (∀ (o : Outcome) (peer : PeerId) (d : DetailedMomentum),
      o.parentFound = true → o.validateOk = false →
      insert o peer d =
        [Effect.getBlock d.momentum.previousHash, Effect.validateBlock d.momentum,
          Effect.dropPeer peer, Effect.done d.momentum.hash]) ∧
    (∀ (o : Outcome) (peer p : PeerId) (d : DetailedMomentum),
      o.validateOk = true ∨ o.parentFound = false → Effect.dropPeer p ∉ insert o peer d) ∧
    (∀ (f : Fetcher) (w : List Hash), Reachable f w →
      ∀ (height : Nat) (known : Hash → Bool), ∀ op ∈ (importPhase height known f).2,
        Map.find (importPhase height known f).1.queued op.detailed.momentum.hash = some op) := by
  refine ⟨?_, ?_, ?_⟩
  · intro o peer d h1 h2
    simp [insert, insertBody, h1, h2]
  · intro o peer p d h
    obtain ⟨a, b, c, e⟩ := o
    cases a <;> cases b <;> cases c <;> cases e <;> simp [insert, insertBody] at h ⊢
  · intro f w hr height known
    exact importLoop_started_queued height known w _ f []
      (by simpa using reachable_queueSound hr) (by simp)

/-- The worker started for `blockOne` by the import phase on `deliveredOne`,
with the parent found and the validation failing. -/
theorem failed_validation_drops_peer_witness :
    insert { parentFound := true, validateOk := false, insertOk := true, hookSet := false }
        "A" blockOne
      = [Effect.getBlock 0, Effect.validateBlock blockOne.momentum, Effect.dropPeer "A",
          Effect.done 1] ∧
    Effect.dropPeer "A" ∉
      insert { parentFound := true, validateOk := true, insertOk := true, hookSet := false }
        "A" blockOne ∧
    Map.find (importPhase 0 (fun _ => false) deliveredOne).1.queued 1
      = some { origin := "A", detailed := blockOne } :=
  ⟨failed_validation_drops_peer.1 _ "A" blockOne rfl rfl,
    failed_validation_drops_peer.2.1 _ "A" "A" blockOne (Or.inl rfl),
    failed_validation_drops_peer.2.2 deliveredOne [] reachable_deliveredOne 0 (fun _ => false)
      { origin := "A", detailed := blockOne } (by decide)⟩

/-! ## The `filter` handler -/

theorem filter_eq (known : Hash → Bool) (chainHeight : Nat) (f : Fetcher)
    (blocks : List DetailedMomentum) :
    filter known chainHeight f blocks =
      ((filterFirst known f blocks).2.1.foldl (scheduleTurn chainHeight)
        (filterFirst known f blocks).1, (filterFirst known f blocks).2.2) := rfl

theorem filterTurn_eq (known : Hash → Bool)
    (acc : Fetcher × List DetailedMomentum × List DetailedMomentum) (b : DetailedMomentum) :
    filterTurn known acc b =
      if requested acc.1 b.momentum.hash = true then
        (if known b.momentum.hash = false then (acc.1, acc.2.1 ++ [b], acc.2.2)
          else (forgetHash acc.1 b.momentum.hash, acc.2.1, acc.2.2))
      else (acc.1, acc.2.1, acc.2.2 ++ [b]) := by
  unfold filterTurn requested
  simp only [Bool.and_eq_true]

theorem requested_forgetHash (g : Fetcher) (h x : Hash) (hne : x ≠ h) :
    requested (forgetHash g h) x = requested g x := by
  unfold requested
  rw [forgetHash_fetching, forgetHash_queued, Map.find_remove, if_neg hne]

theorem filterLoop_queued (known : Hash → Bool) (blocks : List DetailedMomentum) :
    ∀ (acc : Fetcher × List DetailedMomentum × List DetailedMomentum),
      (blocks.foldl (filterTurn known) acc).1.queued = acc.1.queued ∧
      (blocks.foldl (filterTurn known) acc).1.queues = acc.1.queues ∧
      (blocks.foldl (filterTurn known) acc).1.queue = acc.1.queue := by
  induction blocks with
  | nil => intro acc; exact ⟨rfl, rfl, rfl⟩
  | cons b bs ih =>
    intro acc
    rw [List.foldl_cons]
    obtain ⟨i1, i2, i3⟩ := ih (filterTurn known acc b)
    rw [i1, i2, i3, filterTurn_eq]
    split
    · split
      · exact ⟨rfl, rfl, rfl⟩
      · exact ⟨forgetHash_queued _ _, forgetHash_queues _ _, forgetHash_queue _ _⟩
    · exact ⟨rfl, rfl, rfl⟩

theorem filterLoop_fetching_none (known : Hash → Bool) (h : Hash)
    (blocks : List DetailedMomentum) :
    ∀ (acc : Fetcher × List DetailedMomentum × List DetailedMomentum),
      Map.find acc.1.fetching h = none →
      Map.find (blocks.foldl (filterTurn known) acc).1.fetching h = none := by
  induction blocks with
  | nil => intro acc hn; exact hn
  | cons b bs ih =>
    intro acc hn
    rw [List.foldl_cons]
    apply ih
    rw [filterTurn_eq]
    split
    · split
      · exact hn
      · simp only [forgetHash_fetching, Map.find_remove]
        split
        · rfl
        · exact hn
    · exact hn

theorem filterLoop_sublist (known : Hash → Bool) (blocks : List DetailedMomentum) :
    ∀ (acc : Fetcher × List DetailedMomentum × List DetailedMomentum),
      ∃ l, l.Sublist blocks ∧ (blocks.foldl (filterTurn known) acc).2.2 = acc.2.2 ++ l := by
  induction blocks with
  | nil => intro acc; exact ⟨[], List.Sublist.refl _, by simp⟩
  | cons b bs ih =>
    intro acc
    rw [List.foldl_cons]
    obtain ⟨l, hl, he⟩ := ih (filterTurn known acc b)
    rw [he, filterTurn_eq]
    split
    · split
      · exact ⟨l, hl.cons b, rfl⟩
      · exact ⟨l, hl.cons b, rfl⟩
    · exact ⟨b :: l, hl.cons₂ b, by simp⟩

theorem filterLoop_distinct (known : Hash → Bool) (blocks : List DetailedMomentum) :
    ∀ (acc : Fetcher × List DetailedMomentum × List DetailedMomentum),
      (blocks.map (fun b => b.momentum.hash)).Nodup →
      (blocks.foldl (filterTurn known) acc).2.2
        = acc.2.2 ++ blocks.filter (fun b => !requested acc.1 b.momentum.hash) ∧
      ∀ b ∈ blocks, requested acc.1 b.momentum.hash = true → known b.momentum.hash = true →
        Map.find (blocks.foldl (filterTurn known) acc).1.fetching b.momentum.hash = none := by
  induction blocks with
  | nil => intro acc _; exact ⟨by simp, by simp⟩
  | cons b bs ih =>
    intro acc hnd
    rw [List.map_cons, List.nodup_cons] at hnd
    have hne : ∀ x ∈ bs, x.momentum.hash ≠ b.momentum.hash := by
      intro x hx heq
      exact hnd.1 (heq ▸ List.mem_map_of_mem (fun b : DetailedMomentum => b.momentum.hash) hx)
    obtain ⟨i1, i2⟩ := ih (filterTurn known acc b) hnd.2
    have hreq : ∀ x ∈ bs,
        requested (filterTurn known acc b).1 x.momentum.hash = requested acc.1 x.momentum.hash := by
      intro x hx
      rw [filterTurn_eq]
      split
      · split
        · rfl
        · exact requested_forgetHash _ _ _ (hne x hx)
      · rfl
    have hfilter : bs.filter (fun x => !requested (filterTurn known acc b).1 x.momentum.hash)
        = bs.filter (fun x => !requested acc.1 x.momentum.hash) := by
      apply List.filter_congr
      intro x hx
      rw [hreq x hx]
    rw [List.foldl_cons]
    refine ⟨?_, ?_⟩
    · rw [i1, hfilter, filterTurn_eq]
      by_cases hr : requested acc.1 b.momentum.hash = true
      · rw [if_pos hr]
        simp only [List.filter, hr, Bool.not_true]
        split <;> rfl
      · rw [if_neg hr]
        simp only [Bool.not_eq_true] at hr
        simp [List.filter, hr]
    · intro x hx hr hk
      rcases List.mem_cons.1 hx with hx | hx
      · subst hx
        apply filterLoop_fetching_none
        rw [filterTurn_eq, if_pos hr, if_neg (by simp [hk])]
        simp [forgetHash_fetching, Map.find_remove]
      · exact i2 x hx (by rw [hreq x hx]; exact hr) hk

theorem requested_iff (f : Fetcher) (h : Hash) :
    requested f h = true ↔ Map.find f.fetching h ≠ none ∧ Map.find f.queued h = none := by
  unfold requested
  cases Map.find f.fetching h <;> cases Map.find f.queued h <;> simp

theorem scheduleTurn_fetching (c : Nat) (s : Fetcher) (b : DetailedMomentum) :
    (scheduleTurn c s b).fetching = s.fetching := by
  unfold scheduleTurn
  split
  · exact enqueue_fetching _ _ _ _
  · rfl

theorem scheduleLoop_fetching (c : Nat) (bs : List DetailedMomentum) :
    ∀ s : Fetcher, (bs.foldl (scheduleTurn c) s).fetching = s.fetching := by
  induction bs with
  | nil => intro s; rfl
  | cons b bs ih =>
    intro s
    rw [List.foldl_cons, ih, scheduleTurn_fetching]

theorem enqueue_queued_other (c : Nat) (f : Fetcher) (p : PeerId) (d : DetailedMomentum)
    (h : Hash) (hne : h ≠ d.momentum.hash) :
    Map.find (enqueue c f p d).queued h = Map.find f.queued h := by
  unfold enqueue
  simp only
  split
  · rfl
  · split
    · rfl
    · split
      · simp only [Map.find_put, if_neg hne]
      · rfl

theorem enqueue_queued_keep (c : Nat) (f : Fetcher) (p : PeerId) (d : DetailedMomentum)
    (h : Hash) (op : Inject) (hfind : Map.find f.queued h = some op) :
    Map.find (enqueue c f p d).queued h = some op := by
  unfold enqueue
  simp only
  split
  · exact hfind
  · split
    · exact hfind
    · split
      · next hnone =>
        have hne : h ≠ d.momentum.hash := by
          intro heq
          rw [heq, hnone] at hfind
          exact absurd hfind (by simp)
        simp only [Map.find_put, if_neg hne]
        exact hfind
      · exact hfind

theorem scheduleLoop_queued_none (c : Nat) (h : Hash) (bs : List DetailedMomentum) :
    ∀ s : Fetcher, Map.find s.fetching h = none → Map.find s.queued h = none →
      Map.find (bs.foldl (scheduleTurn c) s).queued h = none := by
  induction bs with
  | nil => intro s _ hq; exact hq
  | cons b bs ih =>
    intro s hf hq
    rw [List.foldl_cons]
    apply ih
    · rw [scheduleTurn_fetching]
      exact hf
    · unfold scheduleTurn
      split
      · next a ha =>
        have hne : h ≠ b.momentum.hash := by
          intro heq
          rw [← heq, hf] at ha
          exact absurd ha (by simp)
        rw [enqueue_queued_other _ _ _ _ _ hne]
        exact hq
      · exact hq

/-- C16: the list the `filter` handler sends back is an order-preserving
sub-list of the batch; for a batch with pairwise distinct hashes a block is
returned if and only if its hash is not in `fetching` or is in `queued`, and a
block whose hash is in `fetching`, not in `queued` and known to `getBlock` is
neither returned nor enqueued, and its hash is removed from `fetching`. -/
theorem filter_returns_unrequested (known : Hash → Bool) (chainHeight : Nat) (f : Fetcher)
    (blocks : List DetailedMomentum) :
    (filter known chainHeight f blocks).2.Sublist blocks ∧
    ((blocks.map (fun b => b.momentum.hash)).Nodup →
      (∀ b ∈ blocks, b ∈ (filter known chainHeight f blocks).2 ↔
        (Map.find f.fetching b.momentum.hash = none ∨
          Map.find f.queued b.momentum.hash ≠ none)) ∧
      (∀ b ∈ blocks, Map.find f.fetching b.momentum.hash ≠ none →
        Map.find f.queued b.momentum.hash = none → known b.momentum.hash = true →
        b ∉ (filter known chainHeight f blocks).2 ∧
        Map.find (filter known chainHeight f blocks).1.queued b.momentum.hash = none ∧
        Map.find (filter known chainHeight f blocks).1.fetching b.momentum.hash = none)) := by
  rw [filter_eq]
  refine ⟨?_, fun hnd => ?_⟩
  · obtain ⟨l, hl, he⟩ := filterLoop_sublist known blocks (f, [], [])
    simp only [filterFirst]
    rw [he]
    simpa using hl
  · obtain ⟨i1, i2⟩ := filterLoop_distinct known blocks (f, [], []) hnd
    have hret : ∀ b ∈ blocks, b ∈ (filterFirst known f blocks).2.2 ↔
        (Map.find f.fetching b.momentum.hash = none ∨
          Map.find f.queued b.momentum.hash ≠ none) := by
      intro b hb
      simp only [filterFirst]
      rw [i1]
      simp only [List.nil_append, List.mem_filter, hb, true_and, Bool.not_eq_true',
        ← Bool.not_eq_true, requested_iff]
      constructor
      · intro h
        by_cases hf : Map.find f.fetching b.momentum.hash = none
        · exact Or.inl hf
        · exact Or.inr (fun hq => h ⟨hf, hq⟩)
      · rintro (h | h) ⟨h1, h2⟩
        · exact h1 h
        · exact h h2
    refine ⟨hret, ?_⟩
    intro b hb hf hq hk
    have hnone := i2 b hb ((requested_iff f _).2 ⟨hf, hq⟩) hk
    refine ⟨?_, ?_, ?_⟩
    · rw [hret b hb]
      rintro (h | h)
      · exact hf h
      · exact h hq
    · apply scheduleLoop_queued_none
      · exact hnone
      · have hsame := (filterLoop_queued known blocks (f, [], [])).1
        simp only [filterFirst]
        rw [hsame]
        exact hq
    · simp only
      rw [scheduleLoop_fetching]
      exact hnone

/-- The handler at the state `fetchingOne`, for a batch of the requested block
and a block nobody asked for. -/
theorem filter_returns_unrequested_witness :
    (filter (fun _ => false) 0 fetchingOne [blockOne, distantBlock]).2.Sublist
      [blockOne, distantBlock] ∧
    (distantBlock ∈ (filter (fun _ => false) 0 fetchingOne [blockOne, distantBlock]).2 ↔
      (Map.find fetchingOne.fetching distantBlock.momentum.hash = none ∨
        Map.find fetchingOne.queued distantBlock.momentum.hash ≠ none)) ∧
    (Map.find (filter (fun _ => true) 0 fetchingOne [blockOne, distantBlock]).1.fetching 1
      = none) :=
  ⟨(filter_returns_unrequested (fun _ => false) 0 fetchingOne [blockOne, distantBlock]).1,
    ((filter_returns_unrequested (fun _ => false) 0 fetchingOne [blockOne, distantBlock]).2
      (by decide)).1 distantBlock (by decide),
    (((filter_returns_unrequested (fun _ => true) 0 fetchingOne [blockOne, distantBlock]).2
      (by decide)).2 blockOne (by decide) (by decide) (by decide) rfl).2.2⟩

theorem requested_of_same (known : Hash → Bool) (f g : Fetcher) (h : Hash)
    (hq : g.queued = f.queued)
    (hf : ∀ x, known x = false → Map.find g.fetching x = Map.find f.fetching x)
    (hk : known h = false) : requested g h = requested f h := by
  unfold requested
  rw [hq, hf h hk]

theorem filterLoop_explicit (known : Hash → Bool) (f : Fetcher)
    (blocks : List DetailedMomentum) :
    ∀ (acc : Fetcher × List DetailedMomentum × List DetailedMomentum),
      acc.1.queued = f.queued →
      (∀ x, known x = false → Map.find acc.1.fetching x = Map.find f.fetching x) →
      (blocks.foldl (filterTurn known) acc).2.1
        = acc.2.1 ++ blocks.filter
            (fun b => requested f b.momentum.hash && !known b.momentum.hash) ∧
      (∀ x, known x = false →
        Map.find (blocks.foldl (filterTurn known) acc).1.fetching x = Map.find f.fetching x) ∧
      (∀ b ∈ (blocks.foldl (filterTurn known) acc).2.2,
        b ∈ acc.2.2 ∨ (requested f b.momentum.hash && !known b.momentum.hash) = false) := by
  induction blocks with
  | nil =>
    intro acc _ hf
    exact ⟨by simp, hf, fun b hb => Or.inl hb⟩
  | cons b bs ih =>
    intro acc hq hf
    rw [List.foldl_cons, filterTurn_eq]
    by_cases hr : requested acc.1 b.momentum.hash = true
    · rw [if_pos hr]
      by_cases hk : known b.momentum.hash = false
      · rw [if_pos hk]
        have hrf : requested f b.momentum.hash = true := by
          rw [← requested_of_same known f acc.1 _ hq hf hk]
          exact hr
        obtain ⟨i1, i2, i3⟩ := ih (acc.1, acc.2.1 ++ [b], acc.2.2) hq hf
        refine ⟨?_, i2, i3⟩
        rw [i1]
        simp [List.filter_cons, hrf, hk]
      · rw [if_neg hk]
        simp only [Bool.not_eq_false] at hk
        obtain ⟨i1, i2, i3⟩ := ih (forgetHash acc.1 b.momentum.hash, acc.2.1, acc.2.2)
          (by rw [forgetHash_queued]; exact hq)
          (by
            intro x hx
            have hne : x ≠ b.momentum.hash := by
              intro heq
              rw [heq, hk] at hx
              exact absurd hx (by simp)
            simp only [forgetHash_fetching, Map.find_remove, if_neg hne]
            exact hf x hx)
        refine ⟨?_, i2, i3⟩
        rw [i1]
        simp [List.filter_cons, hk]
    · rw [if_neg hr]
      simp only [Bool.not_eq_true] at hr
      have hexp : (requested f b.momentum.hash && !known b.momentum.hash) = false := by
        by_cases hk : known b.momentum.hash = false
        · rw [← requested_of_same known f acc.1 _ hq hf hk, hr]
          rfl
        · simp only [Bool.not_eq_false] at hk
          simp [hk]
      obtain ⟨i1, i2, i3⟩ := ih (acc.1, acc.2.1, acc.2.2 ++ [b]) hq hf
      refine ⟨?_, i2, ?_⟩
      · rw [i1]
        simp [List.filter_cons, hexp]
      · intro x hx
        rcases i3 x hx with h | h
        · rcases List.mem_append.1 h with h | h
          · exact Or.inl h
          · simp only [List.mem_singleton] at h
            exact Or.inr (h ▸ hexp)
        · exact Or.inr h

theorem filterFirst_explicit (known : Hash → Bool) (f : Fetcher)
    (blocks : List DetailedMomentum) :
    (filterFirst known f blocks).2.1
      = blocks.filter (fun b => requested f b.momentum.hash && !known b.momentum.hash) ∧
    (filterFirst known f blocks).1.queued = f.queued ∧
    (filterFirst known f blocks).1.queues = f.queues ∧
    (∀ x, known x = false →
      Map.find (filterFirst known f blocks).1.fetching x = Map.find f.fetching x) ∧
    (∀ b ∈ (filterFirst known f blocks).2.2,
      (requested f b.momentum.hash && !known b.momentum.hash) = false) := by
  obtain ⟨i1, i2, i3⟩ := filterLoop_explicit known f blocks (f, [], []) rfl (fun _ _ => rfl)
  obtain ⟨j1, j2, _⟩ := filterLoop_queued known blocks (f, [], [])
  refine ⟨by simpa using i1, j1, j2, i2, ?_⟩
  intro b hb
  rcases i3 b hb with h | h
  · simp at h
  · exact h

theorem enqueue_queued_cases (c : Nat) (s : Fetcher) (p : PeerId) (d : DetailedMomentum)
    (h : Hash) (op : Inject) (hfind : Map.find (enqueue c s p d).queued h = some op) :
    Map.find s.queued h = some op ∨ (h = d.momentum.hash ∧ op.origin = p) := by
  unfold enqueue at hfind
  simp only at hfind
  split at hfind
  · exact Or.inl hfind
  · split at hfind
    · exact Or.inl hfind
    · split at hfind
      · simp only [Map.find_put] at hfind
        split at hfind
        · next heq =>
          simp only [Option.some.injEq] at hfind
          exact Or.inr ⟨heq, by rw [← hfind]⟩
        · exact Or.inl hfind
      · exact Or.inl hfind

theorem enqueue_queues_step (c : Nat) (s : Fetcher) (p q : PeerId) (d : DetailedMomentum) :
    Map.get (enqueue c s q d).queues p ≤ Map.get s.queues p + 1 := by
  unfold enqueue
  simp only
  split
  · omega
  · split
    · omega
    · split
      · simp only [Map.get_put]
        split
        · next heq => rw [heq]
        · omega
      · omega

theorem scheduleLoop_queues_le (c : Nat) (p : PeerId) (bs : List DetailedMomentum) :
    ∀ s : Fetcher,
      Map.get (bs.foldl (scheduleTurn c) s).queues p ≤ Map.get s.queues p + bs.length := by
  induction bs with
  | nil => intro s; simp
  | cons b bs ih =>
    intro s
    rw [List.foldl_cons]
    have h1 := ih (scheduleTurn c s b)
    have h2 : Map.get (scheduleTurn c s b).queues p ≤ Map.get s.queues p + 1 := by
      unfold scheduleTurn
      split
      · exact enqueue_queues_step _ _ _ _ _
      · omega
    simp only [List.length_cons]
    push_cast
    omega

theorem scheduleLoop_queued_keep (c : Nat) (h : Hash) (op : Inject)
    (bs : List DetailedMomentum) :
    ∀ s : Fetcher, Map.find s.queued h = some op →
      Map.find (bs.foldl (scheduleTurn c) s).queued h = some op := by
  induction bs with
  | nil => intro s hs; exact hs
  | cons b bs ih =>
    intro s hs
    rw [List.foldl_cons]
    apply ih
    unfold scheduleTurn
    split
    · exact enqueue_queued_keep _ _ _ _ _ _ hs
    · exact hs

theorem scheduleLoop_queued_other (c : Nat) (h : Hash) (bs : List DetailedMomentum) :
    ∀ s : Fetcher, (∀ x ∈ bs, x.momentum.hash ≠ h) →
      Map.find (bs.foldl (scheduleTurn c) s).queued h = Map.find s.queued h := by
  induction bs with
  | nil => intro s _; rfl
  | cons b bs ih =>
    intro s hne
    rw [List.foldl_cons, ih _ (fun x hx => hne x (List.mem_cons_of_mem _ hx))]
    unfold scheduleTurn
    split
    · exact enqueue_queued_other _ _ _ _ _ (fun heq => hne b (List.mem_cons_self _ _) heq.symm)
    · rfl

theorem scheduleLoop_origin (c : Nat) (f s0 : Fetcher) (bs : List DetailedMomentum) :
    ∀ s : Fetcher, s.fetching = s0.fetching →
      (∀ h op, Map.find s.queued h = some op →
        Map.find f.queued h = some op ∨
          ∃ a, Map.find s0.fetching h = some a ∧ op.origin = a.origin) →
      ∀ h op, Map.find (bs.foldl (scheduleTurn c) s).queued h = some op →
        Map.find f.queued h = some op ∨
          ∃ a, Map.find s0.fetching h = some a ∧ op.origin = a.origin := by
  induction bs with
  | nil => intro s _ hinv; exact hinv
  | cons b bs ih =>
    intro s hfe hinv
    rw [List.foldl_cons]
    apply ih
    · rw [scheduleTurn_fetching]
      exact hfe
    · intro h op hfind
      unfold scheduleTurn at hfind
      split at hfind
      · next a ha =>
        rcases enqueue_queued_cases _ _ _ _ _ _ hfind with h1 | ⟨h1, h2⟩
        · exact hinv h op h1
        · refine Or.inr ⟨a, ?_, h2⟩
          rw [h1, ← hfe]
          exact ha
      · exact hinv h op hfind

/-- The calls of `enqueue` made by the `filter` handler, turn by turn: the
blocks passed are, in the order of the batch, those whose hash is in
`fetching`, not in `queued` and unknown to `getBlock`, each with the origin of
`fetching[hash]`.  With `before` the blocks passed ahead of `b`, the call for
`b` is made in the state the calls for `before` leave, where the counter of a
peer is at most its value at the start plus the length of `before`. -/
theorem filter_schedules_turns (known : Hash → Bool) (chainHeight : Nat) (f : Fetcher)
    (blocks : List DetailedMomentum) :
    (filterFirst known f blocks).2.1
      = blocks.filter (fun b => requested f b.momentum.hash && !known b.momentum.hash) ∧
    (∀ (before after : List DetailedMomentum) (b : DetailedMomentum) (a : Announce),
      (filterFirst known f blocks).2.1 = before ++ b :: after →
      Map.find f.fetching b.momentum.hash = some a →
      scheduleTurn chainHeight
          (before.foldl (scheduleTurn chainHeight) (filterFirst known f blocks).1) b
        = enqueue chainHeight
            (before.foldl (scheduleTurn chainHeight) (filterFirst known f blocks).1)
            a.origin b ∧
      (∀ p, Map.get (before.foldl (scheduleTurn chainHeight)
          (filterFirst known f blocks).1).queues p ≤ Map.get f.queues p + before.length) ∧
      (Map.get (before.foldl (scheduleTurn chainHeight)
          (filterFirst known f blocks).1).queues a.origin < 64 →
        b.momentum.height < 2 ^ 64 → chainHeight < 2 ^ 64 →
        (chainHeight : Int) - 7 ≤ b.momentum.height →
        (b.momentum.height : Int) ≤ chainHeight + 32 →
        ∃ op, Map.find (filter known chainHeight f blocks).1.queued b.momentum.hash = some op ∧
          op.origin = a.origin)) ∧
    (∀ b ∈ (filter known chainHeight f blocks).2,
      b ∉ (filterFirst known f blocks).2.1 ∧
      Map.find (filter known chainHeight f blocks).1.queued b.momentum.hash
        = Map.find f.queued b.momentum.hash) := by
  obtain ⟨e1, e2, e3, e4, e5⟩ := filterFirst_explicit known f blocks
  have hexp : ∀ x ∈ (filterFirst known f blocks).2.1,
      requested f x.momentum.hash = true ∧ known x.momentum.hash = false := by
    intro x hx
    rw [e1, List.mem_filter] at hx
    simpa using hx.2
  refine ⟨e1, ?_, ?_⟩
  · intro before after b a hsplit hfa
    have hb : b ∈ (filterFirst known f blocks).2.1 := by
      rw [hsplit]
      simp
    obtain ⟨hreq, hk⟩ := hexp b hb
    have hfs : Map.find (before.foldl (scheduleTurn chainHeight)
        (filterFirst known f blocks).1).fetching b.momentum.hash = some a := by
      rw [scheduleLoop_fetching, e4 _ hk]
      exact hfa
    have hcall : scheduleTurn chainHeight
        (before.foldl (scheduleTurn chainHeight) (filterFirst known f blocks).1) b
        = enqueue chainHeight
            (before.foldl (scheduleTurn chainHeight) (filterFirst known f blocks).1)
            a.origin b := by
      simp only [scheduleTurn, hfs]
    refine ⟨hcall, ?_, ?_⟩
    · intro p
      have := scheduleLoop_queues_le chainHeight p before (filterFirst known f blocks).1
      rw [e3] at this
      exact this
    · intro hq hbh hch hlo hhi
      have hfinal : (filter known chainHeight f blocks).1
          = after.foldl (scheduleTurn chainHeight)
              (enqueue chainHeight
                (before.foldl (scheduleTurn chainHeight) (filterFirst known f blocks).1)
                a.origin b) := by
        rw [filter_eq]
        simp only
        rw [hsplit, List.foldl_append, List.foldl_cons, hcall]
      have hsome : ∃ op, Map.find (enqueue chainHeight
          (before.foldl (scheduleTurn chainHeight) (filterFirst known f blocks).1)
          a.origin b).queued b.momentum.hash = some op := by
        rw [enqueue_in_range _ _ _ _ hbh hch hq hlo hhi]
        split
        · exact ⟨{ origin := a.origin, detailed := b }, by simp [Map.find_put]⟩
        · next op hop => exact ⟨op, hop⟩
      obtain ⟨op, hop⟩ := hsome
      have hend : Map.find (filter known chainHeight f blocks).1.queued b.momentum.hash
          = some op := by
        rw [hfinal]
        exact scheduleLoop_queued_keep _ _ _ _ _ hop
      refine ⟨op, hend, ?_⟩
      have horigin := scheduleLoop_origin chainHeight f (filterFirst known f blocks).1
        (filterFirst known f blocks).2.1 (filterFirst known f blocks).1 rfl
        (by
          intro h op1 h1
          rw [e2] at h1
          exact Or.inl h1)
        b.momentum.hash op (by rw [filter_eq] at hend; exact hend)
      rcases horigin with h1 | ⟨a1, h1, h2⟩
      · have := ((requested_iff f _).1 hreq).2
        rw [this] at h1
        exact absurd h1 (by simp)
      · rw [e4 _ hk, hfa] at h1
        simp only [Option.some.injEq] at h1
        rw [h2, h1]
  · intro b hb
    rw [filter_eq] at hb
    have hfalse := e5 b hb
    have hnot : b ∉ (filterFirst known f blocks).2.1 := by
      intro hmem
      obtain ⟨h1, h2⟩ := hexp b hmem
      simp [h1, h2] at hfalse
    refine ⟨hnot, ?_⟩
    rw [filter_eq]
    simp only
    rw [scheduleLoop_queued_other, e2]
    intro x hx heq
    obtain ⟨h1, h2⟩ := hexp x hx
    rw [heq] at h1 h2
    simp [h1, h2] at hfalse

theorem reachable_fetchingBoth : Reachable fetchingBoth [] :=
  Reachable.fetchTimer 7000000000 (fun _ => false) (fun _ => 0)
    (notify (notify empty announceOne) announceTwo).announced [("A", [2, 1])]
    (Reachable.notify announceTwo reachable_notified) (List.Perm.refl _) (by decide)

theorem reachable_crowded (n : Nat) : Reachable (crowded n) [] := by
  induction n with
  | zero => exact reachable_fetchingBoth
  | succ n ih => exact Reachable.inject 0 (fillerBlock n) ih

set_option maxRecDepth 100000 in
theorem crowded_batch :
    Map.find (crowded 63).fetching 2 = some announceTwo ∧
    Map.find (crowded 63).queued 2 = none ∧
    Map.get (crowded 63).queues "A" = 63 ∧
    (filter (fun _ => false) 0 (crowded 63) [blockOne, blockTwo]).2 = [] ∧
    Map.find (filter (fun _ => false) 0 (crowded 63) [blockOne, blockTwo]).1.queued 2
      = none ∧
    Map.get (filter (fun _ => false) 0 (crowded 63) [blockOne, blockTwo]).1.queues "A"
      = 64 := by
  decide

/-- C17: as stated the claim fails.  In the reachable state `crowded 63` peer `A`
has 63 blocks queued and is the announcer chosen for the hashes 1 and 2, which
are being fetched.  The batch of `blockOne` and `blockTwo`, both unknown, comes
in at chain height 0.  For `blockTwo` the hash is in `fetching` and not in
`queued`, its origin `A` is under the quota of 64, and its height 2 lies in
`[0 - 7, 0 + 32]`; yet after the handler hash 2 is not in `queued`, and the
block was not returned either: `blockOne`, queued ahead of it, took the last
place of `A`. -/
theorem filter_drops_second_at_quota :
    Reachable (crowded 63) [] ∧
    Map.find (crowded 63).fetching blockTwo.momentum.hash = some announceTwo ∧
    Map.find (crowded 63).queued blockTwo.momentum.hash = none ∧
    Map.get (crowded 63).queues announceTwo.origin = 63 ∧
    ((0 : Int) - 7 ≤ (blockTwo.momentum.height : Int) ∧
      (blockTwo.momentum.height : Int) ≤ 0 + 32) ∧
    (filter (fun _ => false) 0 (crowded 63) [blockOne, blockTwo]).2 = [] ∧
    Map.find (filter (fun _ => false) 0 (crowded 63) [blockOne, blockTwo]).1.queued
      blockTwo.momentum.hash = none :=
  ⟨reachable_crowded 63, crowded_batch.1, crowded_batch.2.1, crowded_batch.2.2.1,
    by decide, crowded_batch.2.2.2.1, crowded_batch.2.2.2.2.1⟩

/-- C17, amended: the blocks the `filter` handler passes to `enqueue` are, in
the order of the batch, those whose hash is in `fetching`, not in `queued` and
unknown to `getBlock`, each with the origin of `fetching[hash]`.  With `before`
the blocks passed ahead of `b`, the call for `b` is made in the state the calls
for `before` leave, where the counter of a peer is at most its value at the
start plus the length of `before`.  If in that state the origin is under its
block quota, as it is whenever its counter at the start plus the length of
`before` is below 64, and the height of `b` lies in
`[chainHeight - 7, chainHeight + 32]`, then after the handler the hash of `b` is
in `queued` with that origin.  A block that is returned is not passed to
`enqueue`, and the entry of `queued` for its hash is unchanged. -/
theorem filter_schedules_requested (known : Hash → Bool) (chainHeight : Nat) (f : Fetcher)
    (blocks : List DetailedMomentum) :
    (filterFirst known f blocks).2.1
      = blocks.filter (fun b => requested f b.momentum.hash && !known b.momentum.hash) ∧
    (∀ (before after : List DetailedMomentum) (b : DetailedMomentum) (a : Announce),
      (filterFirst known f blocks).2.1 = before ++ b :: after →
      Map.find f.fetching b.momentum.hash = some a →
      scheduleTurn chainHeight
          (before.foldl (scheduleTurn chainHeight) (filterFirst known f blocks).1) b
        = enqueue chainHeight
            (before.foldl (scheduleTurn chainHeight) (filterFirst known f blocks).1)
            a.origin b ∧
      (∀ p, Map.get (before.foldl (scheduleTurn chainHeight)
          (filterFirst known f blocks).1).queues p ≤ Map.get f.queues p + before.length) ∧
      (Map.get (before.foldl (scheduleTurn chainHeight)
          (filterFirst known f blocks).1).queues a.origin < 64 →
        b.momentum.height < 2 ^ 64 → chainHeight < 2 ^ 64 →
        (chainHeight : Int) - 7 ≤ b.momentum.height →
        (b.momentum.height : Int) ≤ chainHeight + 32 →
        ∃ op, Map.find (filter known chainHeight f blocks).1.queued b.momentum.hash = some op ∧
          op.origin = a.origin) ∧
      (Map.get f.queues a.origin + before.length < 64 →
        b.momentum.height < 2 ^ 64 → chainHeight < 2 ^ 64 →
        (chainHeight : Int) - 7 ≤ b.momentum.height →
        (b.momentum.height : Int) ≤ chainHeight + 32 →
        ∃ op, Map.find (filter known chainHeight f blocks).1.queued b.momentum.hash = some op ∧
          op.origin = a.origin)) ∧
    (∀ b ∈ (filter known chainHeight f blocks).2,
      b ∉ (filterFirst known f blocks).2.1 ∧
      Map.find (filter known chainHeight f blocks).1.queued b.momentum.hash
        = Map.find f.queued b.momentum.hash) := by
  obtain ⟨h1, h2, h3⟩ := filter_schedules_turns known chainHeight f blocks
  refine ⟨h1, ?_, h3⟩
  intro before after b a hsplit hfind
  obtain ⟨g1, g2, g3⟩ := h2 before after b a hsplit hfind
  refine ⟨g1, g2, g3, ?_⟩
  intro hq hb hc hlo hhi
  have hle := g2 a.origin
  exact g3 (by omega) hb hc hlo hhi

/-- The handler at the state `fetchingBoth` for the batch of the two requested
blocks, at chain height 0: `blockTwo` is passed after `blockOne`, with no block
of `A` queued at the start. -/
theorem filter_schedules_requested_witness :
    (filterFirst (fun _ => false) fetchingBoth [blockOne, blockTwo]).2.1
      = [blockOne] ++ blockTwo :: [] ∧
    Map.get fetchingBoth.queues announceTwo.origin + ([blockOne].length : Int) < 64 ∧
    ∃ op,
      Map.find (filter (fun _ => false) 0 fetchingBoth [blockOne, blockTwo]).1.queued 2
        = some op ∧
      op.origin = announceTwo.origin :=
  ⟨by decide, by decide,
    ((filter_schedules_requested (fun _ => false) 0 fetchingBoth [blockOne, blockTwo]).2.1
      [blockOne] [] blockTwo announceTwo (by decide) (by decide)).2.2.2
      (by decide) (by decide) (by decide) (by decide) (by decide)⟩

/-! ## What the pop order does guarantee -/

theorem top_eq_none (q : Prque) (h : top q = none) : q = [] := by
  cases q with
  | nil => rfl
  | cons x q =>
    unfold top at h
    split at h
    · exact absurd h (by simp)
    · split at h <;> exact absurd h (by simp)

/-- The entry taken by `top` has the greatest priority of the queue. -/
theorem top_greatest (q : Prque) (e : Inject × Int) (h : top q = some e) :
    ∀ x ∈ q, x.2 ≤ e.2 := by
  induction q generalizing e with
  | nil => simp [top] at h
  | cons y q ih =>
    unfold top at h
    split at h
    · next hnone =>
      simp only [Option.some.injEq] at h
      rw [top_eq_none q hnone, ← h]
      intro x hx
      simp only [List.mem_singleton] at hx
      rw [hx]
    · next e1 he1 =>
      have i1 := ih e1 he1
      intro x hx
      split at h
      · next hgt =>
        simp only [Option.some.injEq] at h
        rw [← h]
        rcases List.mem_cons.1 hx with hx | hx
        · rw [hx]
          omega
        · exact i1 x hx
      · next hle =>
        simp only [Option.some.injEq] at h
        rw [← h]
        rcases List.mem_cons.1 hx with hx | hx
        · rw [hx]
        · have := i1 x hx
          omega

/-- Below `2^24` the conversion to `float32` is exact. -/
theorem float32OfUint64_exact (x : Nat) (h : x < 2 ^ 24) : float32OfUint64 x = x := by
  unfold float32OfUint64
  rw [if_pos h]

/-- In a queue whose entries carry the priority `enqueue` gives them and whose
heights are below `2^24`, the entry popped has the lowest height. -/
theorem popItem_lowest (q rest : Prque) (op : Inject) (hpop : popItem q = some (op, rest))
    (hq : ∀ e ∈ q, e.2 = -(float32OfUint64 e.1.detailed.momentum.height : Int) ∧
      e.1.detailed.momentum.height < 2 ^ 24) :
    ∀ e ∈ q, op.detailed.momentum.height ≤ e.1.detailed.momentum.height := by
  unfold popItem at hpop
  split at hpop
  · exact absurd hpop (by simp)
  · next e0 he0 =>
    simp only [Option.some.injEq, Prod.mk.injEq] at hpop
    intro e he
    have hge := top_greatest q e0 he0 e he
    have h0 := hq e0 (top_mem q e0 he0)
    have h1 := hq e he
    rw [h0.1, h1.1, float32OfUint64_exact _ h0.2, float32OfUint64_exact _ h1.2, hpop.1] at hge
    omega

/-! ## The calls of the import worker -/

/-- C21: as stated the claim fails.  With the parent found, the validation and
`insertChain` succeeding and no testing hook set, as in a fetcher built by
`New`, the worker makes no call of the imported hook. -/
theorem hook_unset_not_called :
    insert plainSuccess "A" blockOne =
      [Effect.getBlock 0, Effect.validateBlock blockOne.momentum,
        Effect.broadcastBlock blockOne true, Effect.insertChain [blockOne],
        Effect.broadcastBlock blockOne false, Effect.done 1] ∧
    ∀ m, Effect.importedHook m ∉ insert plainSuccess "A" blockOne := by
  refine ⟨by decide, ?_⟩
  intro m
  simp [insert, insertBody, plainSuccess]

/-- C21, amended: the import worker calls `insertChain` if and only if the
parent is found and `validateBlock` returns no error, and then exactly once,
with the batch `[detailed]`; the broadcast with `propagate = false` is started
if and only if that call returns no error, and the imported hook is called if
and only if that call returns no error and a hook is set; the broadcast with
`propagate = true` is started exactly when the validation succeeds, right
before `insertChain`. -/
theorem worker_inserts_after_validation (o : Outcome) (peer : PeerId) (d : DetailedMomentum) :
    ((insert o peer d).filter Effect.isInsertChain
      = if o.parentFound = true ∧ o.validateOk = true then [Effect.insertChain [d]] else []) ∧
    (Effect.broadcastBlock d false ∈ insert o peer d ↔
      o.parentFound = true ∧ o.validateOk = true ∧ o.insertOk = true) ∧
    (∀ m, Effect.importedHook m ∈ insert o peer d ↔
      o.parentFound = true ∧ o.validateOk = true ∧ o.insertOk = true ∧ o.hookSet = true ∧
        m = d.momentum) ∧
    (∀ x, Effect.broadcastBlock x true ∈ insert o peer d ↔
      o.parentFound = true ∧ o.validateOk = true ∧ x = d) ∧
    (o.parentFound = true → o.validateOk = true →
      ∃ before after, insert o peer d
        = before ++ Effect.broadcastBlock d true :: Effect.insertChain [d] :: after) := by
  obtain ⟨a, b, c, e⟩ := o
  refine ⟨?_, ?_, ?_, ?_, ?_⟩
  · cases a <;> cases b <;> cases c <;> cases e <;>
      simp [insert, insertBody, Effect.isInsertChain, List.filter]
  · cases a <;> cases b <;> cases c <;> cases e <;> simp [insert, insertBody]
  · intro m
    cases a <;> cases b <;> cases c <;> cases e <;> simp [insert, insertBody]
  · intro x
    cases a <;> cases b <;> cases c <;> cases e <;> simp [insert, insertBody, eq_comm]
  · intro ha hb
    simp only at ha hb
    subst ha hb
    refine ⟨[Effect.getBlock d.momentum.previousHash, Effect.validateBlock d.momentum], ?_⟩
    cases c <;> cases e <;> simp [insert, insertBody]

/-- The worker of `blockOne` with every callback succeeding and no hook set. -/
theorem worker_inserts_after_validation_witness :
    (insert plainSuccess "A" blockOne).filter Effect.isInsertChain
      = [Effect.insertChain [blockOne]] ∧
    ∃ before after, insert plainSuccess "A" blockOne
      = before ++ Effect.broadcastBlock blockOne true :: Effect.insertChain [blockOne] :: after :=
  ⟨(worker_inserts_after_validation plainSuccess "A" blockOne).1,
    (worker_inserts_after_validation plainSuccess "A" blockOne).2.2.2.2 rfl rfl⟩

/-! ## The worker and the loop after `quit` -/

theorem step_keeps_blocked (s t : Running) (hstep : Step s t) (hr : s.returned = true)
    (hw : ∃ before h, s.worker = before ++ [Effect.done h]) :
    t.returned = true ∧ ∃ before h, t.worker = before ++ [Effect.done h] := by
  cases hstep with
  | call r f e rest hne =>
    refine ⟨hr, ?_⟩
    obtain ⟨before, h, hb⟩ := hw
    simp only at hb
    cases before with
    | nil =>
      simp only [List.nil_append, List.cons.injEq] at hb
      exact absurd hb.1 (hne h)
    | cons x before =>
      simp only [List.cons_append, List.cons.injEq] at hb
      exact ⟨before, h, hb.2⟩
  | receive f h rest => simp at hr
  | quit f w => simp at hr

/-- Once the loop has returned, a worker that has its send on `done` ahead
never gets to the end of its work. -/
theorem blocked_after_quit (s t : Running) (hsteps : Relation.ReflTransGen Step s t)
    (hr : s.returned = true) (hw : ∃ before h, s.worker = before ++ [Effect.done h]) :
    t.worker ≠ [] := by
  have key : t.returned = true ∧ ∃ before h, t.worker = before ++ [Effect.done h] := by
    induction hsteps with
    | refl => exact ⟨hr, hw⟩
    | tail _ hstep ih => exact step_keeps_blocked _ _ hstep ih.1 ih.2
  obtain ⟨_, before, h, hb⟩ := key
  rw [hb]
  simp

/-- C22: the claim fails on the code.  Whatever the callbacks answer, the
worker started for `blockFive` never finishes once the loop has returned: its
send on `done` finds no receiver.  While the loop runs, the same worker (here
without a parent) finishes and the loop handles its signal. -/
theorem worker_blocked_after_return :
    (∀ (o : Outcome) (s : Running),
      Relation.ReflTransGen Step ⟨true, importStarted, insert o "A" blockFive.detailed⟩ s →
        s.worker ≠ []) ∧
    Relation.ReflTransGen Step ⟨false, importStarted, insert orphan "A" blockFive.detailed⟩
      ⟨false, done importStarted 5, []⟩ := by
  refine ⟨?_, ?_⟩
  · intro o s hs
    exact blocked_after_quit _ s hs rfl ⟨insertBody o "A" blockFive.detailed, 5, rfl⟩
  · have e : insert orphan "A" blockFive.detailed = [Effect.getBlock 4, Effect.done 5] := by
      decide
    rw [e]
    exact Relation.ReflTransGen.tail
      (Relation.ReflTransGen.single
        (Step.call false importStarted (Effect.getBlock 4) [Effect.done 5] (by simp)))
      (Step.receive importStarted 5 [])

/-! ## The expiry phase -/

theorem since_gt_iff (now t c : Int) (h1 : -(2 ^ 63) ≤ c) (h2 : c < 2 ^ 63 - 1) :
    since now t > c ↔ now - t > c := by
  unfold since
  norm_num at h1 h2 ⊢
  omega

theorem Map.find_of_mem {κ ν : Type} [DecidableEq κ] (m : List (κ × ν)) (k : κ) (v : ν)
    (hnd : (Map.keys m).Nodup) (hmem : (k, v) ∈ m) : Map.find m k = some v := by
  induction m with
  | nil => simp at hmem
  | cons e m ih =>
    have hnd1 : e.1 ∉ Map.keys m ∧ (Map.keys m).Nodup := by
      simpa [Map.keys] using hnd
    rcases List.mem_cons.1 hmem with h | h
    · rw [← h]
      simp [Map.find]
    · have hne : e.1 ≠ k := by
        intro heq
        exact hnd1.1 (heq ▸ List.mem_map_of_mem Prod.fst h)
      simp only [Map.find, if_neg hne]
      exact ih hnd1.2 h

theorem forgetHash_fetching_find (g : Fetcher) (h x : Hash) :
    Map.find (forgetHash g h).fetching x = if x = h then none else Map.find g.fetching x := by
  rw [forgetHash_fetching, Map.find_remove]

theorem expire_fetching_kept (now : Int) (x : Hash) (order : List (Hash × Announce)) :
    ∀ g : Fetcher, (∀ e ∈ order, e.1 = x → ¬ since now e.2.time > fetchTimeout) →
      Map.find (expire now order g).fetching x = Map.find g.fetching x := by
  induction order with
  | nil => intro g _; rfl
  | cons e order ih =>
    intro g hk
    unfold expire at ih ⊢
    rw [List.foldl_cons, ih _ (fun e1 he1 => hk e1 (List.mem_cons_of_mem _ he1))]
    split
    · next hexp =>
      have hne : x ≠ e.1 := fun heq => hk e (List.mem_cons_self _ _) heq.symm hexp
      rw [forgetHash_fetching_find, if_neg hne]
    · rfl

theorem expire_fetching_none (now : Int) (x : Hash) (order : List (Hash × Announce)) :
    ∀ g : Fetcher, Map.find g.fetching x = none →
      Map.find (expire now order g).fetching x = none := by
  induction order with
  | nil => intro g hg; exact hg
  | cons e order ih =>
    intro g hg
    unfold expire at ih ⊢
    rw [List.foldl_cons]
    apply ih
    split
    · rw [forgetHash_fetching_find]
      split
      · rfl
      · exact hg
    · exact hg

theorem expire_fetching_forgotten (now : Int) (x : Hash) (order : List (Hash × Announce)) :
    ∀ g : Fetcher, (∃ e ∈ order, e.1 = x ∧ since now e.2.time > fetchTimeout) →
      Map.find (expire now order g).fetching x = none := by
  induction order with
  | nil => intro g h; simp at h
  | cons e order ih =>
    intro g hex
    obtain ⟨e1, he1, hx, hexp⟩ := hex
    rcases List.mem_cons.1 he1 with h | h
    · subst h
      have := expire_fetching_none now x order (forgetHash g e1.1)
        (by rw [forgetHash_fetching_find, if_pos hx.symm])
      unfold expire at this ⊢
      rw [List.foldl_cons, if_pos hexp]
      exact this
    · have := ih (if since now e.2.time > fetchTimeout then forgetHash g e.1 else g)
        ⟨e1, h, hx, hexp⟩
      unfold expire at this ⊢
      rw [List.foldl_cons]
      exact this

theorem expire_announced (now : Int) (order : List (Hash × Announce)) :
    ∀ g : Fetcher, (∀ e ∈ order, Map.find g.announced e.1 = none) →
      (expire now order g).announced = g.announced := by
  induction order with
  | nil => intro g _; rfl
  | cons e order ih =>
    intro g hg
    have hstep : (if since now e.2.time > fetchTimeout then forgetHash g e.1 else g).announced
        = g.announced := by
      split
      · rw [forgetHash_announced]
        exact Map.remove_of_find_none _ _ (hg e (List.mem_cons_self _ _))
      · rfl
    have := ih (if since now e.2.time > fetchTimeout then forgetHash g e.1 else g)
      (by
        intro e1 he1
        rw [hstep]
        exact hg e1 (List.mem_cons_of_mem _ he1))
    unfold expire at this ⊢
    rw [List.foldl_cons, this, hstep]

/-- The expiry phase in a state whose `fetching` has distinct keys, none of them
a key of `announced`. -/
theorem expire_spec (now : Int) (order : List (Hash × Announce)) (f : Fetcher)
    (hnd : (Map.keys f.fetching).Nodup) (hperm : order.Perm f.fetching)
    (hdis : List.Disjoint (Map.keys f.announced) (Map.keys f.fetching)) :
    (∀ h a, Map.find f.fetching h = some a →
      Map.find (expire now order f).fetching h
        = if now - a.time ≤ 5000000000 then some a else none) ∧
    (∀ h, Map.find f.fetching h = none → Map.find (expire now order f).fetching h = none) ∧
    (expire now order f).announced = f.announced ∧
    (expire now order f).queued = f.queued ∧
    (expire now order f).queues = f.queues ∧
    (expire now order f).queue = f.queue := by
  have hrest := expire_preserves
    (fun g => g.queued = f.queued ∧ g.queues = f.queues ∧ g.queue = f.queue)
    (fun g hash hg => by simpa using hg) now order f ⟨rfl, rfl, rfl⟩
  refine ⟨?_, fun h hn => expire_fetching_none now h order f hn, ?_, hrest.1, hrest.2.1,
    hrest.2.2⟩
  · intro h a hfind
    have hmem : (h, a) ∈ order := hperm.mem_iff.2 (Map.mem_of_find _ _ _ hfind)
    have hold : since now a.time > fetchTimeout ↔ now - a.time > 5000000000 := by
      unfold fetchTimeout
      exact since_gt_iff now a.time (5 * 1000000000) (by norm_num) (by norm_num)
    by_cases hexp : now - a.time ≤ 5000000000
    · rw [if_pos hexp, expire_fetching_kept now h order f, hfind]
      intro e he hx hgt
      have he2 : Map.find f.fetching e.1 = some e.2 :=
        Map.find_of_mem _ _ _ hnd (hperm.mem_iff.1 he)
      rw [hx, hfind] at he2
      simp only [Option.some.injEq] at he2
      rw [← he2] at hgt
      omega
    · rw [if_neg hexp]
      exact expire_fetching_forgotten now h order f ⟨(h, a), hmem, rfl, by simp only; omega⟩
  · apply expire_announced
    intro e he
    have hk : e.1 ∈ Map.keys f.fetching :=
      List.mem_map_of_mem Prod.fst (hperm.mem_iff.1 he)
    exact (Map.find_eq_none_iff _ _).2 (fun hin => hdis hin hk)

/-- In every reachable state the keys of `fetching` are distinct and none of
them is a key of `announced`. -/
theorem reachable_fetching_maps {f : Fetcher} {w : List Hash} (h : Reachable f w) :
    (Map.keys f.fetching).Nodup ∧
      List.Disjoint (Map.keys f.announced) (Map.keys f.fetching) := by
  have key : (Map.keys f.fetching).Nodup ∧
      ∀ hash, Map.find f.announced hash = none ∨ Map.find f.fetching hash = none := by
    refine reachable_state_induction
      (fun f => (Map.keys f.fetching).Nodup ∧
        ∀ hash, Map.find f.announced hash = none ∨ Map.find f.fetching hash = none)
      ?_ ?_ ?_ ?_ ?_ ?_ ?_ h
    · exact ⟨List.nodup_nil, fun _ => Or.inl rfl⟩
    · intro f hash hf
      refine ⟨?_, ?_⟩
      · rw [forgetHash_fetching]
        exact Map.nodup_keys_remove _ _ hf.1
      · intro x
        rw [forgetHash_announced, forgetHash_fetching, Map.find_remove, Map.find_remove]
        split
        · exact Or.inl rfl
        · exact hf.2 x
    · intro f hash a hf
      refine ⟨?_, ?_⟩
      · show (Map.keys (Map.put (forgetHash f hash).fetching hash a)).Nodup
        rw [forgetHash_fetching]
        exact Map.nodup_keys_put _ _ _ (Map.nodup_keys_remove _ _ hf.1)
      · intro x
        simp only [forgetHash_announced, forgetHash_fetching, Map.find_remove, Map.find_put]
        split
        · exact Or.inl rfl
        · exact hf.2 x
    · intro f a hf
      refine ⟨by rw [notify_fetching]; exact hf.1, ?_⟩
      intro x
      by_cases h1 : Map.get f.announces a.origin + 1 > 256
      · rw [notify_reject f a h1]; exact hf.2 x
      · by_cases h2 : Map.find f.fetching a.hash = none
        · rw [notify_accept f a (by omega) h2]
          simp only [Map.find_put]
          split
          · next hx => exact Or.inr (hx ▸ h2)
          · exact hf.2 x
        · rw [notify_fetched f a h2]; exact hf.2 x
    · intro c f peer d hf
      rw [enqueue_fetching, enqueue_announced]
      exact hf
    · intro f hash hf
      rw [forgetBlock_fetching, forgetBlock_announced]
      exact hf
    · intro f q hf
      exact hf
  refine ⟨key.1, ?_⟩
  intro x hx1 hx2
  rcases key.2 x with h1 | h1
  · exact (Map.find_eq_none_iff _ _).1 h1 hx1
  · exact (Map.find_eq_none_iff _ _).1 h1 hx2

/-- C30: in every reachable state and for every time `now`, whatever the order
in which the map is ranged over, after the expiry phase `fetching` holds
exactly those of its previous entries whose announce has
`now - announce.time ≤ 5 s`: every older entry is forgotten, every other entry
is kept unchanged and no entry is added, and `announced`, `queued`, `queues`
and the priority queue are unchanged. -/
theorem expire_forgets_old_fetches (now : Int) (order : List (Hash × Announce)) (f : Fetcher)
    (w : List Hash) (hreach : Reachable f w) (hperm : order.Perm f.fetching) :
    (∀ h a, Map.find f.fetching h = some a →
      Map.find (expire now order f).fetching h
        = if now - a.time ≤ 5000000000 then some a else none) ∧
    (∀ h, Map.find f.fetching h = none → Map.find (expire now order f).fetching h = none) ∧
    (expire now order f).announced = f.announced ∧
    (expire now order f).queued = f.queued ∧
    (expire now order f).queues = f.queues ∧
    (expire now order f).queue = f.queue :=
  expire_spec now order f (reachable_fetching_maps hreach).1 hperm
    (reachable_fetching_maps hreach).2

/-- The expiry phase at 6 s and at 3 s on the reachable state `fetchingOne`, whose
fetch of hash 1 was started at 0.5 s for an announce made at time 0. -/
theorem expire_forgets_old_fetches_witness :
    Reachable fetchingOne [] ∧
    Map.find (expire 6000000000 fetchingOne.fetching fetchingOne).fetching 1 = none ∧
    (expire 6000000000 fetchingOne.fetching fetchingOne).announced = fetchingOne.announced ∧
    Map.find (expire 3000000000 fetchingOne.fetching fetchingOne).fetching 1
      = some announceOne := by
  have h := expire_forgets_old_fetches 6000000000 fetchingOne.fetching fetchingOne []
    reachable_fetchingOne (List.Perm.refl _)
  have h3 := expire_forgets_old_fetches 3000000000 fetchingOne.fetching fetchingOne []
    reachable_fetchingOne (List.Perm.refl _)
  exact ⟨reachable_fetchingOne, by simpa [announceOne] using h.1 1 announceOne (by decide),
    h.2.2.1, by simpa [announceOne] using h3.1 1 announceOne (by decide)⟩

/-! ## `reschedule` -/

theorem earliestLoop_spec (order : List (Hash × List Announce)) :
    ∀ acc : Int, (∀ e ∈ order, e.2 ≠ []) →
      ∃ r, earliestLoop order acc = some r ∧ r ≤ acc ∧
        (∀ e ∈ order, ∀ first rest, e.2 = first :: rest → r ≤ first.time) ∧
        (r = acc ∨ ∃ e ∈ order, ∃ first rest, e.2 = first :: rest ∧ r = first.time) := by
  induction order with
  | nil =>
    intro acc _
    exact ⟨acc, rfl, le_refl _, by simp, Or.inl rfl⟩
  | cons e order ih =>
    intro acc hne
    have he := hne e (List.mem_cons_self _ _)
    cases hl : e.2 with
    | nil => exact absurd hl he
    | cons first rest =>
      obtain ⟨r, h1, h2, h3, h4⟩ :=
        ih (if acc > first.time then first.time else acc)
          (fun e1 he1 => hne e1 (List.mem_cons_of_mem _ he1))
      refine ⟨r, ?_, ?_, ?_, ?_⟩
      · simp only [earliestLoop, hl]
        exact h1
      · split at h2 <;> omega
      · intro e1 he1 first1 rest1 hl1
        rcases List.mem_cons.1 he1 with h | h
        · rw [h, hl] at hl1
          simp only [List.cons.injEq] at hl1
          rw [← hl1.1]
          split at h2 <;> omega
        · exact h3 e1 h first1 rest1 hl1
      · rcases h4 with h | ⟨e1, he1, first1, rest1, hl1, hr⟩
        · split at h
          · exact Or.inr ⟨e, List.mem_cons_self _ _, first, rest, hl, h⟩
          · exact Or.inl h
        · exact Or.inr ⟨e1, List.mem_cons_of_mem _ he1, first1, rest1, hl1, hr⟩

/-- C29: the code misses the claim.  In the reachable state whose one announce
is stamped 1 s, `reschedule` at time 0 resets the timer with the delay 500 ms,
where the earliest announce time asks for 500 ms - (0 - 1 s) = 1.5 s: the
search for the earliest time starts from `time.Now()` and only goes down. -/
theorem reschedule_starts_from_now :
    Reachable (notify empty announceAhead) [] ∧
    (notify empty announceAhead).announced = [(4, [announceAhead])] ∧
    reschedule 0 0 (notify empty announceAhead).announced (notify empty announceAhead)
      = some (TimerOp.reset 500000000) ∧
    (500000000 : Int) - (0 - announceAhead.time) = 1500000000 :=
  ⟨Reachable.notify announceAhead Reachable.init, by decide, by decide, by decide⟩

/-- What `reschedule` computes.  With `announced` non-empty it resets the fetch
timer with the delay `500 ms - (later - earliest)`, so that it fires at
`earliest + 500 ms`, where `earliest` is at most `now` and at most every time
`announced[h][0].time`, and is one of them: it is the least of the announce
times as soon as one of them is not after `now`.  With `announced` empty it
does not touch the timer. -/
theorem reschedule_sets_earliest (now later : Int) (order : List (Hash × List Announce))
    (f : Fetcher) (hperm : order.Perm f.announced) (hne : ∀ e ∈ f.announced, e.2 ≠ [])
    (hclock : now ≤ later) :
    (f.announced = [] → reschedule now later order f = some TimerOp.untouched) ∧
    (f.announced ≠ [] →
      ∃ earliest,
        reschedule now later order f
          = some (TimerOp.reset (arriveTimeout - since later earliest)) ∧
        earliest ≤ now ∧
        (∀ e ∈ f.announced, ∀ first rest, e.2 = first :: rest → earliest ≤ first.time) ∧
        (earliest = now ∨
          ∃ e ∈ f.announced, ∃ first rest, e.2 = first :: rest ∧ earliest = first.time) ∧
        (later - earliest < 2 ^ 63 →
          later + (arriveTimeout - since later earliest) = earliest + 500000000)) := by
  refine ⟨?_, ?_⟩
  · intro hempty
    simp [reschedule, hempty]
  · intro hsome
    obtain ⟨r, h1, h2, h3, h4⟩ := earliestLoop_spec order now
      (fun e he => hne e (hperm.mem_iff.1 he))
    have hlen : ¬ f.announced.length = 0 := by
      intro h0
      exact hsome (List.length_eq_zero.1 h0)
    have hsince : 0 ≤ since later r ∧ since later r ≤ 2 ^ 63 - 1 ∧
        (later - r < 2 ^ 63 → since later r = later - r) := by
      unfold since
      norm_num
      omega
    refine ⟨r, ?_, h2, ?_, ?_, ?_⟩
    · simp only [reschedule, if_neg hlen, h1]
      congr 2
      unfold wrapInt64 arriveTimeout
      have := hsince.1
      have := hsince.2.1
      norm_num at this ⊢
      omega
    · intro e he
      exact h3 e (hperm.mem_iff.2 he)
    · rcases h4 with h | ⟨e, he, first, rest, hl, hr⟩
      · exact Or.inl h
      · exact Or.inr ⟨e, hperm.mem_iff.1 he, first, rest, hl, hr⟩
    · intro hfit
      rw [hsince.2.2 hfit]
      unfold arriveTimeout
      omega

/-- The timer after the announce of hash 1 at time 0, rescheduled at 0.1 s. -/
theorem reschedule_sets_earliest_witness :
    ∃ earliest,
      reschedule 100000000 100000000 (notify empty announceOne).announced
          (notify empty announceOne)
        = some (TimerOp.reset (arriveTimeout - since 100000000 earliest)) ∧
      earliest ≤ 100000000 :=
  let ⟨earliest, h1, h2, _⟩ :=
    (reschedule_sets_earliest 100000000 100000000 (notify empty announceOne).announced
      (notify empty announceOne) (List.Perm.refl _) (by decide) (by decide)).2 (by decide)
  ⟨earliest, h1, h2⟩

/-! ## Two announces of one hash -/

/-- C28: as stated the claim fails.  After `A` and `B` announced hash 1 at 0 and
at 10 ms, a tick handled at exactly 400 ms requests nothing and leaves the
state as it is: the test is `time.Since(...) > 400 ms`. -/
theorem tick_at_threshold_requests_nothing :
    announcedTwice.announced = [(1, [announceOne, announceOneB])] ∧
    fetchTimer 400000000 (fun _ => false) (fun _ => 0) announcedTwice.announced announcedTwice
      = some (announcedTwice, []) :=
  ⟨by decide, by decide⟩

theorem notify_twice_announced (H : Hash) (t : Int) (A B : PeerId) (fa fb : Nat) :
    (notify (notify empty { hash := H, time := t, origin := A, fetch := fa })
        { hash := H, time := t + 10000000, origin := B, fetch := fb }).announced
      = [(H, [{ hash := H, time := t, origin := A, fetch := fa },
          { hash := H, time := t + 10000000, origin := B, fetch := fb }])] ∧
    (notify (notify empty { hash := H, time := t, origin := A, fetch := fa })
        { hash := H, time := t + 10000000, origin := B, fetch := fb }).fetching = [] := by
  have h1 : notify empty { hash := H, time := t, origin := A, fetch := fa }
      = { empty with
          announces := [(A, 1)]
          announced := [(H, [{ hash := H, time := t, origin := A, fetch := fa }])] } := by
    rw [notify_accept _ _ (by simp [empty, Map.get, Map.find]) (by simp [empty, Map.find])]
    simp [empty, Map.get, Map.find, Map.put, Map.remove]
  rw [h1]
  have hq : Map.get ({ empty with
      announces := [(A, 1)]
      announced := [(H, [{ hash := H, time := t, origin := A, fetch := fa }])] } :
        Fetcher).announces B + 1 ≤ 256 := by
    simp only [Map.get, Map.find]
    split <;> simp
  rw [notify_accept _ _ hq (by simp [empty, Map.find])]
  simp [empty, Map.find, Map.put, Map.remove]

/-- C28, amended: if peers `A` and `B` announce the same unknown hash `H` with
time stamps `t` and `t + 10 ms`, then a fetch-timer tick handled later than
`t + 400 ms` sends exactly one request, for `H` alone, through the closure of
the announce of `A` or of `B` and in the group of that peer, and afterwards
`announced` is empty and `fetching` holds that announce for `H`. -/
theorem tick_fetches_from_one_announcer (H : Hash) (t : Int) (A B : PeerId) (fa fb : Nat)
    (now : Int) (known : Hash → Bool) (pick : Hash → Nat) (hk : known H = false)
    (hlate : now - t > 400000000) :
    ∃ a f1,
      (a = { hash := H, time := t, origin := A, fetch := fa } ∨
        a = { hash := H, time := t + 10000000, origin := B, fetch := fb }) ∧
      fetchTimer now known pick
          (notify (notify empty { hash := H, time := t, origin := A, fetch := fa })
            { hash := H, time := t + 10000000, origin := B, fetch := fb }).announced
          (notify (notify empty { hash := H, time := t, origin := A, fetch := fa })
            { hash := H, time := t + 10000000, origin := B, fetch := fb })
        = some (f1, [(a.origin, [H])]) ∧
      f1.announced = [] ∧ f1.fetching = [(H, a)] ∧
      dispatch f1 [(a.origin, [H])] = some [(a.fetch, [H])] := by
  obtain ⟨e1, e2⟩ := notify_twice_announced H t A B fa fb
  have hsince : since now t > arriveTimeout - gatherSlack := by
    unfold arriveTimeout gatherSlack
    exact (since_gt_iff now t _ (by norm_num) (by norm_num)).2 (by omega)
  generalize notify (notify empty { hash := H, time := t, origin := A, fetch := fa })
    { hash := H, time := t + 10000000, origin := B, fetch := fb } = f at e1 e2
  rw [e1]
  have hfields : ∀ a : Announce,
      ({ forgetHash f H with fetching := Map.put (forgetHash f H).fetching H a } :
        Fetcher).announced = [] ∧
      ({ forgetHash f H with fetching := Map.put (forgetHash f H).fetching H a } :
        Fetcher).fetching = [(H, a)] := by
    intro a
    simp [forgetHash_announced, forgetHash_fetching, e1, e2, Map.put, Map.remove]
  rcases Nat.mod_two_eq_zero_or_one (pick H) with hp | hp
  · refine ⟨{ hash := H, time := t, origin := A, fetch := fa }, _, Or.inl rfl, ?_,
      (hfields _).1, (hfields _).2, ?_⟩
    · simp [fetchTimer, fetchLoop, fetchTurn, hsince, hp, hk, Map.put, Map.remove, Map.find]
    · simp [dispatch, dispatchTurn, (hfields _).2, Map.find]
  · refine ⟨{ hash := H, time := t + 10000000, origin := B, fetch := fb }, _, Or.inr rfl, ?_,
      (hfields _).1, (hfields _).2, ?_⟩
    · simp [fetchTimer, fetchLoop, fetchTurn, hsince, hp, hk, Map.put, Map.remove, Map.find]
    · simp [dispatch, dispatchTurn, (hfields _).2, Map.find]

/-- The tick at 0.5 s after `A` and `B` announced hash 1 at 0 and at 10 ms. -/
theorem tick_fetches_from_one_announcer_witness :
    ∃ a f1, (a = announceOne ∨ a = announceOneB) ∧
      fetchTimer 500000000 (fun _ => false) (fun _ => 0) announcedTwice.announced announcedTwice
        = some (f1, [(a.origin, [1])]) ∧
      f1.announced = [] ∧ f1.fetching = [(1, a)] ∧
      dispatch f1 [(a.origin, [1])] = some [(a.fetch, [1])] :=
  tick_fetches_from_one_announcer 1 0 "A" "B" 7 8 500000000 (fun _ => false) (fun _ => 0) rfl
    (by decide)

/-! ## The fetch-timer handler -/

theorem chosen_some (pick : Hash → Nat) (e : Hash × List Announce) (hne : e.2 ≠ []) :
    ∃ a, chosen pick e = some a ∧ a ∈ e.2 := by
  unfold chosen
  have hlt : pick e.1 % e.2.length < e.2.length := Nat.mod_lt _ (List.length_pos.2 hne)
  rw [List.get?_eq_get hlt]
  exact ⟨_, rfl, List.get_mem _ _ _⟩

theorem fetchTurn_not_past (now : Int) (known : Hash → Bool) (pick : Hash → Nat)
    (acc : Fetcher × List (PeerId × List Hash)) (e : Hash × List Announce) (hne : e.2 ≠ [])
    (hp : past now e.2 = false) : fetchTurn now known pick acc e = some acc := by
  unfold fetchTurn
  unfold past at hp
  cases hl : e.2 with
  | nil => exact absurd hl hne
  | cons first rest =>
    rw [hl] at hp
    simp only [decide_eq_false_iff_not] at hp
    simp only [if_neg hp]

theorem fetchTurn_past (now : Int) (known : Hash → Bool) (pick : Hash → Nat)
    (acc : Fetcher × List (PeerId × List Hash)) (e : Hash × List Announce) (a : Announce)
    (hc : chosen pick e = some a) (hp : past now e.2 = true) :
    fetchTurn now known pick acc e =
      some (if known e.1 = false then
          ({ forgetHash acc.1 e.1 with
              fetching := Map.put (forgetHash acc.1 e.1).fetching e.1 a },
            Map.put acc.2 a.origin ((Map.find acc.2 a.origin).getD [] ++ [e.1]))
        else (forgetHash acc.1 e.1, acc.2)) := by
  unfold fetchTurn
  unfold past at hp
  unfold chosen at hc
  cases hl : e.2 with
  | nil =>
    rw [hl] at hp
    simp at hp
  | cons first rest =>
    rw [hl] at hp hc
    simp only [decide_eq_true_eq] at hp
    simp only [if_pos hp, hc]
    split <;> rfl

theorem groupOf_cons (now : Int) (known : Hash → Bool) (pick : Hash → Nat) (p : PeerId)
    (e : Hash × List Announce) (order : List (Hash × List Announce)) :
    groupOf now known pick p (e :: order)
      = groupOf now known pick p [e] ++ groupOf now known pick p order := by
  unfold groupOf
  rw [← List.map_append, ← List.filter_append]
  rfl

theorem fetchTurn_spec (now : Int) (known : Hash → Bool) (pick : Hash → Nat)
    (acc : Fetcher × List (PeerId × List Hash)) (e : Hash × List Announce) (hne : e.2 ≠ []) :
    ∃ res, fetchTurn now known pick acc e = some res ∧
      (∀ x, x ≠ e.1 →
        Map.find res.1.announced x = Map.find acc.1.announced x ∧
        Map.find res.1.fetching x = Map.find acc.1.fetching x) ∧
      (past now e.2 = false →
        Map.find res.1.announced e.1 = Map.find acc.1.announced e.1 ∧
        Map.find res.1.fetching e.1 = Map.find acc.1.fetching e.1) ∧
      (past now e.2 = true →
        Map.find res.1.announced e.1 = none ∧
        Map.find res.1.fetching e.1 = if known e.1 = false then chosen pick e else none) ∧
      (∀ p, (Map.find res.2 p).getD []
        = (Map.find acc.2 p).getD [] ++ groupOf now known pick p [e]) ∧
      ((Map.keys acc.2).Nodup → (Map.keys res.2).Nodup) ∧
      ((∀ p hs, Map.find acc.2 p = some hs → hs ≠ []) →
        ∀ p hs, Map.find res.2 p = some hs → hs ≠ []) := by
  by_cases hp : past now e.2 = true
  · obtain ⟨a, hc, _⟩ := chosen_some pick e hne
    rw [fetchTurn_past now known pick acc e a hc hp]
    by_cases hk : known e.1 = false
    · rw [if_pos hk]
      refine ⟨_, rfl, ?_, ?_, ?_, ?_, ?_, ?_⟩
      · intro x hx
        simp [forgetHash_announced, forgetHash_fetching, Map.find_remove, Map.find_put, hx]
      · intro hpf
        rw [hp] at hpf
        exact absurd hpf (by simp)
      · intro _
        simp [forgetHash_announced, Map.find_remove, Map.find_put, hk, hc]
      · intro p
        simp only [Map.find_put]
        by_cases hpo : p = a.origin
        · subst hpo
          simp [groupOf, List.filter, hp, hk, hc]
        · have hne2 : ¬ a.origin = p := fun h => hpo h.symm
          simp [groupOf, List.filter, hp, hk, hc, hpo, hne2]
      · intro hnd
        exact Map.nodup_keys_put _ _ _ hnd
      · intro hall p hs hfind
        simp only [Map.find_put] at hfind
        split at hfind
        · simp only [Option.some.injEq] at hfind
          rw [← hfind]
          simp
        · exact hall p hs hfind
    · rw [if_neg hk]
      simp only [Bool.not_eq_false] at hk
      refine ⟨_, rfl, ?_, ?_, ?_, ?_, fun h => h, fun h => h⟩
      · intro x hx
        simp [forgetHash_announced, forgetHash_fetching, Map.find_remove, hx]
      · intro hpf
        rw [hp] at hpf
        exact absurd hpf (by simp)
      · intro _
        simp [forgetHash_announced, forgetHash_fetching, Map.find_remove, hk]
      · intro p
        simp [groupOf, List.filter, hk]
  · simp only [Bool.not_eq_true] at hp
    rw [fetchTurn_not_past now known pick acc e hne hp]
    refine ⟨acc, rfl, fun x _ => ⟨rfl, rfl⟩, fun _ => ⟨rfl, rfl⟩, ?_, ?_, fun h => h, fun h => h⟩
    · intro hpt
      rw [hp] at hpt
      exact absurd hpt (by simp)
    · intro p
      simp [groupOf, List.filter, hp]

theorem fetchLoop_spec (now : Int) (known : Hash → Bool) (pick : Hash → Nat)
    (order : List (Hash × List Announce)) :
    ∀ acc : Fetcher × List (PeerId × List Hash),
      (order.map Prod.fst).Nodup → (∀ e ∈ order, e.2 ≠ []) →
      ∃ res, fetchLoop now known pick order acc = some res ∧
        (∀ x, x ∉ order.map Prod.fst →
          Map.find res.1.announced x = Map.find acc.1.announced x ∧
          Map.find res.1.fetching x = Map.find acc.1.fetching x) ∧
        (∀ e ∈ order, past now e.2 = false →
          Map.find res.1.announced e.1 = Map.find acc.1.announced e.1 ∧
          Map.find res.1.fetching e.1 = Map.find acc.1.fetching e.1) ∧
        (∀ e ∈ order, past now e.2 = true →
          Map.find res.1.announced e.1 = none ∧
          Map.find res.1.fetching e.1 = if known e.1 = false then chosen pick e else none) ∧
        (∀ p, (Map.find res.2 p).getD []
          = (Map.find acc.2 p).getD [] ++ groupOf now known pick p order) ∧
        ((Map.keys acc.2).Nodup → (Map.keys res.2).Nodup) ∧
        ((∀ p hs, Map.find acc.2 p = some hs → hs ≠ []) →
          ∀ p hs, Map.find res.2 p = some hs → hs ≠ []) := by
  induction order with
  | nil =>
    intro acc _ _
    exact ⟨acc, rfl, fun _ _ => ⟨rfl, rfl⟩, by simp, by simp, by simp [groupOf],
      fun h => h, fun h => h⟩
  | cons e order ih =>
    intro acc hnd hne
    rw [List.map_cons, List.nodup_cons] at hnd
    obtain ⟨acc1, t0, t1, t2, t3, t4, t5, t6⟩ :=
      fetchTurn_spec now known pick acc e (hne e (List.mem_cons_self _ _))
    obtain ⟨res, r0, r1, r2, r3, r4, r5, r6⟩ :=
      ih acc1 hnd.2 (fun e1 he1 => hne e1 (List.mem_cons_of_mem _ he1))
    have hkey : ∀ e1 ∈ order, e1.1 ≠ e.1 := by
      intro e1 he1 heq
      exact hnd.1 (heq ▸ List.mem_map_of_mem Prod.fst he1)
    refine ⟨res, ?_, ?_, ?_, ?_, ?_, fun h => r5 (t5 h), fun h => r6 (t6 h)⟩
    · simp only [fetchLoop, t0]
      exact r0
    · intro x hx
      rw [List.map_cons, List.mem_cons, not_or] at hx
      rw [(r1 x hx.2).1, (r1 x hx.2).2]
      exact t1 x hx.1
    · intro e1 he1 hp
      rcases List.mem_cons.1 he1 with h | h
      · rw [h, (r1 e.1 hnd.1).1, (r1 e.1 hnd.1).2]
        exact t2 (h ▸ hp)
      · rw [(r2 e1 h hp).1, (r2 e1 h hp).2]
        exact t1 e1.1 (hkey e1 h)
    · intro e1 he1 hp
      rcases List.mem_cons.1 he1 with h | h
      · rw [h, (r1 e.1 hnd.1).1, (r1 e.1 hnd.1).2]
        exact t3 (h ▸ hp)
      · exact r3 e1 h hp
    · intro p
      rw [r4 p, t4 p, List.append_assoc, ← groupOf_cons]

theorem mem_groupOf (now : Int) (known : Hash → Bool) (pick : Hash → Nat) (p : PeerId)
    (order : List (Hash × List Announce)) (h : Hash) :
    h ∈ groupOf now known pick p order ↔
      ∃ e ∈ order, e.1 = h ∧ past now e.2 = true ∧ known e.1 = false ∧
        (chosen pick e).map Announce.origin = some p := by
  unfold groupOf
  simp only [List.mem_map, List.mem_filter, Bool.and_eq_true, Bool.not_eq_true',
    decide_eq_true_eq]
  constructor
  · rintro ⟨e, ⟨he, ⟨h1, h2⟩, h3⟩, h4⟩
    exact ⟨e, he, h4, h1, h2, h3⟩
  · rintro ⟨e, he, h4, h1, h2, h3⟩
    exact ⟨e, ⟨he, ⟨h1, h2⟩, h3⟩, h4⟩

theorem nodup_groupOf (now : Int) (known : Hash → Bool) (pick : Hash → Nat) (p : PeerId)
    (order : List (Hash × List Announce)) (hnd : (order.map Prod.fst).Nodup) :
    (groupOf now known pick p order).Nodup := by
  unfold groupOf
  exact ((List.filter_sublist order).map Prod.fst).nodup hnd

theorem dispatch_spec (f : Fetcher) (request : List (PeerId × List Hash))
    (h : ∀ e ∈ request, ∃ a first rest,
      e.2 = first :: rest ∧ Map.find f.fetching first = some a ∧ a.origin = e.1) :
    ∃ sent, dispatch f request = some sent ∧
      List.Forall₂ (fun e s => s.2 = e.2 ∧
        ∃ a, a.origin = e.1 ∧ a.fetch = s.1 ∧ ∃ x ∈ e.2, Map.find f.fetching x = some a)
        request sent := by
  induction request with
  | nil => exact ⟨[], rfl, List.Forall₂.nil⟩
  | cons e request ih =>
    obtain ⟨a, first, rest, h1, h2, h3⟩ := h e (List.mem_cons_self _ _)
    obtain ⟨sent, s1, s2⟩ := ih (fun e1 he1 => h e1 (List.mem_cons_of_mem _ he1))
    refine ⟨(a.fetch, e.2) :: sent, ?_, ?_⟩
    · simp only [dispatch, dispatchTurn, h1, h2, s1]
    · refine List.Forall₂.cons ⟨rfl, a, h3, rfl, first, ?_, h2⟩ s2
      rw [h1]
      exact List.mem_cons_self _ _

theorem past_iff (now : Int) (first : Announce) (rest : List Announce) :
    past now (first :: rest) = true ↔ now - first.time > 400000000 := by
  unfold past arriveTimeout gatherSlack
  simp only [decide_eq_true_eq]
  have := since_gt_iff now first.time 400000000 (by norm_num) (by norm_num)
  norm_num at this ⊢
  exact this

theorem eq_of_same_key {κ ν : Type} [DecidableEq κ] (m : List (κ × ν)) (e1 e2 : κ × ν)
    (hnd : (m.map Prod.fst).Nodup) (h1 : e1 ∈ m) (h2 : e2 ∈ m) (hk : e1.1 = e2.1) : e1 = e2 := by
  have f1 := Map.find_of_mem m e1.1 e1.2 hnd h1
  have f2 := Map.find_of_mem m e2.1 e2.2 hnd h2
  rw [hk, f2] at f1
  simp only [Option.some.injEq] at f1
  exact Prod.ext hk f1.symm

/-- C27: in a state whose announce lists are not empty (as in every reachable
state), the fetch-timer handler runs to its end and handles exactly the hashes
`h` of `announced` with `now - announced[h][0].time > 400 ms`: each is removed
from `announced`; it is put in `fetching` if and only if `getBlock(h)` is nil,
and then `fetching[h]` is one of the announces of `announced[h]` and `h`
appears once, in the one request group of that announce's origin; each group is
sent through the closure of an announce of the group's peer held in `fetching`
for a hash of the group.  Every other hash keeps its entries. -/
theorem fetch_timer_promotes (now : Int) (known : Hash → Bool) (pick : Hash → Nat)
    (order : List (Hash × List Announce)) (f : Fetcher)
    (hnd : (Map.keys f.announced).Nodup) (hperm : order.Perm f.announced)
    (hne : ∀ e ∈ f.announced, e.2 ≠ []) :
    ∃ f1 request sent,
      fetchTimer now known pick order f = some (f1, request) ∧
      dispatch f1 request = some sent ∧
      (∀ h first rest, Map.find f.announced h = some (first :: rest) →
        (now - first.time > 400000000 →
          Map.find f1.announced h = none ∧
          (known h = true → Map.find f1.fetching h = none ∧ ∀ e ∈ request, h ∉ e.2) ∧
          (known h = false → ∃ a ∈ first :: rest, Map.find f1.fetching h = some a ∧
            ∃ hs, (a.origin, hs) ∈ request ∧ hs.count h = 1 ∧
              ∀ e ∈ request, h ∈ e.2 → e = (a.origin, hs))) ∧
        (¬ now - first.time > 400000000 →
          Map.find f1.announced h = some (first :: rest) ∧
          Map.find f1.fetching h = Map.find f.fetching h)) ∧
      (∀ h, Map.find f.announced h = none →
        Map.find f1.announced h = none ∧ Map.find f1.fetching h = Map.find f.fetching h) ∧
      (Map.keys request).Nodup ∧
      List.Forall₂ (fun e s => s.2 = e.2 ∧
        ∃ a, a.origin = e.1 ∧ a.fetch = s.1 ∧ ∃ x ∈ e.2, Map.find f1.fetching x = some a)
        request sent := by
  have hond : (order.map Prod.fst).Nodup := (hperm.map Prod.fst).nodup_iff.2 hnd
  obtain ⟨res, r0, r1, r2, r3, r4, r5, r6⟩ := fetchLoop_spec now known pick order (f, []) hond
    (fun e he => hne e (hperm.mem_iff.1 he))
  have hreq : ∀ p, (Map.find res.2 p).getD [] = groupOf now known pick p order := by
    intro p
    rw [r4 p]
    simp [Map.find]
  have hknd : (Map.keys res.2).Nodup := r5 (by simp [Map.keys])
  have hnonempty : ∀ p hs, Map.find res.2 p = some hs → hs ≠ [] :=
    r6 (fun p hs h => by simp [Map.find] at h)
  have hgroup : ∀ e ∈ res.2, e.2 = groupOf now known pick e.1 order ∧ e.2 ≠ [] := by
    intro e he
    have hfind := Map.find_of_mem res.2 e.1 e.2 hknd he
    have := hreq e.1
    rw [hfind] at this
    exact ⟨this, hnonempty _ _ hfind⟩
  have hfetch : ∀ p x, x ∈ groupOf now known pick p order →
      ∃ a, Map.find res.1.fetching x = some a ∧ a.origin = p := by
    intro p x hx
    obtain ⟨e0, he0, hx0, hp0, hk0, hc0⟩ := (mem_groupOf now known pick p order x).1 hx
    obtain ⟨a, ha, _⟩ := chosen_some pick e0 (hne e0 (hperm.mem_iff.1 he0))
    rw [ha] at hc0
    simp only [Option.map_some', Option.some.injEq] at hc0
    have := (r3 e0 he0 hp0).2
    rw [if_pos hk0, ha, hx0] at this
    exact ⟨a, this, hc0⟩
  obtain ⟨sent, s1, s2⟩ := dispatch_spec res.1 res.2 (by
    intro e he
    obtain ⟨g1, g2⟩ := hgroup e he
    cases hl : e.2 with
    | nil => exact absurd hl g2
    | cons first rest =>
      have hmem : first ∈ groupOf now known pick e.1 order := by
        rw [← g1, hl]
        exact List.mem_cons_self _ _
      obtain ⟨a, ha, hao⟩ := hfetch e.1 first hmem
      exact ⟨a, first, rest, rfl, ha, hao⟩)
  refine ⟨res.1, res.2, sent, ?_, s1, ?_, ?_, hknd, s2⟩
  · simp only [fetchTimer]
    exact r0
  · intro h first rest hfind
    have he0 : (h, first :: rest) ∈ order :=
      hperm.mem_iff.2 (Map.mem_of_find _ _ _ hfind)
    refine ⟨?_, ?_⟩
    · intro hlate
      have hp : past now (first :: rest) = true := (past_iff now first rest).2 hlate
      obtain ⟨q1, q2⟩ := r3 (h, first :: rest) he0 hp
      refine ⟨q1, ?_, ?_⟩
      · intro hk
        refine ⟨by simpa [hk] using q2, ?_⟩
        intro e he hin
        rw [(hgroup e he).1] at hin
        obtain ⟨e1, _, hx1, _, hk1, _⟩ := (mem_groupOf now known pick e.1 order h).1 hin
        rw [hx1, hk] at hk1
        exact absurd hk1 (by simp)
      · intro hk
        obtain ⟨a, ha, hamem⟩ := chosen_some pick (h, first :: rest) (by simp)
        have hin : h ∈ groupOf now known pick a.origin order :=
          (mem_groupOf now known pick a.origin order h).2
            ⟨(h, first :: rest), he0, rfl, hp, hk, by rw [ha]; rfl⟩
        have hfr : Map.find res.2 a.origin = some (groupOf now known pick a.origin order) := by
          have := hreq a.origin
          cases hf : Map.find res.2 a.origin with
          | none =>
            rw [hf] at this
            simp only [Option.getD_none] at this
            rw [← this] at hin
            simp at hin
          | some hs =>
            rw [hf] at this
            simp only [Option.getD_some] at this
            rw [this]
        refine ⟨a, hamem, by simpa [hk, ha] using q2,
          groupOf now known pick a.origin order, Map.mem_of_find _ _ _ hfr,
          List.count_eq_one_of_mem (nodup_groupOf now known pick a.origin order hond) hin, ?_⟩
        intro e he hine
        obtain ⟨g1, _⟩ := hgroup e he
        rw [g1] at hine
        obtain ⟨e1, he1, hx1, _, _, hc1⟩ := (mem_groupOf now known pick e.1 order h).1 hine
        have heq : e1 = (h, first :: rest) := eq_of_same_key order _ _ hond he1 he0 hx1
        rw [heq, ha] at hc1
        simp only [Option.map_some', Option.some.injEq] at hc1
        exact Prod.ext hc1.symm (by rw [g1, ← hc1])
    · intro hearly
      have hp : past now (first :: rest) = false := by
        rw [← Bool.not_eq_true, past_iff]
        exact hearly
      obtain ⟨q1, q2⟩ := r2 (h, first :: rest) he0 hp
      exact ⟨by rw [q1]; exact hfind, q2⟩
  · intro h hnone
    have hk : h ∉ order.map Prod.fst := by
      intro hin
      have : h ∈ Map.keys f.announced := (hperm.map Prod.fst).mem_iff.1 hin
      exact (Map.find_eq_none_iff _ _).1 hnone this
    obtain ⟨q1, q2⟩ := r1 h hk
    exact ⟨by rw [q1]; exact hnone, q2⟩

/-- The fetch timer handled at 0.5 s in the state `announcedTwice`, whose hash 1
was announced by `A` at time 0 and by `B` at 10 ms, with the block unknown. -/
theorem fetch_timer_promotes_witness :
    (Map.keys announcedTwice.announced).Nodup ∧
    (∀ e ∈ announcedTwice.announced, e.2 ≠ []) ∧
    ∃ f1 request sent,
      fetchTimer 500000000 (fun _ => false) (fun _ => 0) announcedTwice.announced
        announcedTwice = some (f1, request) ∧
      dispatch f1 request = some sent ∧
      Map.find f1.announced 1 = none ∧
      (Map.keys request).Nodup := by
  have hnd : (Map.keys announcedTwice.announced).Nodup := by decide
  have hne : ∀ e ∈ announcedTwice.announced, e.2 ≠ [] := by decide
  obtain ⟨f1, request, sent, h1, h2, h3, _, h5, _⟩ :=
    fetch_timer_promotes 500000000 (fun _ => false) (fun _ => 0) announcedTwice.announced
      announcedTwice hnd (List.Perm.refl _) hne
  refine ⟨hnd, hne, f1, request, sent, h1, h2, ?_, h5⟩
  exact (h3 1 announceOne [announceOneB] (by decide)).1 (by decide) |>.1

/-! ## The announce maps of reachable states -/

/-- In every reachable state the keys of `announced` are distinct and no announce
list is empty, so that the fetch-timer case and `reschedule` never index an empty
list. -/
theorem reachable_announce_maps {f : Fetcher} {w : List Hash} (h : Reachable f w) :
    (Map.keys f.announced).Nodup ∧ ∀ e ∈ f.announced, e.2 ≠ [] := by
  refine reachable_state_induction
    (fun f => (Map.keys f.announced).Nodup ∧ ∀ e ∈ f.announced, e.2 ≠ []) ?_ ?_ ?_ ?_ ?_ ?_ ?_ h
  · exact ⟨List.nodup_nil, by intro e he; cases he⟩
  · intro f hash hf
    rw [forgetHash_announced]
    refine ⟨Map.nodup_keys_remove _ _ hf.1, ?_⟩
    intro e he
    exact hf.2 e (List.mem_of_mem_filter he)
  · intro f hash a hf
    show (Map.keys (forgetHash f hash).announced).Nodup ∧
      ∀ e ∈ (forgetHash f hash).announced, e.2 ≠ []
    rw [forgetHash_announced]
    refine ⟨Map.nodup_keys_remove _ _ hf.1, ?_⟩
    intro e he
    exact hf.2 e (List.mem_of_mem_filter he)
  · intro f a hf
    by_cases h1 : Map.get f.announces a.origin + 1 > 256
    · rw [notify_reject f a h1]; exact hf
    · by_cases h2 : Map.find f.fetching a.hash = none
      · rw [notify_accept f a (by omega) h2]
        refine ⟨Map.nodup_keys_put _ _ _ hf.1, ?_⟩
        intro e he
        simp only [Map.put, List.mem_cons] at he
        rcases he with he | he
        · rw [he]; simp
        · exact hf.2 e (List.mem_of_mem_filter he)
      · rw [notify_fetched f a h2]; exact hf
  · intro c f p d hf
    rw [enqueue_announced]; exact hf
  · intro f hash hf
    rw [forgetBlock_announced]; exact hf
  · intro f q hf
    exact hf

/-! ## The priority queue and `queued` -/

theorem reachable_importPending : Reachable importPending [5] :=
  Reachable.inject 0 blockTwenty reachable_importStarted

/-- C31: in every reachable state, with `w` the hashes whose import worker was
started and whose `done` signal is not yet handled, every entry of the priority
queue is the value of `queued` for its hash, so that its hash is a key of
`queued`; no two entries of the priority queue have the same hash; and a hash
of `queued` without an entry in the priority queue is in `w`.  The hashes of
`w`, in turn, are keys of `queued` without an entry in the priority queue. -/
theorem queue_entries_are_queued (f : Fetcher) (w : List Hash) (h : Reachable f w) :
    (∀ e ∈ f.queue, Map.find f.queued e.1.hash = some e.1 ∧ e.1.hash ∈ Map.keys f.queued) ∧
    f.queue.Pairwise (fun a b => a.1.hash ≠ b.1.hash) ∧
    (∀ hash ∈ Map.keys f.queued, (∀ e ∈ f.queue, e.1.hash ≠ hash) → hash ∈ w) ∧
    (∀ hash ∈ w, hash ∈ Map.keys f.queued ∧ ∀ e ∈ f.queue, e.1.hash ≠ hash) := by
  obtain ⟨h1, h2, _, h4, h5⟩ := reachable_queueSound h
  have key : ∀ hash, hash ∈ Map.keys f.queued ↔ Map.find f.queued hash ≠ none := by
    intro hash
    have := Map.find_eq_none_iff f.queued hash
    constructor
    · intro hk hn; exact this.1 hn hk
    · intro hn
      by_contra hk
      exact hn (this.2 hk)
  refine ⟨?_, ?_, ?_, ?_⟩
  · intro e he
    have hf := h1 e he
    exact ⟨hf, (key _).2 (by rw [hf]; simp)⟩
  · exact List.pairwise_map.1 h2
  · intro hash hk hno
    rcases h5 hash ((key hash).1 hk) with hw | hq
    · exact hw
    · obtain ⟨e, he, heq⟩ := List.mem_map.1 hq
      exact absurd heq (hno e he)
  · intro hash hw
    obtain ⟨hq, hn⟩ := h4 hash hw
    refine ⟨(key hash).2 hq, ?_⟩
    intro e he heq
    exact hn (List.mem_map.2 ⟨e, he, heq⟩)

/-- The state `importPending`: hash 3 is queued with its entry in the priority
queue, hash 5 is queued without one, its worker being in flight. -/
theorem queue_entries_are_queued_witness :
    importPending.queue = [(blockTwenty, -20)] ∧
    Map.keys importPending.queued = [3, 5] ∧
    (∀ e ∈ importPending.queue,
      Map.find importPending.queued e.1.hash = some e.1 ∧
        e.1.hash ∈ Map.keys importPending.queued) ∧
    importPending.queue.Pairwise (fun a b => a.1.hash ≠ b.1.hash) ∧
    (∀ hash ∈ Map.keys importPending.queued,
      (∀ e ∈ importPending.queue, e.1.hash ≠ hash) → hash ∈ [5]) ∧
    (∀ hash ∈ [5], hash ∈ Map.keys importPending.queued ∧
      ∀ e ∈ importPending.queue, e.1.hash ≠ hash) :=
  ⟨by decide, by decide, queue_entries_are_queued importPending [5] reachable_importPending⟩

end fetcher

namespace implementation

/-! ## `CanPerformUpdate` and `checkAndPerformUpdate` -/

theorem canPerformUpdate_loaded (U : Nat) (context : Context) (m : Momentum)
    (l : LastUpdateVariable) (hm : context.frontier = Result.ok m)
    (hl : context.lastUpdate = Result.ok l) :
    CanPerformUpdate U context =
      if (l.height + U) % 2 ^ 64 ≤ m.height then none else some Error.ErrUpdateTooRecent := by
  unfold CanPerformUpdate
  rw [hm, hl]

theorem canPerformUpdate_none (U : Nat) (context : Context)
    (h : CanPerformUpdate U context = none) :
    ∃ m l, context.frontier = Result.ok m ∧ context.lastUpdate = Result.ok l ∧
      (l.height + U) % 2 ^ 64 ≤ m.height := by
  unfold CanPerformUpdate at h
  cases hm : context.frontier with
  | failed err => rw [hm] at h; simp at h
  | ok m =>
    cases hl : context.lastUpdate with
    | failed err => rw [hm, hl] at h; simp at h
    | ok l =>
      rw [hm, hl] at h
      simp only at h
      by_cases hc : (l.height + U) % 2 ^ 64 ≤ m.height
      · exact ⟨m, l, rfl, rfl, hc⟩
      · rw [if_neg hc] at h; simp at h

/-- C23: when the frontier momentum and the last-update record load,
`CanPerformUpdate` returns nil if and only if
`lastUpdate.Height + UpdateMinNumMomentums <= frontier height` (the sum being
the `uint64` sum of the code, which is the plain sum whenever that is below
`2^64`), and `ErrUpdateTooRecent` otherwise; when the frontier fails to load it
returns that error, and when the last-update record fails to load it returns
that error. -/
theorem can_perform_update_result (U : Nat) (context : Context) :
    (∀ m l, context.frontier = Result.ok m → context.lastUpdate = Result.ok l →
      (CanPerformUpdate U context = none ↔ (l.height + U) % 2 ^ 64 ≤ m.height) ∧
      (¬ (l.height + U) % 2 ^ 64 ≤ m.height →
        CanPerformUpdate U context = some Error.ErrUpdateTooRecent) ∧
      (l.height + U < 2 ^ 64 →
        (CanPerformUpdate U context = none ↔ l.height + U ≤ m.height))) ∧
    (∀ err, context.frontier = Result.failed err → CanPerformUpdate U context = some err) ∧
    (∀ m err, context.frontier = Result.ok m → context.lastUpdate = Result.failed err →
      CanPerformUpdate U context = some err) := by
  refine ⟨?_, ?_, ?_⟩
  · intro m l hm hl
    rw [canPerformUpdate_loaded U context m l hm hl]
    refine ⟨?_, ?_, ?_⟩
    · by_cases hc : (l.height + U) % 2 ^ 64 ≤ m.height
      · simp [hc]
      · simp [hc]
    · intro hc
      rw [if_neg hc]
    · intro hlt
      rw [Nat.mod_eq_of_lt hlt]
      by_cases hc : l.height + U ≤ m.height
      · simp [hc]
      · simp [hc]
  · intro err hm
    unfold CanPerformUpdate
    rw [hm]
  · intro m err hm hl
    unfold CanPerformUpdate
    rw [hm, hl]

/-- A context at frontier height 1000 whose last update was at height 700. -/
theorem can_perform_update_result_witness :
    CanPerformUpdate 300
      { frontier := Result.ok { height := 1000 }, lastUpdate := Result.ok { height := 700 },
        qsrDeposits := [], rewardDeposits := [] } = none :=
  ((can_perform_update_result 300
      { frontier := Result.ok { height := 1000 }, lastUpdate := Result.ok { height := 700 },
        qsrDeposits := [], rewardDeposits := [] }).1
    { height := 1000 } { height := 700 } rfl rfl).1.2 (by decide)

theorem checkAndPerformUpdate_failed (U : Nat) (context : Context) (err : Error)
    (h : CanPerformUpdate U context = some err) :
    checkAndPerformUpdate U context = some (some err, context) := by
  unfold checkAndPerformUpdate
  rw [h]

theorem checkAndPerformUpdate_done (U : Nat) (context : Context) (m : Momentum)
    (l : LastUpdateVariable) (hm : context.frontier = Result.ok m)
    (hl : context.lastUpdate = Result.ok l) (h : (l.height + U) % 2 ^ 64 ≤ m.height) :
    checkAndPerformUpdate U context =
      some (none, { context with lastUpdate := Result.ok { height := m.height } }) := by
  unfold checkAndPerformUpdate
  rw [canPerformUpdate_loaded U context m l hm hl, if_pos h]
  simp only [hm, hl, LastUpdateVariable.Save]

theorem laterCalls_too_recent (U H : Nat) (heights : List Nat) :
    ∀ context : Context, context.lastUpdate = Result.ok { height := H } →
      (∀ h ∈ heights, h < (H + U) % 2 ^ 64) →
      laterCalls U context heights =
        some (heights.map (fun _ => some Error.ErrUpdateTooRecent),
          match heights.getLast? with
          | none => context
          | some h => context.atHeight h) := by
  induction heights with
  | nil => intro context _ _; rfl
  | cons h heights ih =>
    intro context hl hlt
    have hh := hlt h (List.mem_cons_self _ _)
    have hc : CanPerformUpdate U (context.atHeight h) = some Error.ErrUpdateTooRecent := by
      rw [canPerformUpdate_loaded U (context.atHeight h) { height := h } { height := H } rfl
        (by simpa [Context.atHeight] using hl)]
      rw [if_neg (by simpa using hh)]
    unfold laterCalls
    rw [checkAndPerformUpdate_failed U _ _ hc]
    simp only
    rw [ih (context.atHeight h) (by simpa [Context.atHeight] using hl)
      (fun x hx => hlt x (List.mem_cons_of_mem _ hx))]
    simp only [List.map_cons]
    cases heights with
    | nil => rfl
    | cons h1 rest =>
      simp only [List.getLast?_cons_cons]
      cases hg : (h1 :: rest).getLast? with
      | none => simp at hg
      | some x => simp [Context.atHeight]

/-- C24: `checkAndPerformUpdate` returns, and a call that returns an error
leaves the context as it was.  When it succeeds at frontier height `H` the
stored last-update height is `H`, the deposits are untouched, and the later
calls at frontier heights `H'` with `H <= H' < H + UpdateMinNumMomentums` (the
`uint64` sum of the code) all return `ErrUpdateTooRecent` and leave the stored
last-update height equal to `H`. -/
theorem update_limited_to_window (U : Nat) (context : Context) :
    ∃ r, checkAndPerformUpdate U context = some r ∧
      (∀ err, r.1 = some err → r.2 = context) ∧
      (r.1 = none → ∃ m, context.frontier = Result.ok m ∧
        r.2.lastUpdate = Result.ok { height := m.height } ∧
        r.2.qsrDeposits = context.qsrDeposits ∧
        r.2.rewardDeposits = context.rewardDeposits ∧
        ∀ heights : List Nat,
          (∀ h ∈ heights, m.height ≤ h ∧ h < (m.height + U) % 2 ^ 64) →
          ∃ context1,
            laterCalls U r.2 heights =
              some (heights.map (fun _ => some Error.ErrUpdateTooRecent), context1) ∧
            context1.lastUpdate = Result.ok { height := m.height } ∧
            context1.qsrDeposits = context.qsrDeposits ∧
            context1.rewardDeposits = context.rewardDeposits) := by
  cases hc : CanPerformUpdate U context with
  | some err =>
    refine ⟨(some err, context), checkAndPerformUpdate_failed U context err hc, ?_, ?_⟩
    · intro _ _; rfl
    · intro h; simp at h
  | none =>
    obtain ⟨m, l, hm, hl, hle⟩ := canPerformUpdate_none U context hc
    refine ⟨_, checkAndPerformUpdate_done U context m l hm hl hle, ?_, ?_⟩
    · intro err h; simp at h
    · intro _
      refine ⟨m, hm, rfl, rfl, rfl, ?_⟩
      intro heights hh
      refine ⟨_, laterCalls_too_recent U m.height heights _ rfl (fun h hx => (hh h hx).2), ?_⟩
      cases heights.getLast? with
      | none => exact ⟨rfl, rfl, rfl⟩
      | some x => exact ⟨rfl, rfl, rfl⟩

/-- The update made in `updateDue` at height 1000, followed by calls at the
heights 1000 and 1299. -/
theorem update_limited_to_window_witness :
    ∃ context1, checkAndPerformUpdate 300 updateDue = some (none, context1) ∧
      context1.lastUpdate = Result.ok { height := 1000 } ∧
      ∃ context2,
        laterCalls 300 context1 [1000, 1299] =
          some ([some Error.ErrUpdateTooRecent, some Error.ErrUpdateTooRecent], context2) ∧
        context2.lastUpdate = Result.ok { height := 1000 } := by
  obtain ⟨r, h1, _, h3⟩ := update_limited_to_window 300 updateDue
  have hr : checkAndPerformUpdate 300 updateDue =
      some (none, { updateDue with lastUpdate := Result.ok { height := 1000 } }) := by decide
  rw [hr] at h1
  simp only [Option.some.injEq] at h1
  subst h1
  obtain ⟨m, hm, h4, _, _, h5⟩ := h3 rfl
  have hm1 : m = { height := 1000 } := by
    have : updateDue.frontier = Result.ok { height := 1000 } := rfl
    rw [this] at hm
    simp only [Result.ok.injEq] at hm
    exact hm.symm
  subst hm1
  refine ⟨_, rfl, rfl, ?_⟩
  obtain ⟨context2, h6, h7, _⟩ := h5 [1000, 1299] (by decide)
  exact ⟨context2, h6, h7⟩

/-! ## `checkAndConsumeQsr` -/

/-- C25: with `d` the stored QSR deposit of the owner and `r` the required
amount, `checkAndConsumeQsr` returns `ErrNotEnoughDepositedQsr` if and only if
`d < r`, and then leaves the context as it was; otherwise it returns nil and
the stored deposit is `d - r`, with no record left under the owner when
`d - r = 0` and the record `d - r` stored otherwise; the deposits of the other
addresses and the rest of the context are untouched. -/
theorem consume_qsr_result (context : Context) (owner : Address) (r : Int) :
    (((checkAndConsumeQsr context owner r).1 = some Error.ErrNotEnoughDepositedQsr ∧
        (checkAndConsumeQsr context owner r).2 = context) ↔
      GetQsrDeposit context owner < r) ∧
    ((checkAndConsumeQsr context owner r).1 = some Error.ErrNotEnoughDepositedQsr ↔
      GetQsrDeposit context owner < r) ∧
    (¬ GetQsrDeposit context owner < r →
      (checkAndConsumeQsr context owner r).1 = none ∧
      GetQsrDeposit (checkAndConsumeQsr context owner r).2 owner =
        GetQsrDeposit context owner - r ∧
      (GetQsrDeposit context owner - r = 0 →
        fetcher.Map.find (checkAndConsumeQsr context owner r).2.qsrDeposits owner = none) ∧
      (GetQsrDeposit context owner - r ≠ 0 →
        fetcher.Map.find (checkAndConsumeQsr context owner r).2.qsrDeposits owner =
          some (GetQsrDeposit context owner - r)) ∧
      (∀ other, other ≠ owner →
        fetcher.Map.find (checkAndConsumeQsr context owner r).2.qsrDeposits other =
          fetcher.Map.find context.qsrDeposits other) ∧
      (checkAndConsumeQsr context owner r).2.rewardDeposits = context.rewardDeposits ∧
      (checkAndConsumeQsr context owner r).2.lastUpdate = context.lastUpdate ∧
      (checkAndConsumeQsr context owner r).2.frontier = context.frontier) := by
  by_cases hlt : GetQsrDeposit context owner < r
  · have h : checkAndConsumeQsr context owner r =
        (some Error.ErrNotEnoughDepositedQsr, context) := by
      unfold checkAndConsumeQsr
      simp only [if_pos hlt]
    rw [h]
    simp [hlt]
  · by_cases hz : GetQsrDeposit context owner - r = 0
    · have h : checkAndConsumeQsr context owner r =
          (none, { context with
            qsrDeposits := fetcher.Map.remove context.qsrDeposits owner }) := by
        unfold checkAndConsumeQsr
        simp only [if_neg hlt, if_pos hz]
      rw [h]
      refine ⟨by simp [hlt], by simp [hlt], fun _ => ⟨rfl, ?_, ?_, ?_, ?_, rfl, rfl, rfl⟩⟩
      · rw [hz]
        simp [GetQsrDeposit, fetcher.Map.find_remove]
      · intro _
        simp [fetcher.Map.find_remove]
      · intro hne; exact absurd hz hne
      · intro other ho
        simp [fetcher.Map.find_remove, ho]
    · have h : checkAndConsumeQsr context owner r =
          (none, { context with
            qsrDeposits := fetcher.Map.put context.qsrDeposits owner
              (GetQsrDeposit context owner - r) }) := by
        unfold checkAndConsumeQsr
        simp only [if_neg hlt, if_neg hz]
      rw [h]
      refine ⟨by simp [hlt], by simp [hlt], fun _ => ⟨rfl, ?_, ?_, ?_, ?_, rfl, rfl, rfl⟩⟩
      · simp [GetQsrDeposit, fetcher.Map.find_put]
      · intro hz1; exact absurd hz1 hz
      · intro _
        simp [fetcher.Map.find_put]
      · intro other ho
        simp [fetcher.Map.find_put, ho]

/-- The consumption of 20 of the 50 QSR deposited by `alice` in `updateDue`. -/
theorem consume_qsr_result_witness :
    (checkAndConsumeQsr updateDue "alice" 20).1 = none ∧
    GetQsrDeposit (checkAndConsumeQsr updateDue "alice" 20).2 "alice" = 30 := by
  have h := (consume_qsr_result updateDue "alice" 20).2.2 (by decide)
  exact ⟨h.1, by rw [h.2.1]; decide⟩

/-! ## `CollectRewardMethod` -/

theorem validateSendBlock_valid (lib : Library) (p : CollectRewardMethod) (block : AccountBlock)
    (h : (CollectRewardMethod.ValidateSendBlock lib p block).1 = none) :
    CollectRewardMethod.ValidateSendBlock lib p block =
      (none, { block with data := (lib.PackMethod p.MethodName).1 }) := by
  unfold CollectRewardMethod.ValidateSendBlock at h ⊢
  cases hu : lib.UnpackEmptyMethod p.MethodName block.data with
  | some e => rw [hu] at h; simp at h
  | none =>
    rw [hu] at h
    simp only at h ⊢
    by_cases ha : block.amount ≠ 0
    · rw [if_pos ha] at h; simp at h
    · rw [if_neg ha] at h ⊢
      simp only at h
      rw [h]

theorem receiveBlock_valid (lib : Library) (p : CollectRewardMethod) (context : Context)
    (sendBlock : AccountBlock)
    (h : (CollectRewardMethod.ValidateSendBlock lib p sendBlock).1 = none) :
    CollectRewardMethod.ReceiveBlock lib p context sendBlock =
      if (GetRewardDeposit context sendBlock.address).znn = 0 ∧
          (GetRewardDeposit context sendBlock.address).qsr = 0 then
        (Result.failed Error.ErrNothingToWithdraw, context)
      else
        (Result.ok
          ((if (GetRewardDeposit context sendBlock.address).znn > 0 then
              [{ address := sendBlock.toAddress
                 toAddress := lib.TokenContract
                 blockType := BlockType.BlockTypeContractSend
                 amount := 0
                 tokenStandard := TokenStandard.ZnnTokenStandard
                 data := lib.PackMint TokenStandard.ZnnTokenStandard
                   (GetRewardDeposit context sendBlock.address).znn sendBlock.address }]
            else []) ++
           (if (GetRewardDeposit context sendBlock.address).qsr > 0 then
              [{ address := sendBlock.toAddress
                 toAddress := lib.TokenContract
                 blockType := BlockType.BlockTypeContractSend
                 amount := 0
                 tokenStandard := TokenStandard.ZnnTokenStandard
                 data := lib.PackMint TokenStandard.QsrTokenStandard
                   (GetRewardDeposit context sendBlock.address).qsr sendBlock.address }]
            else [])),
          { context with
            rewardDeposits := fetcher.Map.remove context.rewardDeposits sendBlock.address }) := by
  unfold CollectRewardMethod.ReceiveBlock
  rw [validateSendBlock_valid lib p sendBlock h]
  simp only
  by_cases hz : (GetRewardDeposit context sendBlock.address).znn = 0 ∧
      (GetRewardDeposit context sendBlock.address).qsr = 0
  · rw [if_pos hz, if_pos hz]
  · rw [if_neg hz, if_neg hz]
    by_cases h1 : (GetRewardDeposit context sendBlock.address).znn > 0 <;>
      by_cases h2 : (GetRewardDeposit context sendBlock.address).qsr > 0 <;>
      simp [h1, h2]

/-- C26: for a send block that `ValidateSendBlock` accepts, sent from address
`A`, `ReceiveBlock` returns `ErrNothingToWithdraw` and leaves the context as it
was when the ZNN and the QSR reward deposits of `A` are both zero.  Otherwise
it returns the mint block of the ZNN deposit when that is positive, followed by
the mint block of the QSR deposit when that is positive, each minting the
deposited amount of its token to `A`; it removes the reward deposit of `A` and
nothing else, and a further accepted send block from `A` then gets
`ErrNothingToWithdraw`. -/
theorem collect_reward_result (lib : Library) (p : CollectRewardMethod) (context : Context)
    (sendBlock : AccountBlock)
    (hvalid : (CollectRewardMethod.ValidateSendBlock lib p sendBlock).1 = none) :
    ((GetRewardDeposit context sendBlock.address).znn = 0 ∧
        (GetRewardDeposit context sendBlock.address).qsr = 0 →
      CollectRewardMethod.ReceiveBlock lib p context sendBlock =
        (Result.failed Error.ErrNothingToWithdraw, context)) ∧
    (¬ ((GetRewardDeposit context sendBlock.address).znn = 0 ∧
        (GetRewardDeposit context sendBlock.address).qsr = 0) →
      ∃ context1,
        CollectRewardMethod.ReceiveBlock lib p context sendBlock =
          (Result.ok
            ((if 0 < (GetRewardDeposit context sendBlock.address).znn then
                [{ address := sendBlock.toAddress
                   toAddress := lib.TokenContract
                   blockType := BlockType.BlockTypeContractSend
                   amount := 0
                   tokenStandard := TokenStandard.ZnnTokenStandard
                   data := lib.PackMint TokenStandard.ZnnTokenStandard
                     (GetRewardDeposit context sendBlock.address).znn sendBlock.address }]
              else []) ++
             (if 0 < (GetRewardDeposit context sendBlock.address).qsr then
                [{ address := sendBlock.toAddress
                   toAddress := lib.TokenContract
                   blockType := BlockType.BlockTypeContractSend
                   amount := 0
                   tokenStandard := TokenStandard.ZnnTokenStandard
                   data := lib.PackMint TokenStandard.QsrTokenStandard
                     (GetRewardDeposit context sendBlock.address).qsr sendBlock.address }]
              else [])), context1) ∧
        fetcher.Map.find context1.rewardDeposits sendBlock.address = none ∧
        (∀ other, other ≠ sendBlock.address →
          fetcher.Map.find context1.rewardDeposits other =
            fetcher.Map.find context.rewardDeposits other) ∧
        context1.qsrDeposits = context.qsrDeposits ∧
        context1.lastUpdate = context.lastUpdate ∧
        context1.frontier = context.frontier ∧
        ∀ again : AccountBlock, again.address = sendBlock.address →
          (CollectRewardMethod.ValidateSendBlock lib p again).1 = none →
          CollectRewardMethod.ReceiveBlock lib p context1 again =
            (Result.failed Error.ErrNothingToWithdraw, context1)) := by
  rw [receiveBlock_valid lib p context sendBlock hvalid]
  refine ⟨fun hz => by rw [if_pos hz], fun hz => ?_⟩
  rw [if_neg hz]
  refine ⟨_, rfl, ?_, ?_, rfl, rfl, rfl, ?_⟩
  · simp [fetcher.Map.find_remove]
  · intro other ho
    simp [fetcher.Map.find_remove, ho]
  · intro again ha hv
    rw [receiveBlock_valid lib p _ again hv, if_pos]
    simp [GetRewardDeposit, ha, fetcher.Map.find_remove]

/-- The rewards of 7 ZNN and 3 QSR collected by `alice` in `updateDue`. -/
theorem collect_reward_result_witness :
    (CollectRewardMethod.ValidateSendBlock sampleLibrary collect collectSend).1 = none ∧
    ¬ ((GetRewardDeposit updateDue collectSend.address).znn = 0 ∧
      (GetRewardDeposit updateDue collectSend.address).qsr = 0) ∧
    ∃ context1,
      CollectRewardMethod.ReceiveBlock sampleLibrary collect updateDue collectSend =
        (Result.ok
          [{ address := "pillar", toAddress := "token"
             blockType := BlockType.BlockTypeContractSend, amount := 0
             tokenStandard := TokenStandard.ZnnTokenStandard, data := [1, 7, 5] },
           { address := "pillar", toAddress := "token"
             blockType := BlockType.BlockTypeContractSend, amount := 0
             tokenStandard := TokenStandard.ZnnTokenStandard, data := [2, 3, 5] }],
          context1) ∧
      CollectRewardMethod.ReceiveBlock sampleLibrary collect context1 collectSend =
        (Result.failed Error.ErrNothingToWithdraw, context1) := by
  have hv : (CollectRewardMethod.ValidateSendBlock sampleLibrary collect collectSend).1 = none := by
    decide
  have hz : ¬ ((GetRewardDeposit updateDue collectSend.address).znn = 0 ∧
      (GetRewardDeposit updateDue collectSend.address).qsr = 0) := by decide
  obtain ⟨context1, h1, _, _, _, _, _, h2⟩ :=
    (collect_reward_result sampleLibrary collect updateDue collectSend hv).2 hz
  exact ⟨hv, hz, context1, h1, h2 collectSend rfl hv⟩

end implementation
